import Mathlib

/-!
The self-extracting installer archive of ezn.

A shallow embedding of `src/ezn.c` (PatrickHead/ezn): the marker classifier,
the archive scanner (`sections_list`, `global_read`, `header_read`), the archive
builder (`create_installer` and the `emit_*` functions) and the lifecycle stages
(`extract`, `run`, `cleanup`, `install`).

Conventions of the embedding
* A byte is a natural number; a file or a C string is a `List Nat`.  A C string
  never holds the byte 0; `cstr` cuts a buffer at its first 0 byte.
* A `FILE` stream is the file content, the read position and the end-of-file
  indicator.
* Data model LP64: `int` is 32 bits, `long` and `size_t` are 64 bits, `mode_t`
  is an unsigned 32 bit integer.  Conversions are written out (`wrap32`,
  `% 2 ^ 64`, ...).
* Loops that the C code does not bound are given a fuel argument; `none` means
  that the fuel ran out.
* `malloc`, `strdup` and `realloc` are taken to succeed.
-/

namespace Ezn

/-- A sequence of bytes: a file content, a buffer or a C string. -/
abbrev Bytes := List Nat

/-- The bytes of an ASCII string literal. -/
def bytes (s : String) : Bytes := s.toList.map Char.toNat

/-! ## Data model -/

/-- Defines type of markers stored in archive (`marker_type`). -/
inductive marker_type where
  | marker_none
  | marker_data
  | marker_global
  | marker_header
  | marker_end
  deriving DecidableEq, Repr

/-- Currently handled file types (`file_type`). -/
inductive file_type where
  | file_none
  | file_regular
  | file_directory
  deriving DecidableEq, Repr

/-- GLOBAL section in archive.  `exec` is `none` for a NULL pointer; `cleanup`
is the C `int` flag, which only ever holds 0 or 1. -/
structure global_s where
  exec : Option Bytes
  cleanup : Bool
  deriving DecidableEq, Repr

/-- HEADER section in archive.  `name` is `none` for a NULL pointer, `mode` is a
`mode_t`, `length` and `_file_pos` are C `int`s. -/
structure header_s where
  name : Option Bytes
  type : file_type
  mode : Nat
  length : Int
  _file_pos : Int
  deriving DecidableEq, Repr

/-- Generic section, for section list: the tagged union of `section_s`. -/
inductive section_s where
  | global (g : global_s)
  | header (h : header_s)
  deriving DecidableEq, Repr

/-- File information, for file list (`file_s`). -/
structure file_s where
  type : file_type
  name : Bytes
  mode : Nat
  length : Int
  deriving DecidableEq, Repr

/-- A stdio stream opened for reading: content, position, end-of-file flag. -/
structure FILE where
  data : Bytes
  pos : Nat
  eof : Bool
  deriving DecidableEq, Repr

/-! ## Machine integers -/

/-- Conversion of an integer to a 32 bit signed `int` (two's complement). -/
def wrap32 (v : Int) : Int := (v + 2147483648) % 4294967296 - 2147483648

/-- Conversion of an integer to a 64 bit unsigned `size_t`. -/
def to_size_t (v : Int) : Nat := (v % 18446744073709551616).toNat

/-- Conversion of a `size_t` to a 64 bit signed `long`. -/
def to_long (n : Nat) : Int :=
  if n % 18446744073709551616 < 9223372036854775808 then (n % 18446744073709551616 : Nat)
  else ((n % 18446744073709551616 : Nat) : Int) - 18446744073709551616

/-! ## stdio -/

/-- The call `fopen(name, "r")` on a file with content `data`. -/
def fopen_r (data : Bytes) : FILE := ⟨data, 0, false⟩

/-- The call `fseek(f, off, SEEK_SET)`: fails, leaving the stream as it is, for
a negative offset; otherwise moves and clears the end-of-file flag. -/
def fseek_set (f : FILE) (off : Int) : FILE :=
  if off < 0 then f else ⟨f.data, off.toNat, false⟩

/-- The call `ftell(f)`. -/
def ftell (f : FILE) : Nat := f.pos

/-- The call `fread(b, 16, 1, f)`: the bytes that were read (fewer than 16 at
the end of the file) and the stream afterwards. -/
def fread16 (f : FILE) : Bytes × FILE :=
  let got := (f.data.drop f.pos).take 16
  (got, ⟨f.data, f.pos + got.length, f.eof || decide (got.length < 16)⟩)

/-- At most `k` bytes of a line: up to and including the first newline. -/
def take_line : Nat → Bytes → Bytes
  | 0, _ => []
  | _, [] => []
  | k + 1, c :: cs => if c = 10 then [c] else c :: take_line k cs

/-- The call `fgets(b, n, f)`: `none` for NULL (nothing could be read), else
the bytes stored in `b` before the terminating 0. -/
def fgets (n : Nat) (f : FILE) : Option Bytes × FILE :=
  let line := take_line (n - 1) (f.data.drop f.pos)
  if line = [] then (none, ⟨f.data, f.pos, true⟩)
  else (some line, ⟨f.data, f.pos + line.length,
          f.eof || (decide (line.length < n - 1) && decide (line.getLast? ≠ some 10))⟩)

/-! ## string.h -/

/-- A buffer seen as a C string: the bytes before the first 0. -/
def cstr (b : Bytes) : Bytes := b.takeWhile (fun c => decide (c ≠ 0))

/-- The test `!strncmp(a, b, n)`: the first `n` bytes agree, where the
comparison stops after a 0 byte; the end of a list stands for the 0. -/
def strncmp_eq : Nat → Bytes → Bytes → Bool
  | 0, _, _ => true
  | n + 1, a, b =>
    if a.headD 0 ≠ b.headD 0 then false
    else if a.headD 0 = 0 then true
    else strncmp_eq n a.tail b.tail

/-! ## Marker protocol -/

def _ezn_data : String := "DATA"
def _ezn_glob : String := "GLOB"
def _ezn_head : String := "HEAD"
def _ezn_end : String := "END "

/-- The token `sprintf(ezn_data, "*** EZN %s ***", _ezn_data)`. -/
def ezn_data : Bytes := bytes ("*** EZN " ++ _ezn_data ++ " ***")
def ezn_glob : Bytes := bytes ("*** EZN " ++ _ezn_glob ++ " ***")
def ezn_head : Bytes := bytes ("*** EZN " ++ _ezn_head ++ " ***")
def ezn_end : Bytes := bytes ("*** EZN " ++ _ezn_end ++ " ***")

/-- The chain of comparisons of `read_marker` on the buffer `b`. -/
def classify (b : Bytes) : marker_type :=
  if strncmp_eq 16 b ezn_data then marker_type.marker_data
  else if strncmp_eq 16 b ezn_glob then marker_type.marker_global
  else if strncmp_eq 16 b ezn_head then marker_type.marker_header
  else if strncmp_eq 16 b ezn_end then marker_type.marker_end
  else marker_type.marker_none

/-- The function `read_marker`.  The buffer `b` is not initialised: the bytes
that a short `fread` does not overwrite are those of `stale`, the previous
content of the stack slot. -/
def read_marker (stale : Bytes) (f : FILE) : marker_type × FILE :=
  let r := fread16 f
  (classify (r.1 ++ stale.drop r.1.length), r.2)

/-! ## Text conversions -/

/-- The function `strip`: removes the trailing CR and LF bytes of a C string.
(On a string that is or becomes empty the C loop also reads `s[-1]`, one byte
before the buffer; the model leaves that byte out.) -/
def strip (s : Bytes) : Bytes :=
  (s.reverse.dropWhile (fun c => decide (c = 10) || decide (c = 13))).reverse

/-- The function `strip_slash`: removes the trailing slashes of a C string. -/
def strip_slash (s : Bytes) : Bytes :=
  (s.reverse.dropWhile (fun c => decide (c = 47))).reverse

/-- The function `file_type_to_string`. -/
def file_type_to_string : file_type → Bytes
  | file_type.file_regular => bytes "REGULAR"
  | file_type.file_directory => bytes "DIRECTORY"
  | file_type.file_none => bytes "<unknown>"

/-- The function `file_string_to_type` on a C string: two `strcmp` tests. -/
def file_string_to_type (s : Bytes) : file_type :=
  if s = bytes "REGULAR" then file_type.file_regular
  else if s = bytes "DIRECTORY" then file_type.file_directory
  else file_type.file_none

/-- The ctype test `isspace` in the C locale. -/
def isspace (c : Nat) : Bool := decide (c = 32) || (decide (9 ≤ c) && decide (c ≤ 13))

/-- The digits that `strtol` consumes in a base of at most ten, added to `acc`. -/
def parse_digits (base : Nat) : Bytes → Nat → Nat
  | [], acc => acc
  | c :: cs, acc =>
    if 48 ≤ c ∧ c < 48 + base then parse_digits base cs (acc * base + (c - 48)) else acc

/-- The call `strtol(s, NULL, base)` for a base of at most ten: white space, an
optional sign, digits; the value saturates at the bounds of `long`. -/
def strtol (base : Nat) (s : Bytes) : Int :=
  let t := s.dropWhile isspace
  if t.head? = some 45 then max (-(parse_digits base t.tail 0 : Int)) (-9223372036854775808)
  else if t.head? = some 43 then min (parse_digits base t.tail 0 : Int) 9223372036854775807
  else min (parse_digits base t 0 : Int) 9223372036854775807

/-- The call `atoi(s)`, that is `(int) strtol(s, NULL, 10)`. -/
def atoi (s : Bytes) : Int := wrap32 (strtol 10 s)

/-- Conversion of a `long` to `mode_t`. -/
def to_mode_t (v : Int) : Nat := (v % 4294967296).toNat

/-- The digits of `n` in `base`, most significant first; `fuel` bounds the
number of digits. -/
def utoa (base : Nat) : Nat → Nat → Bytes
  | 0, _ => []
  | fuel + 1, n =>
    if n < base then [48 + n] else utoa base fuel (n / base) ++ [48 + n % base]

/-- The conversion `%0o` of `printf` for a `mode_t` argument. -/
def fmt_o (m : Nat) : Bytes := utoa 8 (m % 4294967296 + 1) (m % 4294967296)

/-- The conversion `%d` of `printf` for an `int` argument. -/
def fmt_d (n : Int) : Bytes :=
  if n < 0 then 45 :: utoa 10 (n.natAbs + 1) n.natAbs else utoa 10 (n.natAbs + 1) n.natAbs

/-! ## Archive scanner -/

/-- The body of the loop of `global_read` for one line `b` read by `fgets`. -/
def global_line (ng : global_s) (b : Bytes) : global_s :=
  let s := strip (cstr b)
  if s.length ≠ 0 then
    if strncmp_eq 5 s (bytes "exec ") then { ng with exec := some (s.drop 5) }
    else if strncmp_eq 7 s (bytes "cleanup") then { ng with cleanup := true }
    else ng
  else ng

/-- The loop of `global_read`; `loc` is the C variable of type `int`. -/
def global_loop (stale : Bytes) : Nat → FILE → Int → global_s → Option (global_s × FILE)
  | 0, _, _, _ => none
  | fuel + 1, f, loc, ng =>
    let r := read_marker stale f
    if r.1 = marker_type.marker_end then some (ng, r.2)
    else
      let g := fgets 4096 (fseek_set r.2 loc)
      let ng1 := match g.1 with
        | some b => global_line ng b
        | none => ng
      global_loop stale fuel g.2 (wrap32 (ftell g.2)) ng1

/-- The function `global_read`: the Global and the stream after it. -/
def global_read (stale : Bytes) (fuel : Nat) (f : FILE) : Option (global_s × FILE) :=
  global_loop stale fuel f (wrap32 (ftell f)) ⟨none, false⟩

/-- The body of the loop of `header_read` for one line `b` read by `fgets`. -/
def header_line (nh : header_s) (b : Bytes) : header_s :=
  let s := strip (cstr b)
  if s.length ≠ 0 then
    if strncmp_eq 5 s (bytes "name ") then { nh with name := some (s.drop 5) }
    else if strncmp_eq 5 s (bytes "type ") then { nh with type := file_string_to_type (s.drop 5) }
    else if strncmp_eq 5 s (bytes "mode ") then { nh with mode := to_mode_t (strtol 8 (s.drop 5)) }
    else if strncmp_eq 7 s (bytes "length ") then { nh with length := atoi (s.drop 7) }
    else nh
  else nh

/-- The loop of `header_read`: also returns the last marker that was read. -/
def header_loop (stale : Bytes) :
    Nat → FILE → Int → header_s → Option (header_s × marker_type × FILE)
  | 0, _, _, _ => none
  | fuel + 1, f, loc, nh =>
    let r := read_marker stale f
    if r.1 ≠ marker_type.marker_end ∧ r.2.eof = false then
      let g := fgets 4096 (fseek_set r.2 loc)
      let nh1 := match g.1 with
        | some b => header_line nh b
        | none => nh
      header_loop stale fuel g.2 (wrap32 (ftell g.2)) nh1
    else some (nh, r.1, r.2)

/-- The function `header_read`: the Header and the stream after it. -/
def header_read (stale : Bytes) (fuel : Nat) (f : FILE) : Option (header_s × FILE) :=
  match header_loop stale fuel f (wrap32 (ftell f)) ⟨none, file_type.file_none, 0, 0, 0⟩ with
  | none => none
  | some (nh, mt, f1) =>
    some (if mt = marker_type.marker_end then { nh with _file_pos := wrap32 (ftell f1 + 1) }
          else nh, f1)

/-- The loop of `sections_list`: `end_` and `i` are the C variables `end` and
`i` of type `size_t`, `acc` the section list built so far. -/
def sections_loop (stale : Bytes) :
    Nat → FILE → Nat → Nat → List section_s → Option (List section_s)
  | 0, _, _, _, _ => none
  | fuel + 1, f, end_, i, acc =>
    if i < to_size_t ((end_ : Int) - 16) then
      let r := read_marker stale (fseek_set f (to_long i))
      match r.1 with
      | marker_type.marker_global =>
        match global_read stale fuel r.2 with
        | none => none
        | some (g, f2) =>
          sections_loop stale fuel f2 end_ (to_size_t ((ftell f2 : Int) + 1))
            (acc ++ [section_s.global g])
      | marker_type.marker_header =>
        match header_read stale fuel r.2 with
        | none => none
        | some (h, f2) =>
          sections_loop stale fuel (fseek_set f2 0) end_
            (to_size_t ((to_size_t ((ftell f2 : Int) + h.length - 1) : Int) + 1))
            (acc ++ [section_s.header h])
      | _ => sections_loop stale fuel r.2 end_ (to_size_t ((i : Int) + 1)) acc
    else some acc

/-- The function `sections_list` on a file with content `data` that can be
opened; `none` when the scan does not finish within `fuel` iterations. -/
def sections_list (stale : Bytes) (fuel : Nat) (data : Bytes) : Option (List section_s) :=
  sections_loop stale fuel (fopen_r data) (to_size_t data.length) 0 []

/-! ## Archive builder -/

/-- The function `emit_data`: the DATA marker line. -/
def emit_data : Bytes := bytes ("***" ++ " " ++ "EZN" ++ " " ++ "DATA" ++ " " ++ "***" ++ "\n")

/-- The function `emit_global`. -/
def emit_global (global : global_s) : Bytes :=
  bytes ("***" ++ " " ++ "EZN" ++ " " ++ "GLOB" ++ " " ++ "***" ++ "\n")
  ++ (match global.exec with
      | some e => bytes "exec " ++ e ++ bytes "\n"
      | none => [])
  ++ (if global.cleanup then bytes "cleanup\n" else [])
  ++ bytes ("***" ++ " " ++ "EZN" ++ " " ++ "END " ++ " " ++ "***" ++ "\n")

/-- The text `printf` writes for `%s`: glibc prints a NULL pointer as `(null)`. -/
def fmt_s (s : Option Bytes) : Bytes :=
  match s with
  | some b => b
  | none => bytes "(null)"

/-- The function `emit_header`. -/
def emit_header (header : header_s) : Bytes :=
  bytes ("***" ++ " " ++ "EZN" ++ " " ++ "HEAD" ++ " " ++ "***" ++ "\n")
  ++ (bytes "name " ++ fmt_s header.name ++ bytes "\n")
  ++ (bytes "type " ++ file_type_to_string header.type ++ bytes "\n")
  ++ (bytes "mode " ++ fmt_o header.mode ++ bytes "\n")
  ++ (bytes "length " ++ fmt_d header.length ++ bytes "\n")
  ++ bytes ("***" ++ " " ++ "EZN" ++ " " ++ "END " ++ " " ++ "***" ++ "\n")

/-- The function `emit_file`: the bytes of the named input file for a regular
entry, nothing otherwise.  `content` gives the bytes `fgetc` reads from the file
of a given name at that moment. -/
def emit_file (content : Bytes → Bytes) (header : header_s) : Bytes :=
  match header.type with
  | file_type.file_regular => content (fmt_s header.name)
  | _ => []

/-- The Header that `create_installer` fills in for a file record. -/
def header_of_file (r : file_s) : header_s := ⟨some r.name, r.type, r.mode, r.length, 0⟩

/-- The loop of `create_installer` over the file list. -/
def emit_files (content : Bytes → Bytes) : List file_s → Bytes
  | [] => []
  | r :: rs =>
    emit_header (header_of_file r) ++ emit_file content (header_of_file r)
      ++ emit_files content rs

/-- The bytes that a successful `create_installer` writes to the installer:
`host` is the content of the running executable that `which` located. -/
def create_installer (host : Bytes) (global : global_s) (fs : List file_s)
    (content : Bytes → Bytes) : Bytes :=
  host ++ emit_data ++ emit_global global ++ emit_files content fs

/-! ## Lifecycle engine -/

/-- A call to the operating system made by a lifecycle stage.  A name is `none`
when the C code passes a NULL pointer. -/
inductive Call where
  | mkdir_p (path : Bytes) (mode : Nat)
  | fopen_w (name : Bytes)
  | fwrite (name : Bytes) (content : Bytes)
  | chmod (name : Option Bytes) (mode : Nat)
  | system (cmd : Bytes)
  | remove (name : Option Bytes)
  deriving DecidableEq, Repr

/-- The environment of the installer: the results of the library calls that the
code inspects, each as a function of the calls made before. -/
structure Env where
  dirname : Bytes → Bytes
  fopen_ok : List Call → Bytes → Bool
  system : List Call → Bytes → Int

/-- The payload copy loop of `extract`: `fgetc` until `length` bytes were
copied or the end of the file is reached. -/
def copy_payload (f : FILE) (length : Int) : Bytes × FILE :=
  let got := (f.data.drop f.pos).take length.toNat
  (got, ⟨f.data, f.pos + got.length, f.eof || decide (got.length < length.toNat)⟩)

/-- The loop of `extract` over the sections, from the calls `hist` made so far.
The status is `none` when the process dies in `strdup(NULL)`. -/
def extract_loop (env : Env) : List section_s → FILE → List Call → Option Int × List Call
  | [], _, hist => (some 0, hist)
  | section_s.global _ :: ss, f, hist => extract_loop env ss f hist
  | section_s.header h :: ss, f, hist =>
    match h.type with
    | file_type.file_regular =>
      match h.name with
      | none => (none, hist)
      | some n =>
        let hist1 := hist ++ [Call.mkdir_p (env.dirname n) 511]
        if env.fopen_ok hist1 n then
          let r := copy_payload (fseek_set f h._file_pos) h.length
          extract_loop env ss r.2
            (hist1 ++ [Call.fopen_w n, Call.fwrite n r.1, Call.chmod (some n) h.mode])
        else extract_loop env ss f (hist1 ++ [Call.fopen_w n, Call.chmod (some n) h.mode])
    | file_type.file_directory =>
      match h.name with
      | none => (none, hist)
      | some n => extract_loop env ss f (hist ++ [Call.mkdir_p n 511, Call.chmod (some n) h.mode])
    | file_type.file_none => extract_loop env ss f (hist ++ [Call.chmod h.name h.mode])

/-- The function `extract` on an open archive and a section list. -/
def extract (env : Env) (f : FILE) (ss : List section_s) (hist : List Call) :
    Option Int × List Call :=
  extract_loop env ss f hist

/-- The loop of `run`; `r` is the C variable of that name. -/
def run_loop (env : Env) : List section_s → Int → List Call → Int × List Call
  | [], r, hist => (r, hist)
  | section_s.header _ :: ss, r, hist => run_loop env ss r hist
  | section_s.global g :: ss, _, hist =>
    match g.exec with
    | some e =>
      if e.length ≠ 0 then run_loop env ss (env.system hist e) (hist ++ [Call.system e])
      else run_loop env ss 0 hist
    | none => run_loop env ss 0 hist

/-- The function `run`. -/
def run (env : Env) (ss : List section_s) (hist : List Call) : Int × List Call :=
  run_loop env ss (-1) hist

/-- The first loop of `cleanup`: the value of `doclean`. -/
def cleanup_flag : List section_s → Bool → Bool
  | [], doclean => doclean
  | section_s.global g :: ss, doclean => cleanup_flag ss (if g.cleanup then true else doclean)
  | section_s.header _ :: ss, doclean => cleanup_flag ss doclean

/-- The second loop of `cleanup`: the `remove` calls, results not looked at. -/
def cleanup_remove : List section_s → List Call
  | [] => []
  | section_s.global _ :: ss => cleanup_remove ss
  | section_s.header h :: ss =>
    match h.type with
    | file_type.file_regular => Call.remove h.name :: cleanup_remove ss
    | file_type.file_directory => Call.remove h.name :: cleanup_remove ss
    | file_type.file_none => cleanup_remove ss

/-- The function `cleanup`. -/
def cleanup (ss : List section_s) (hist : List Call) : Int × List Call :=
  if cleanup_flag ss false then (0, hist ++ cleanup_remove ss) else (0, hist)

/-- The stages of `install` after the scan, on the reopened archive `f`: the
exit status (`none` if the process died) and the calls made. -/
def install_stages (env : Env) (f : FILE) (ss : List section_s) : Option Int × List Call :=
  let x := extract env f ss []
  match x.1 with
  | none => (none, x.2)
  | some r =>
    if r ≠ 0 then (some r, x.2)
    else
      let rr := run env ss x.2
      if rr.1 ≠ 0 then (some rr.1, rr.2)
      else (some rr.1, (cleanup ss rr.2).2)

/-- The function `install` on an installer with content `data`; `none` when the
scan does not finish within `fuel` iterations. -/
def install (env : Env) (stale : Bytes) (fuel : Nat) (data : Bytes) :
    Option (Option Int × List Call) :=
  match sections_list stale fuel data with
  | none => none
  | some ss => some (install_stages env (fopen_r data) ss)

/-! ## Vocabulary of the statements -/

/-- The text lines `ls`, each ended by a newline. -/
def join_lines : List Bytes → Bytes
  | [] => []
  | l :: ls => l ++ 10 :: join_lines ls

/-- The text lines between the HEAD token and the END token of the block that
`emit_header` writes for a file record (the first one is the rest of the marker
line). -/
def header_lines (r : file_s) : List Bytes :=
  [[], bytes "name " ++ r.name, bytes "type " ++ file_type_to_string r.type,
   bytes "mode " ++ fmt_o r.mode, bytes "length " ++ fmt_d r.length]

/-- The text lines between the GLOB token and the END token of the block that
`emit_global` writes. -/
def global_lines (g : global_s) : List Bytes :=
  [[]] ++ (match g.exec with
           | some e => [bytes "exec " ++ e]
           | none => [])
       ++ (if g.cleanup then [bytes "cleanup"] else [])

/-- A text that one line of the archive carries unchanged: no NUL, LF or CR byte
and at most 4000 bytes. -/
def clean_text (s : Bytes) : Prop := (∀ c ∈ s, c ≠ 0 ∧ c ≠ 10 ∧ c ≠ 13) ∧ s.length ≤ 4000

instance (s : Bytes) : Decidable (clean_text s) :=
  inferInstanceAs (Decidable ((∀ c ∈ s, c ≠ 0 ∧ c ≠ 10 ∧ c ≠ 13) ∧ s.length ≤ 4000))

/-- No marker token begins at an offset inside the host prefix of an archive. -/
def host_clean (host : Bytes) : Prop :=
  ∀ j, j < host.length →
    classify (((host ++ emit_data).drop j).take 16) = marker_type.marker_none

instance (host : Bytes) : Decidable (host_clean host) :=
  inferInstanceAs (Decidable (∀ j, j < host.length →
    classify (((host ++ emit_data).drop j).take 16) = marker_type.marker_none))

/-- A file record the archive can carry: a clean name, a `mode_t` mode and a
length equal to the number of payload bytes that `emit_file` writes. -/
def record_ok (content : Bytes → Bytes) (r : file_s) : Prop :=
  clean_text r.name ∧ r.mode < 4294967296 ∧
    r.length = ((emit_file content (header_of_file r)).length : Int)

instance (content : Bytes → Bytes) (r : file_s) : Decidable (record_ok content r) :=
  inferInstanceAs (Decidable (clean_text r.name ∧ r.mode < 4294967296 ∧
    r.length = ((emit_file content (header_of_file r)).length : Int)))

/-- The exec string of a Global, when present, is a clean text. -/
def global_ok (g : global_s) : Prop :=
  match g.exec with
  | some e => clean_text e
  | none => True

instance (g : global_s) : Decidable (global_ok g) :=
  match h : g.exec with
  | some e => decidable_of_iff (clean_text e) (by unfold global_ok; rw [h])
  | none => isTrue (by unfold global_ok; rw [h]; trivial)

/-- The inputs of `create_installer` for which the archive can be read back:
a host without marker, a clean exec string, file records that the archive can
carry, and an archive shorter than 2 ^ 31 bytes (offsets are C `int`s). -/
def build_ok (host : Bytes) (global : global_s) (fs : List file_s)
    (content : Bytes → Bytes) : Prop :=
  host_clean host ∧ global_ok global ∧ (∀ r ∈ fs, record_ok content r) ∧
    (create_installer host global fs content).length < 2147483648

instance (host : Bytes) (global : global_s) (fs : List file_s) (content : Bytes → Bytes) :
    Decidable (build_ok host global fs content) :=
  inferInstanceAs (Decidable (host_clean host ∧ global_ok global ∧
    (∀ r ∈ fs, record_ok content r) ∧
    (create_installer host global fs content).length < 2147483648))

/-- The Header sections expected from a scan of the blocks of the file records
`fs` that begin at offset `off` of the archive. -/
def scanned_headers (content : Bytes → Bytes) : Nat → List file_s → List section_s
  | _, [] => []
  | off, r :: rs =>
    section_s.header ⟨some r.name, r.type, r.mode, r.length,
        ((off + (emit_header (header_of_file r)).length : Nat) : Int)⟩
      :: scanned_headers content
          (off + (emit_header (header_of_file r)).length
             + (emit_file content (header_of_file r)).length) rs

/-- A file of 45 bytes: one HEAD block whose length line reads -44. -/
def negative_length_file : Bytes := bytes "*** EZN HEAD ***\nlength -44\n*** EZN END  ***\n"

/-! ### Scenario A of the specification -/

/-- A host executable without marker. -/
def scenario_host : Bytes := bytes "#!host executable\n"

/-- The Global of Scenario A: the command `echo hi` and cleanup. -/
def scenario_global : global_s := ⟨some (bytes "echo hi"), true⟩

/-- The file records of Scenario A. -/
def scenario_files : List file_s :=
  [⟨file_type.file_regular, bytes "a.txt", 420, 12⟩,
   ⟨file_type.file_directory, bytes "sub", 493, 0⟩,
   ⟨file_type.file_regular, bytes "sub/b.txt", 420, 5⟩]

/-- The content of the input files of Scenario A. -/
def scenario_content (name : Bytes) : Bytes :=
  if name = bytes "a.txt" then bytes "hello world\n" else bytes "12345"

/-! ### Scenario C of the specification -/

/-- One regular file record of 44 bytes. -/
def marker_payload_files : List file_s := [⟨file_type.file_regular, bytes "blob", 420, 44⟩]

/-- A payload of 44 bytes that is the text of a complete HEAD block. -/
def marker_payload_content (_ : Bytes) : Bytes :=
  bytes "*** EZN HEAD ***\nname evil\n*** EZN END  ***\n"

/-- A payload of 44 zero bytes. -/
def plain_payload_content (_ : Bytes) : Bytes := List.replicate 44 0

/-! ### Vocabulary of the lifecycle statements -/

/-- The Global sections of a section list, in order. -/
def globals_of : List section_s → List global_s
  | [] => []
  | section_s.global g :: ss => g :: globals_of ss
  | section_s.header _ :: ss => globals_of ss

/-- The Header sections of a section list, in order. -/
def headers_of : List section_s → List header_s
  | [] => []
  | section_s.global _ :: ss => headers_of ss
  | section_s.header h :: ss => h :: headers_of ss

/-- The library function `dirname` of libgen, as glibc has it.  The trailing
slashes of the path are left aside, unless the path has nothing else; without a
slash in what remains the result is `.`; otherwise the result is what stands in
front of the last slash, without the slashes at its end, and when nothing stands
there it is `//` for exactly two leading slashes and `/` for any other
number. -/
def dirname (path : Bytes) : Bytes :=
  let u := if strip_slash path = [] then path else strip_slash path
  if 47 ∉ u then [46]
  else
    let d := (u.reverse.dropWhile (fun c => decide (c ≠ 47))).reverse
    if strip_slash d = [] then (if d.length = 2 then [47, 47] else [47])
    else strip_slash d

/-- An environment in which every file can be opened and every command exits
with `status`. -/
def plain_env (status : Int) : Env := ⟨dirname, fun _ _ => true, fun _ _ => status⟩

/-- The state of the loop of `extract` after the sections `ss`: the archive
stream (`none` when the process died in `strdup(NULL)`) and the calls made. -/
def extract_state (env : Env) : List section_s → FILE → List Call → Option FILE × List Call
  | [], f, hist => (some f, hist)
  | section_s.global _ :: ss, f, hist => extract_state env ss f hist
  | section_s.header h :: ss, f, hist =>
    match h.type with
    | file_type.file_regular =>
      match h.name with
      | none => (none, hist)
      | some n =>
        let hist1 := hist ++ [Call.mkdir_p (env.dirname n) 511]
        if env.fopen_ok hist1 n then
          let r := copy_payload (fseek_set f h._file_pos) h.length
          extract_state env ss r.2
            (hist1 ++ [Call.fopen_w n, Call.fwrite n r.1, Call.chmod (some n) h.mode])
        else extract_state env ss f (hist1 ++ [Call.fopen_w n, Call.chmod (some n) h.mode])
    | file_type.file_directory =>
      match h.name with
      | none => (none, hist)
      | some n => extract_state env ss f (hist ++ [Call.mkdir_p n 511, Call.chmod (some n) h.mode])
    | file_type.file_none => extract_state env ss f (hist ++ [Call.chmod h.name h.mode])

/-- An environment in which the file `a.txt` cannot be opened for writing, every
other file can, and every command exits with 0. -/
def locked_env : Env :=
  ⟨dirname, fun _ n => decide (n ≠ bytes "a.txt"), fun _ _ => 0⟩

/-- The section list that the scan of the installer of Scenario A returns. -/
def scenario_sections : List section_s :=
  [section_s.global scenario_global,
   section_s.header ⟨some (bytes "a.txt"), file_type.file_regular, 420, 12, 167⟩,
   section_s.header ⟨some (bytes "sub"), file_type.file_directory, 493, 0, 255⟩,
   section_s.header ⟨some (bytes "sub/b.txt"), file_type.file_regular, 420, 5, 335⟩]

/-- Some Header of type regular or directory carries no name (the field `name`
is NULL): `extract` passes it to `strdup`. -/
def nameless (ss : List section_s) : Bool :=
  (headers_of ss).any (fun h => decide (h.type ≠ file_type.file_none) && h.name.isNone)

/-- A file of 47 bytes: a HEAD block with a `type` line and no `name` line. -/
def nameless_header_file : Bytes :=
  bytes "*** EZN HEAD ***\ntype REGULAR\n*** EZN END  ***\n"

/-- The answers that the environment gives to the `fopen` calls of the loop of
`extract` over the sections `ss`, in the order of the calls.  For each regular
Header with a name the answer to its `fopen` call, asked after the calls made so
far; the list ends where the process dies in `strdup(NULL)`. -/
def fopen_answers (env : Env) : List section_s → FILE → List Call → List Bool
  | [], _, _ => []
  | section_s.global _ :: ss, f, hist => fopen_answers env ss f hist
  | section_s.header h :: ss, f, hist =>
    match h.type with
    | file_type.file_regular =>
      match h.name with
      | none => []
      | some n =>
        let hist1 := hist ++ [Call.mkdir_p (env.dirname n) 511]
        if env.fopen_ok hist1 n then
          let r := copy_payload (fseek_set f h._file_pos) h.length
          true :: fopen_answers env ss r.2
            (hist1 ++ [Call.fopen_w n, Call.fwrite n r.1, Call.chmod (some n) h.mode])
        else false :: fopen_answers env ss f (hist1 ++ [Call.fopen_w n, Call.chmod (some n) h.mode])
    | file_type.file_directory =>
      match h.name with
      | none => []
      | some n => fopen_answers env ss f (hist ++ [Call.mkdir_p n 511, Call.chmod (some n) h.mode])
    | file_type.file_none => fopen_answers env ss f (hist ++ [Call.chmod h.name h.mode])

/-- An archive stream of twenty bytes that are all different. -/
def twenty_bytes : FILE := fopen_r (bytes "0123456789abcdefghij")

/-- The digits of a natural number in `base` as text, most significant first,
`0` for zero: the octal digits and decimal digits of the wire format. -/
def digits_text (base n : Nat) : Bytes :=
  if n = 0 then [48] else ((Nat.digits base n).reverse.map (fun d => 48 + d))

/-! ## File collector -/

/-- The fields of `struct stat` that the code reads. -/
structure stat_s where
  st_mode : Nat
  st_size : Nat
  deriving DecidableEq, Repr

/-- The file system as the builder probes it: `stat` (`none` when it fails) and
the names that `opendir` and `readdir` enumerate for a directory, in enumeration
order (`none` when `opendir` fails). -/
structure Disk where
  stat : Bytes → Option stat_s
  readdir : Bytes → Option (List Bytes)

/-- The file type mask of `sys/stat.h` (Linux value, octal 170000). -/
def S_IFMT : Nat := 61440

/-- The file type of a regular file (octal 100000). -/
def S_IFREG : Nat := 32768

/-- The file type of a directory (octal 40000). -/
def S_IFDIR : Nat := 16384

/-- The test `S_ISDIR` of `sys/stat.h`. -/
def S_ISDIR (m : Nat) : Bool := decide (m &&& S_IFMT = S_IFDIR)

/-- The function `get_file_type_and_mode` of `file_info.c`. -/
def get_file_type_and_mode (d : Disk) (name : Bytes) : Nat :=
  match d.stat name with
  | some sb => sb.st_mode
  | none => 0

/-- The function `get_file_size` of `file_info.c`: the size is returned as an
`int`. -/
def get_file_size (d : Disk) (name : Bytes) : Int :=
  match d.stat name with
  | some sb => wrap32 sb.st_size
  | none => 0

/-- The function `file_set_length`: the value it stores. -/
def file_set_length (length : Int) : Int := if length < 0 then 0 else length

/-- The function `file_fill`: the record of a fresh `file_s` for the path
`name`. -/
def file_fill (d : Disk) (name : Bytes) : file_s :=
  let n := strip_slash name
  let tnm := get_file_type_and_mode d n
  let type :=
    if tnm &&& S_IFMT = S_IFREG then file_type.file_regular
    else if tnm &&& S_IFMT = S_IFDIR then file_type.file_directory
    else file_type.file_none
  ⟨type, n, tnm &&& (4294967295 ^^^ S_IFMT),
    match type with
    | file_type.file_regular => file_set_length (get_file_size d n)
    | _ => 0⟩

/-- The function `files_find_file`: the first record with that name. -/
def files_find_file (fs : List file_s) (name : Bytes) : Option file_s :=
  fs.find? (fun f => decide (f.name = name))

/-- The loop of `files_expand_directory` over the entries of the directory
`dirname`; `recur` is the recursive call. -/
def expand_entries (d : Disk) (recur : List file_s → Bytes → Option (List file_s × Int)) :
    List Bytes → List file_s → Bytes → Option (List file_s)
  | [], fs, _ => some fs
  | ent :: rest, fs, dirname =>
    if S_ISDIR (get_file_type_and_mode d (dirname ++ bytes "/" ++ ent)) = true
        ∧ (ent = bytes "." ∨ ent = bytes "..") then
      expand_entries d recur rest fs dirname
    else
      match (file_fill d (dirname ++ bytes "/" ++ ent)).type with
      | file_type.file_directory =>
        match recur (fs ++ [file_fill d (dirname ++ bytes "/" ++ ent)])
            (file_fill d (dirname ++ bytes "/" ++ ent)).name with
        | none => none
        | some r => expand_entries d recur rest r.1 dirname
      | _ => expand_entries d recur rest (fs ++ [file_fill d (dirname ++ bytes "/" ++ ent)]) dirname

/-- The function `files_expand_directory`: the file list afterwards and the
value returned; `fuel` bounds the depth of the recursion. -/
def files_expand_directory (d : Disk) : Nat → List file_s → Bytes → Option (List file_s × Int)
  | 0, _, _ => none
  | fuel + 1, fs, dirname =>
    match d.readdir dirname with
    | none => some (fs, -1)
    | some ents =>
      match expand_entries d (files_expand_directory d fuel) ents fs dirname with
      | none => none
      | some fs2 => some (fs2, 0)

/-- The collection loop of `build` over the path arguments, from the file list
`fs`. -/
def build_collect (d : Disk) (fuel : Nat) : List Bytes → List file_s → Option (List file_s)
  | [], fs => some fs
  | a :: rest, fs =>
    match (file_fill d a).type with
    | file_type.file_directory =>
      match files_expand_directory d fuel
          (if (files_find_file fs (file_fill d a).name).isNone then fs ++ [file_fill d a] else fs)
          (file_fill d a).name with
      | none => none
      | some r => build_collect d fuel rest r.1
    | _ =>
      build_collect d fuel rest
        (if (files_find_file fs (file_fill d a).name).isNone then fs ++ [file_fill d a] else fs)

/-! ### Vocabulary of the collector statements -/

/-- The records of the entries `es` of the directory `x`, after the claim: the
entries `.` and `..` are left out, each other entry gives its record, followed
at once by the list `sub` of its own subtree when the entry is a directory. -/
def preorder_entries (d : Disk) (sub : Bytes → List file_s) (x : Bytes) :
    List Bytes → List file_s
  | [] => []
  | e :: es =>
    if e = bytes "." ∨ e = bytes ".." then preorder_entries d sub x es
    else
      (file_fill d (x ++ bytes "/" ++ e)
        :: (if (file_fill d (x ++ bytes "/" ++ e)).type = file_type.file_directory
            then sub (x ++ bytes "/" ++ e) else []))
      ++ preorder_entries d sub x es

/-- The list preorder(x) of the claim, for a tree of depth at most `n`. -/
def preorder (d : Disk) : Nat → Bytes → List file_s
  | 0, _ => []
  | n + 1, x =>
    match d.readdir x with
    | none => []
    | some es => preorder_entries d (preorder d n) x es

/-- The directory `x` is the root of a finite directory tree of depth at most
`n`: in every directory that can be read the entries `.` and `..` are
directories, the other entry names do not end in a slash, and the
subdirectories are such trees of depth at most `n - 1`. -/
def tree_ok (d : Disk) : Nat → Bytes → Bool
  | 0, _ => false
  | n + 1, x =>
    match d.readdir x with
    | none => true
    | some es =>
      es.all (fun e =>
        if e = bytes "." ∨ e = bytes ".." then
          S_ISDIR (get_file_type_and_mode d (x ++ bytes "/" ++ e))
        else
          decide (strip_slash (x ++ bytes "/" ++ e) = x ++ bytes "/" ++ e) &&
          (if (file_fill d (x ++ bytes "/" ++ e)).type = file_type.file_directory
           then tree_ok d n (x ++ bytes "/" ++ e) else true))

/-- A disk with the directory `d`, which holds the regular file `x`, the
directory `e` with the regular file `y`, and the regular file `z`. -/
def tree_disk : Disk :=
  ⟨fun p =>
      if p = bytes "d" ∨ p = bytes "d/." ∨ p = bytes "d/.." ∨ p = bytes "d/e"
          ∨ p = bytes "d/e/." ∨ p = bytes "d/e/.." then some ⟨16877, 4096⟩
      else if p = bytes "d/x" then some ⟨33188, 3⟩
      else if p = bytes "d/e/y" then some ⟨33188, 4⟩
      else if p = bytes "d/z" then some ⟨33184, 5⟩
      else none,
   fun p =>
      if p = bytes "d" then some [bytes ".", bytes "..", bytes "x", bytes "e", bytes "z"]
      else if p = bytes "d/e" then some [bytes ".", bytes "..", bytes "y"]
      else none⟩

/-! ## File system of the installer -/

/-- What a path of the file system holds: a directory or a regular file with
its content. -/
inductive node where
  | dir
  | file (content : Bytes)
  deriving DecidableEq, Repr

/-- The file system of the installer: the paths that exist, each with what it
holds.  The paths are held in canonical form (`.`, `/`, or names separated by
single slashes, see `path_of`) and the calls compare a path with them as it is
written: the model does not resolve `.` and `..` components, repeated slashes or
trailing slashes, and it is the file system of POSIX for the calls whose paths
are in canonical form. -/
abbrev Files := List (Bytes × node)

/-- The call `stat(path)`: `none` when the call fails because the path does not
exist (`fs_stat_errno` gives the value of `errno` then). -/
def fs_stat (fs : Files) (path : Bytes) : Option node :=
  (fs.find? (fun e => decide (e.1 = path))).map (fun e => e.2)

/-- The text `p` begins with the text `q`. -/
def starts_with : Bytes → Bytes → Bool
  | _, [] => true
  | [], _ :: _ => false
  | c :: p, c2 :: q => decide (c = c2) && starts_with p q

/-- The path `p` lies beneath the directory `dir`. -/
def is_beneath (p dir : Bytes) : Bool := starts_with p (dir ++ bytes "/")

/-- The value ENOENT of `errno`. -/
def ENOENT : Nat := 2

/-- The value ENOTDIR of `errno`. -/
def ENOTDIR : Nat := 20

/-- The value of `errno` after a failed `stat(path)`: ENOTDIR when the nearest
ancestor of the path that exists is a regular file, ENOENT when it is a
directory.  The ancestors are looked at from the path upwards, at most `fuel` of
them. -/
def fs_stat_errno (fs : Files) : Nat → Bytes → Nat
  | 0, _ => ENOENT
  | fuel + 1, path =>
    match fs_stat fs (dirname path) with
    | some (node.file _) => ENOTDIR
    | some node.dir => ENOENT
    | none => fs_stat_errno fs fuel (dirname path)

/-- The last component of a path: what follows the last slash, trailing slashes
left aside. -/
def last_component (path : Bytes) : Bytes :=
  ((strip_slash path).reverse.takeWhile (fun c => decide (c ≠ 47))).reverse

/-- The call `mkdir(pathname, mode)`: fails for the empty path, for a path whose
last component is `.` or `..`, when the path exists or when its parent is not an
existing directory. -/
def fs_mkdir (fs : Files) (pathname : Bytes) : Files × Int :=
  if pathname = [] then (fs, -1)
  else if last_component pathname = [46] ∨ last_component pathname = [46, 46] then (fs, -1)
  else
    match fs_stat fs pathname with
    | some _ => (fs, -1)
    | none =>
      match fs_stat fs (dirname pathname) with
      | some node.dir => (fs ++ [(pathname, node.dir)], 0)
      | _ => (fs, -1)

/-- The function `mkdir_p` of `mkdir_p.c` on a path that is not NULL: the file
system afterwards and the value returned; `fuel` bounds the depth of the
recursion on `dirname`. -/
def mkdir_p : Nat → Files → Bytes → Option (Files × Int)
  | 0, _, _ => none
  | fuel + 1, fs, pathname =>
    match fs_stat fs pathname with
    | some node.dir => some (fs, 0)
    | some (node.file _) => some (fs, -1)
    | none =>
      if fs_stat_errno fs (pathname.length + 1) pathname ≠ ENOENT then some (fs, -1)
      else
        match mkdir_p fuel fs (dirname pathname) with
        | none => none
        | some r => if r.2 ≠ 0 then some (r.1, -1) else some (fs_mkdir r.1 pathname)

/-- Whether `fopen(name, "w")` succeeds: the path is a regular file, or it is
not empty, does not exist and its parent is a directory. -/
def fs_fopen_w_ok (fs : Files) (name : Bytes) : Bool :=
  match fs_stat fs name with
  | some node.dir => false
  | some (node.file _) => true
  | none => decide (name ≠ []) && decide (fs_stat fs (dirname name) = some node.dir)

/-- The file system after one call of a lifecycle stage; `none` when `mkdir_p`
runs out of fuel.  `remove` of a directory fails when a path lies beneath it;
`system` stands for a command that leaves the files alone. -/
def fs_call (fuel : Nat) (fs : Files) : Call → Option Files
  | Call.mkdir_p path _ => (mkdir_p fuel fs path).map (fun r => r.1)
  | Call.fopen_w name =>
    if fs_fopen_w_ok fs name then
      some (fs.filter (fun e => decide (e.1 ≠ name)) ++ [(name, node.file [])])
    else some fs
  | Call.fwrite name content =>
    some (fs.map (fun e => if e.1 = name then (name, node.file content) else e))
  | Call.chmod _ _ => some fs
  | Call.system _ => some fs
  | Call.remove none => some fs
  | Call.remove (some name) =>
    match fs_stat fs name with
    | none => some fs
    | some (node.file _) => some (fs.filter (fun e => decide (e.1 ≠ name)))
    | some node.dir =>
      if fs.any (fun e => is_beneath e.1 name) then some fs
      else some (fs.filter (fun e => decide (e.1 ≠ name)))

/-- The file system after a list of calls. -/
def fs_after (fuel : Nat) : Files → List Call → Option Files
  | fs, [] => some fs
  | fs, c :: cs =>
    match fs_call fuel fs c with
    | none => none
    | some fs1 => fs_after fuel fs1 cs

/-- The environment of an installer that runs on the file system `init`: `fopen`
succeeds according to the file system after the calls made so far, every
command exits with `status`. -/
def fs_env (fuel : Nat) (init : Files) (status : Int) : Env :=
  ⟨dirname,
   fun hist name =>
     match fs_after fuel init hist with
     | some fs => fs_fopen_w_ok fs name
     | none => false,
   fun _ _ => status⟩

/-! ### Vocabulary of the statements on names, directories and text lines -/

/-- The loop of `strip_slash`, turn by turn: the last byte of the string is
read and cut off while it is a slash.  On an empty string the C code reads
`s[-1]`, the byte `before` in front of the buffer, and sets it to 0 when it is a
slash.  `none` when the fuel runs out. -/
def strip_slash_loop (before : Nat) : Nat → Bytes → Option Bytes
  | 0, _ => none
  | fuel + 1, s =>
    match s.getLast? with
    | some c => if c = 47 then strip_slash_loop before fuel s.dropLast else some s
    | none => if before = 47 then strip_slash_loop 0 fuel s else some s

/-- A file system as POSIX keeps it: every path that exists has an existing
directory as its parent. -/
def fs_closed (fs : Files) : Prop := ∀ e ∈ fs, fs_stat fs (dirname e.1) = some node.dir

instance (fs : Files) : Decidable (fs_closed fs) :=
  inferInstanceAs (Decidable (∀ e ∈ fs, fs_stat fs (dirname e.1) = some node.dir))

/-- The file system of a fresh working directory: the root, under its names `/`
and `//`, and `.`. -/
def fresh_fs : Files := [(bytes "/", node.dir), (bytes "//", node.dir), (bytes ".", node.dir)]

/-- A component of a path that names an entry: not empty, without a slash, and
neither `.` nor `..`. -/
def component (c : Bytes) : Prop := c ≠ [] ∧ 47 ∉ c ∧ c ≠ [46] ∧ c ≠ [46, 46]

instance (c : Bytes) : Decidable (component c) :=
  inferInstanceAs (Decidable (c ≠ [] ∧ 47 ∉ c ∧ c ≠ [46] ∧ c ≠ [46, 46]))

/-- The path of the entry `c` of the directory `d`, in canonical form. -/
def path_child (d c : Bytes) : Bytes :=
  if d = [46] then c else if d = [47] then 47 :: c else d ++ 47 :: c

/-- The path in canonical form with the components `names`: from the root `/`
when `abs` is set, from the working directory `.` otherwise. -/
def path_of (abs : Bool) (names : List Bytes) : Bytes :=
  names.foldl path_child (if abs then [47] else [46])

/-- A file of 113 bytes: the HEAD block of a regular entry `a` of length 1, its
payload of one byte (an asterisk), and after it the bytes `** EZN GLOB ***`, an
exec line and an END line. -/
def star_payload_file : Bytes :=
  bytes "*** EZN HEAD ***\nname a\ntype REGULAR\nmode 644\nlength 1\n*** EZN END  ***\n*** EZN GLOB ***\nexec x\n*** EZN END  ***\n"

/-- The same file with the payload byte `x`. -/
def plain_payload_file : Bytes :=
  bytes "*** EZN HEAD ***\nname a\ntype REGULAR\nmode 644\nlength 1\n*** EZN END  ***\nx** EZN GLOB ***\nexec x\n*** EZN END  ***\n"

/-- A text line that `global_read` takes in one piece: no NUL and no LF byte,
at most 4094 bytes (with its line feed it fits the buffer of 4096 bytes), and
not beginning with the END token. -/
def text_line (l : Bytes) : Prop :=
  (∀ c ∈ l, c ≠ 0 ∧ c ≠ 10) ∧ l.length < 4095 ∧ l.take 16 ≠ ezn_end

instance (l : Bytes) : Decidable (text_line l) :=
  inferInstanceAs (Decidable ((∀ c ∈ l, c ≠ 0 ∧ c ≠ 10) ∧ l.length < 4095 ∧ l.take 16 ≠ ezn_end))

/-- The exec string of the claim on `global_read`: the content after the prefix
`exec ` of the last line that has this prefix, without its trailing CR and LF
bytes; `none` when no line has the prefix. -/
def exec_of_lines (lines : List Bytes) : Option Bytes :=
  ((lines.filter (fun l => starts_with l (bytes "exec "))).getLast?).map
    (fun l => strip (l.drop 5))

/-- The cleanup flag of the claim on `global_read`: some line starts with
`cleanup`. -/
def cleanup_of_lines (lines : List Bytes) : Bool :=
  lines.any (fun l => starts_with l (bytes "cleanup"))

/-- A line of 4102 bytes: `exec `, 4090 times the letter `a`, and `cleanup`. -/
def long_exec_line : Bytes := bytes "exec " ++ List.replicate 4090 97 ++ bytes "cleanup"

/-- A GLOB block whose only text line is `long_exec_line`. -/
def long_exec_block : Bytes :=
  ezn_glob ++ [10] ++ long_exec_line ++ [10] ++ ezn_end ++ [10]

/-- The payload blocks of an archive: for each entry the block that
`emit_header` writes for its record, followed by the payload bytes. -/
def emit_entries : List (file_s × Bytes) → Bytes
  | [] => []
  | e :: es => emit_header (header_of_file e.1) ++ e.2 ++ emit_entries es

/-- The archive of the round trip claim: the host, the DATA line, the block of
`emit_global`, and for each entry the block of `emit_header` and the payload. -/
def archive_bytes (host : Bytes) (g : global_s) (es : List (file_s × Bytes)) : Bytes :=
  host ++ emit_data ++ emit_global g ++ emit_entries es

/-- An entry that the archive can carry: a clean name, a `mode_t` mode, a length
in [0, 2 ^ 31) that is the number of payload bytes, and no payload for an entry
that is not a regular file. -/
def entry_ok (e : file_s × Bytes) : Prop :=
  clean_text e.1.name ∧ e.1.mode < 4294967296 ∧ 0 ≤ e.1.length ∧ e.1.length < 2147483648 ∧
    e.1.length = (e.2.length : Int) ∧ (e.1.type ≠ file_type.file_regular → e.1.length = 0)

instance (e : file_s × Bytes) : Decidable (entry_ok e) :=
  inferInstanceAs (Decidable (clean_text e.1.name ∧ e.1.mode < 4294967296 ∧ 0 ≤ e.1.length ∧
    e.1.length < 2147483648 ∧ e.1.length = (e.2.length : Int) ∧
    (e.1.type ≠ file_type.file_regular → e.1.length = 0)))

/-- A host of 2 ^ 31 zero bytes. -/
def large_host : Bytes := List.replicate 2147483648 0

/-- The entries of Scenario A with their payloads. -/
def scenario_entries : List (file_s × Bytes) :=
  [(⟨file_type.file_regular, bytes "a.txt", 420, 12⟩, bytes "hello world\n"),
   (⟨file_type.file_directory, bytes "sub", 493, 0⟩, []),
   (⟨file_type.file_regular, bytes "sub/b.txt", 420, 5⟩, bytes "12345")]

/-- The `system` calls of the claim on `run`: one for each Global whose exec
string is present and not empty, in order. -/
def exec_calls (gs : List global_s) : List Call :=
  gs.filterMap (fun g =>
    match g.exec with
    | some e => if e.length ≠ 0 then some (Call.system e) else none
    | none => none)

/-! ## Lemmas on the text and stream primitives and on the scanner -/

theorem ezn_data_eq : ezn_data = [42,42,42,32,69,90,78,32,68,65,84,65,32,42,42,42] := by decide
theorem ezn_glob_eq : ezn_glob = [42,42,42,32,69,90,78,32,71,76,79,66,32,42,42,42] := by decide
theorem ezn_head_eq : ezn_head = [42,42,42,32,69,90,78,32,72,69,65,68,32,42,42,42] := by decide
theorem ezn_end_eq : ezn_end = [42,42,42,32,69,90,78,32,69,78,68,32,32,42,42,42] := by decide

/-- On a token without 0 byte, `strncmp` over the token's length is equality
with the first bytes of the buffer. -/
theorem strncmp_eq_iff_take (n : Nat) : ∀ (a m : Bytes), m.length = n → (∀ x ∈ m, x ≠ 0) →
    (strncmp_eq n a m = true ↔ a.take n = m) := by
  induction n with
  | zero =>
    intro a m hm _
    have : m = [] := List.length_eq_zero.mp hm
    simp [strncmp_eq, this]
  | succ n ih =>
    intro a m hm hz
    cases m with
    | nil => simp at hm
    | cons y ys =>
      have hy : y ≠ 0 := hz y (List.mem_cons_self _ _)
      have hys : ∀ x ∈ ys, x ≠ 0 := fun x hx => hz x (List.mem_cons_of_mem _ hx)
      have hl : ys.length = n := by simpa using hm
      cases a with
      | nil =>
        simp [strncmp_eq, Ne.symm hy]
      | cons x xs =>
        by_cases hxy : x = y
        · subst hxy
          simp [strncmp_eq, hy, ih xs ys hl hys]
        · simp [strncmp_eq, hxy]

theorem strncmp_eq_append (n : Nat) : ∀ (a t m : Bytes), n ≤ a.length →
    strncmp_eq n (a ++ t) m = strncmp_eq n a m := by
  induction n with
  | zero => intro a t m _; simp [strncmp_eq]
  | succ n ih =>
    intro a t m h
    cases a with
    | nil => simp at h
    | cons x xs =>
      have h1 : n ≤ xs.length := by simpa using h
      simp [strncmp_eq, ih xs t m.tail h1]

theorem classify_append (a t : Bytes) (h : 16 ≤ a.length) : classify (a ++ t) = classify a := by
  simp [classify, strncmp_eq_append 16 a t _ h]

theorem classify_head_ne (c : Nat) (t : Bytes) (h : c ≠ 42) : classify (c :: t) = marker_type.marker_none := by
  simp [classify, strncmp_eq, ezn_data_eq, ezn_glob_eq, ezn_head_eq, ezn_end_eq, h]

theorem classify_shifted (x : Nat) (t : Bytes) :
    classify (x :: 42 :: 42 :: 42 :: t) = marker_type.marker_none := by
  by_cases h : x = 42
  · subst h
    simp [classify, strncmp_eq, ezn_data_eq, ezn_glob_eq, ezn_head_eq, ezn_end_eq]
  · exact classify_head_ne x _ h

theorem wrap32_nat (p : Nat) (h : p < 2147483648) : wrap32 (p : Int) = p := by
  unfold wrap32; omega

theorem to_long_nat (p : Nat) (h : p < 9223372036854775808) : to_long p = p := by
  unfold to_long
  have : p % 18446744073709551616 = p := Nat.mod_eq_of_lt (by omega)
  simp [this, h]

theorem fseek_set_nat (f : FILE) (p : Nat) : fseek_set f (p : Int) = ⟨f.data, p, false⟩ := by
  unfold fseek_set
  have : ¬ ((p : Int) < 0) := by omega
  simp [this]

/-- A read of 16 bytes that the file can satisfy. -/
theorem read_marker_full (stale data : Bytes) (p : Nat) (e : Bool)
    (h : 16 ≤ (data.drop p).length) :
    read_marker stale ⟨data, p, e⟩ = (classify ((data.drop p).take 16), ⟨data, p + 16, e⟩) := by
  have hl : ((data.drop p).take 16).length = 16 := by
    rw [List.length_take]; omega
  unfold read_marker fread16
  simp only [hl]
  rw [classify_append _ _ (by omega)]
  simp

theorem take_line_line (line rest : Bytes) (hnl : 10 ∉ line) :
    ∀ k, line.length < k → take_line k (line ++ 10 :: rest) = line ++ [10] := by
  induction line with
  | nil =>
    intro k hk
    cases k with
    | zero => simp at hk
    | succ k => simp [take_line]
  | cons c cs ih =>
    intro k hk
    cases k with
    | zero => simp at hk
    | succ k =>
      have hc : c ≠ 10 := fun h => hnl (by simp [h])
      have hcs : 10 ∉ cs := fun h => hnl (List.mem_cons_of_mem _ h)
      have hk1 : cs.length < k := by simpa using hk
      simp [take_line, hc, ih hcs k hk1]

/-- Reading a complete line with `fgets`. -/
theorem fgets_line (data : Bytes) (p : Nat) (line rest : Bytes)
    (hd : data.drop p = line ++ 10 :: rest) (hnl : 10 ∉ line) (hl : line.length < 4095) :
    fgets 4096 ⟨data, p, false⟩ = (some (line ++ [10]), ⟨data, p + (line.length + 1), false⟩) := by
  unfold fgets
  simp only [hd]
  rw [show 4096 - 1 = 4095 from rfl, take_line_line line rest hnl 4095 hl]
  simp

theorem drop_add_of_drop (data : Bytes) (p : Nat) (a b : Bytes) (hd : data.drop p = a ++ b) :
    data.drop (p + a.length) = b := by
  rw [← List.drop_drop, hd, List.drop_left]

theorem cstr_of_no_zero (b : Bytes) (h : ∀ c ∈ b, c ≠ 0) : cstr b = b := by
  unfold cstr
  rw [List.takeWhile_eq_self_iff]
  intro c hc
  simpa using h c hc

theorem strip_line (s : Bytes) (h : ∀ c ∈ s, c ≠ 10 ∧ c ≠ 13) : strip (s ++ [10]) = s := by
  unfold strip
  rw [List.reverse_append]
  simp only [List.reverse_cons, List.reverse_nil, List.nil_append, List.singleton_append]
  rw [List.dropWhile_cons_of_pos (by simp)]
  cases hs : s.reverse with
  | nil =>
    have : s = [] := by simpa using hs
    simp [this]
  | cons c t =>
    have hc : c ∈ s := by
      have : c ∈ s.reverse := by rw [hs]; exact List.mem_cons_self _ _
      simpa using this
    have h1 := h c hc
    rw [List.dropWhile_cons_of_neg (by simp [h1.1, h1.2]), ← hs, List.reverse_reverse]

theorem utoa_digits (base : Nat) (hb : 0 < base) : ∀ (fuel n : Nat),
    ∀ c ∈ utoa base fuel n, 48 ≤ c ∧ c < 48 + base := by
  intro fuel
  induction fuel with
  | zero => intro n c hc; simp [utoa] at hc
  | succ fuel ih =>
    intro n c hc
    unfold utoa at hc
    split at hc
    · simp at hc; omega
    · rw [List.mem_append] at hc
      rcases hc with hc | hc
      · exact ih _ c hc
      · simp at hc
        have := Nat.mod_lt n hb
        omega

theorem utoa_ne_nil (base fuel n : Nat) : utoa base (fuel + 1) n ≠ [] := by
  unfold utoa
  split <;> simp

theorem parse_digits_append (base : Nat) : ∀ (l r : Bytes) (acc : Nat),
    (∀ c ∈ l, 48 ≤ c ∧ c < 48 + base) →
    parse_digits base (l ++ r) acc = parse_digits base r (parse_digits base l acc) := by
  intro l
  induction l with
  | nil => intro r acc _; simp [parse_digits]
  | cons c cs ih =>
    intro r acc h
    have hc := h c (List.mem_cons_self _ _)
    have hcs : ∀ x ∈ cs, 48 ≤ x ∧ x < 48 + base := fun x hx => h x (List.mem_cons_of_mem _ hx)
    simp [parse_digits, hc, ih r _ hcs]

/-- Parsing the printed digits of a number gives the number back. -/
theorem parse_utoa (base : Nat) (hb : 2 ≤ base) : ∀ (fuel n : Nat), n < fuel →
    parse_digits base (utoa base fuel n) 0 = n := by
  intro fuel
  induction fuel with
  | zero => intro n h; omega
  | succ fuel ih =>
    intro n h
    unfold utoa
    split
    · rename_i hn
      simp [parse_digits, hn]
    · rename_i hn
      have hdiv : n / base < fuel := by
        have : n / base < n := Nat.div_lt_self (by omega) (by omega)
        omega
      rw [parse_digits_append base _ _ _ (utoa_digits base (by omega) fuel (n / base)), ih _ hdiv]
      have hm := Nat.mod_lt n (show 0 < base by omega)
      simp [parse_digits, hm]
      exact Nat.div_add_mod' n base

theorem strtol_utoa (base : Nat) (hb : 2 ≤ base) (hb10 : base ≤ 10) (n : Nat)
    (hn : n < 9223372036854775808) : strtol base (utoa base (n + 1) n) = n := by
  have hne := utoa_ne_nil base n n
  have hd := utoa_digits base (by omega) (n + 1) n
  cases hs : utoa base (n + 1) n with
  | nil => exact absurd hs hne
  | cons c t =>
    have hc : 48 ≤ c ∧ c < 48 + base := hd c (by rw [hs]; exact List.mem_cons_self _ _)
    have hsp : isspace c = false := by
      unfold isspace
      simp
      omega
    have hp := parse_utoa base hb (n + 1) n (by omega)
    rw [hs] at hp
    unfold strtol
    rw [List.dropWhile_cons_of_neg (by simp [hsp])]
    have h45 : c ≠ 45 := by omega
    have h43 : c ≠ 43 := by omega
    simp only [List.head?_cons, Option.some.injEq, h45, h43, if_false, hp]
    omega

theorem to_mode_t_fmt_o (m : Nat) (hm : m < 4294967296) : to_mode_t (strtol 8 (fmt_o m)) = m := by
  unfold fmt_o
  rw [Nat.mod_eq_of_lt hm, strtol_utoa 8 (by omega) (by omega) m (by omega)]
  unfold to_mode_t
  omega

theorem atoi_fmt_d (l : Int) (h0 : 0 ≤ l) (h1 : l < 2147483648) : atoi (fmt_d l) = l := by
  unfold fmt_d atoi
  have : ¬ l < 0 := by omega
  simp only [this, if_false]
  rw [strtol_utoa 10 (by omega) (by omega) l.natAbs (by omega)]
  unfold wrap32
  omega

theorem fmt_o_clean (m : Nat) : ∀ c ∈ fmt_o m, c ≠ 0 ∧ c ≠ 10 ∧ c ≠ 13 := by
  intro c hc
  have := utoa_digits 8 (by omega) _ _ c hc
  omega

theorem fmt_d_clean (l : Int) (h0 : 0 ≤ l) : ∀ c ∈ fmt_d l, c ≠ 0 ∧ c ≠ 10 ∧ c ≠ 13 := by
  intro c hc
  unfold fmt_d at hc
  have hl : ¬ l < 0 := by omega
  simp only [hl, if_false] at hc
  have := utoa_digits 10 (by omega) _ _ c hc
  omega

theorem file_type_string_roundtrip (t : file_type) :
    file_string_to_type (file_type_to_string t) = t := by
  cases t <;> decide

theorem file_type_to_string_clean (t : file_type) :
    ∀ c ∈ file_type_to_string t, c ≠ 0 ∧ c ≠ 10 ∧ c ≠ 13 := by
  cases t <;> decide

theorem bytes_name : bytes "name " = [110, 97, 109, 101, 32] := by decide
theorem bytes_type : bytes "type " = [116, 121, 112, 101, 32] := by decide
theorem bytes_mode : bytes "mode " = [109, 111, 100, 101, 32] := by decide
theorem bytes_length : bytes "length " = [108, 101, 110, 103, 116, 104, 32] := by decide
theorem bytes_exec : bytes "exec " = [101, 120, 101, 99, 32] := by decide
theorem bytes_cleanup : bytes "cleanup" = [99, 108, 101, 97, 110, 117, 112] := by decide
theorem bytes_lf : bytes "\n" = [10] := by decide

theorem line_norm (pre body : Bytes) (hpre : ∀ c ∈ pre, c ≠ 0 ∧ c ≠ 10 ∧ c ≠ 13)
    (hbody : ∀ c ∈ body, c ≠ 0 ∧ c ≠ 10 ∧ c ≠ 13) :
    strip (cstr (pre ++ body ++ [10])) = pre ++ body := by
  have hall : ∀ c ∈ pre ++ body, c ≠ 0 ∧ c ≠ 10 ∧ c ≠ 13 := by
    intro c hc
    rcases List.mem_append.mp hc with h | h
    · exact hpre c h
    · exact hbody c h
  rw [cstr_of_no_zero]
  · exact strip_line _ (fun c hc => (hall c hc).2)
  · intro c hc
    rcases List.mem_append.mp hc with h | h
    · exact (hall c h).1
    · simp at h; omega

theorem header_line_empty (nh : header_s) : header_line nh ([] ++ [10]) = nh := by
  have h := line_norm [] [] (by simp) (by simp)
  simp only [List.append_nil, List.nil_append] at h
  simp [header_line, h]

theorem header_line_name (nh : header_s) (n : Bytes) (hn : ∀ c ∈ n, c ≠ 0 ∧ c ≠ 10 ∧ c ≠ 13) :
    header_line nh ((bytes "name " ++ n) ++ [10]) = { nh with name := some n } := by
  have h := line_norm (bytes "name ") n (by decide) hn
  unfold header_line
  simp only [h]
  simp [bytes_name, strncmp_eq]

theorem header_line_type (nh : header_s) (t : file_type) :
    header_line nh ((bytes "type " ++ file_type_to_string t) ++ [10]) = { nh with type := t } := by
  have h := line_norm (bytes "type ") _ (by decide) (file_type_to_string_clean t)
  unfold header_line
  simp only [h]
  simp [bytes_name, bytes_type, strncmp_eq, file_type_string_roundtrip]

theorem header_line_mode (nh : header_s) (m : Nat) (hm : m < 4294967296) :
    header_line nh ((bytes "mode " ++ fmt_o m) ++ [10]) = { nh with mode := m } := by
  have h := line_norm (bytes "mode ") _ (by decide) (fmt_o_clean m)
  unfold header_line
  simp only [h]
  simp [bytes_name, bytes_type, bytes_mode, strncmp_eq, to_mode_t_fmt_o m hm]

theorem header_line_length (nh : header_s) (l : Int) (h0 : 0 ≤ l) (h1 : l < 2147483648) :
    header_line nh ((bytes "length " ++ fmt_d l) ++ [10]) = { nh with length := l } := by
  have h := line_norm (bytes "length ") _ (by decide) (fmt_d_clean l h0)
  unfold header_line
  simp only [h]
  simp [bytes_name, bytes_type, bytes_mode, bytes_length, strncmp_eq, atoi_fmt_d l h0 h1]

theorem global_line_empty (ng : global_s) : global_line ng ([] ++ [10]) = ng := by
  have h := line_norm [] [] (by simp) (by simp)
  simp only [List.append_nil, List.nil_append] at h
  simp [global_line, h]

theorem global_line_exec (ng : global_s) (e : Bytes) (he : ∀ c ∈ e, c ≠ 0 ∧ c ≠ 10 ∧ c ≠ 13) :
    global_line ng ((bytes "exec " ++ e) ++ [10]) = { ng with exec := some e } := by
  have h := line_norm (bytes "exec ") e (by decide) he
  unfold global_line
  simp only [h]
  simp [bytes_exec, strncmp_eq]

theorem global_line_cleanup (ng : global_s) :
    global_line ng (bytes "cleanup" ++ [10]) = { ng with cleanup := true } := by
  have h := line_norm (bytes "cleanup") [] (by decide) (by simp)
  simp only [List.append_nil] at h
  unfold global_line
  simp only [h]
  simp [bytes_exec, bytes_cleanup, strncmp_eq]

theorem classify_take_head_ne (l rest : Bytes) (h : (l ++ [10]).head? ≠ some 42) :
    classify ((l ++ 10 :: rest).take 16) = marker_type.marker_none := by
  cases l with
  | nil => simpa using classify_head_ne 10 (rest.take 15) (by omega)
  | cons c t =>
    have hc : c ≠ 42 := by simpa using h
    simpa using classify_head_ne c ((t ++ 10 :: rest).take 15) hc

theorem classify_take_end (tail : Bytes) : classify ((ezn_end ++ tail).take 16) = marker_type.marker_end := by
  rw [List.take_left' (by decide)]
  decide

/-- One turn of the loop of `header_read` on a line that is not a marker. -/
theorem header_loop_line (stale data : Bytes) (p fuel : Nat) (nh : header_s) (l rest : Bytes)
    (hd : data.drop p = l ++ 10 :: rest) (h16 : 15 ≤ l.length + rest.length)
    (hnl : 10 ∉ l) (hl : l.length < 4095) (hh : (l ++ [10]).head? ≠ some 42)
    (hp : p + (l.length + 1) < 2147483648) :
    header_loop stale (fuel + 1) ⟨data, p, false⟩ (p : Int) nh
      = header_loop stale fuel ⟨data, p + (l.length + 1), false⟩ ((p + (l.length + 1) : Nat) : Int)
          (header_line nh (l ++ [10])) := by
  have hlen : 16 ≤ (data.drop p).length := by rw [hd]; simp; omega
  conv_lhs => unfold header_loop
  simp only [read_marker_full stale data p false hlen]
  rw [hd, classify_take_head_ne l rest hh]
  simp only [fseek_set_nat, fgets_line data p l rest hd hnl hl, ftell]
  rw [wrap32_nat _ hp]
  simp

/-- The loop of `header_read` over text lines up to the END marker. -/
theorem header_loop_lines (stale data tail : Bytes) : ∀ (lines : List Bytes) (p : Nat)
    (nh : header_s) (fuel : Nat),
    data.drop p = join_lines lines ++ (ezn_end ++ tail) →
    (∀ l ∈ lines, 10 ∉ l ∧ l.length < 4095 ∧ (l ++ [10]).head? ≠ some 42) →
    p + (join_lines lines).length + 16 < 2147483648 →
    lines.length < fuel →
    header_loop stale fuel ⟨data, p, false⟩ (p : Int) nh
      = some (lines.foldl (fun h l => header_line h (l ++ [10])) nh, marker_type.marker_end,
              ⟨data, p + (join_lines lines).length + 16, false⟩) := by
  intro lines
  induction lines with
  | nil =>
    intro p nh fuel hd _ _ hf
    obtain ⟨k, rfl⟩ : ∃ k, fuel = k + 1 := ⟨fuel - 1, by simp at hf; omega⟩
    simp only [join_lines, List.nil_append] at hd
    have hlen : 16 ≤ (data.drop p).length := by
      rw [hd]; simp; have : ezn_end.length = 16 := by decide
      omega
    unfold header_loop
    simp only [read_marker_full stale data p false hlen]
    rw [hd, classify_take_end]
    simp [join_lines]
  | cons l ls ih =>
    intro p nh fuel hd hok hp hf
    obtain ⟨k, rfl⟩ : ∃ k, fuel = k + 1 := ⟨fuel - 1, by simp at hf; omega⟩
    have hl := hok l (List.mem_cons_self _ _)
    have hls : ∀ x ∈ ls, 10 ∉ x ∧ x.length < 4095 ∧ (x ++ [10]).head? ≠ some 42 :=
      fun x hx => hok x (List.mem_cons_of_mem _ hx)
    have hd1 : data.drop p = l ++ 10 :: (join_lines ls ++ (ezn_end ++ tail)) := by
      rw [hd]; simp [join_lines]
    have he : ezn_end.length = 16 := by decide
    have hjl : (join_lines (l :: ls)).length = l.length + 1 + (join_lines ls).length := by
      simp [join_lines]; omega
    rw [header_loop_line stale data p k nh l _ hd1 (by simp; omega) hl.1 hl.2.1 hl.2.2 (by omega)]
    have hd2 : data.drop (p + (l.length + 1)) = join_lines ls ++ (ezn_end ++ tail) := by
      have := drop_add_of_drop data p (l ++ [10]) (join_lines ls ++ (ezn_end ++ tail))
        (by rw [hd1]; simp)
      simpa using this
    rw [ih (p + (l.length + 1)) _ k hd2 hls (by omega) (by simp at hf; omega)]
    simp only [List.foldl_cons, hjl]
    have : p + (l.length + 1) + (join_lines ls).length + 16
        = p + (l.length + 1 + (join_lines ls).length) + 16 := by omega
    rw [this]

/-- One turn of the loop of `global_read` on a line that is not a marker. -/
theorem global_loop_line (stale data : Bytes) (p fuel : Nat) (ng : global_s) (l rest : Bytes)
    (hd : data.drop p = l ++ 10 :: rest) (h16 : 15 ≤ l.length + rest.length)
    (hnl : 10 ∉ l) (hl : l.length < 4095) (hh : (l ++ [10]).head? ≠ some 42)
    (hp : p + (l.length + 1) < 2147483648) :
    global_loop stale (fuel + 1) ⟨data, p, false⟩ (p : Int) ng
      = global_loop stale fuel ⟨data, p + (l.length + 1), false⟩ ((p + (l.length + 1) : Nat) : Int)
          (global_line ng (l ++ [10])) := by
  have hlen : 16 ≤ (data.drop p).length := by rw [hd]; simp; omega
  conv_lhs => unfold global_loop
  simp only [read_marker_full stale data p false hlen]
  rw [hd, classify_take_head_ne l rest hh]
  simp only [fseek_set_nat, fgets_line data p l rest hd hnl hl, ftell]
  rw [wrap32_nat _ hp]
  simp

/-- The loop of `global_read` over text lines up to the END marker. -/
theorem global_loop_lines (stale data tail : Bytes) : ∀ (lines : List Bytes) (p : Nat)
    (ng : global_s) (fuel : Nat),
    data.drop p = join_lines lines ++ (ezn_end ++ tail) →
    (∀ l ∈ lines, 10 ∉ l ∧ l.length < 4095 ∧ (l ++ [10]).head? ≠ some 42) →
    p + (join_lines lines).length + 16 < 2147483648 →
    lines.length < fuel →
    global_loop stale fuel ⟨data, p, false⟩ (p : Int) ng
      = some (lines.foldl (fun g l => global_line g (l ++ [10])) ng,
              ⟨data, p + (join_lines lines).length + 16, false⟩) := by
  intro lines
  induction lines with
  | nil =>
    intro p ng fuel hd _ _ hf
    obtain ⟨k, rfl⟩ : ∃ k, fuel = k + 1 := ⟨fuel - 1, by simp at hf; omega⟩
    simp only [join_lines, List.nil_append] at hd
    have hlen : 16 ≤ (data.drop p).length := by
      rw [hd]; simp; have : ezn_end.length = 16 := by decide
      omega
    unfold global_loop
    simp only [read_marker_full stale data p false hlen]
    rw [hd, classify_take_end]
    simp [join_lines]
  | cons l ls ih =>
    intro p ng fuel hd hok hp hf
    obtain ⟨k, rfl⟩ : ∃ k, fuel = k + 1 := ⟨fuel - 1, by simp at hf; omega⟩
    have hl := hok l (List.mem_cons_self _ _)
    have hls : ∀ x ∈ ls, 10 ∉ x ∧ x.length < 4095 ∧ (x ++ [10]).head? ≠ some 42 :=
      fun x hx => hok x (List.mem_cons_of_mem _ hx)
    have hd1 : data.drop p = l ++ 10 :: (join_lines ls ++ (ezn_end ++ tail)) := by
      rw [hd]; simp [join_lines]
    have he : ezn_end.length = 16 := by decide
    have hjl : (join_lines (l :: ls)).length = l.length + 1 + (join_lines ls).length := by
      simp [join_lines]; omega
    rw [global_loop_line stale data p k ng l _ hd1 (by simp; omega) hl.1 hl.2.1 hl.2.2 (by omega)]
    have hd2 : data.drop (p + (l.length + 1)) = join_lines ls ++ (ezn_end ++ tail) := by
      have := drop_add_of_drop data p (l ++ [10]) (join_lines ls ++ (ezn_end ++ tail))
        (by rw [hd1]; simp)
      simpa using this
    rw [ih (p + (l.length + 1)) _ k hd2 hls (by omega) (by simp at hf; omega)]
    simp only [List.foldl_cons, hjl]
    have : p + (l.length + 1) + (join_lines ls).length + 16
        = p + (l.length + 1 + (join_lines ls).length) + 16 := by omega
    rw [this]

theorem emit_data_eq : emit_data = ezn_data ++ [10] := by decide

theorem emit_header_eq (r : file_s) :
    emit_header (header_of_file r)
      = ezn_head ++ (join_lines (header_lines r) ++ (ezn_end ++ [10])) := by
  have h1 : bytes ("***" ++ " " ++ "EZN" ++ " " ++ "HEAD" ++ " " ++ "***" ++ "\n") = ezn_head ++ [10] := by
    decide
  have h2 : bytes ("***" ++ " " ++ "EZN" ++ " " ++ "END " ++ " " ++ "***" ++ "\n") = ezn_end ++ [10] := by
    decide
  simp only [emit_header, header_of_file, header_lines, join_lines, fmt_s, h1, h2, bytes_lf]
  simp

theorem emit_global_eq (g : global_s) :
    emit_global g = ezn_glob ++ (join_lines (global_lines g) ++ (ezn_end ++ [10])) := by
  have h1 : bytes ("***" ++ " " ++ "EZN" ++ " " ++ "GLOB" ++ " " ++ "***" ++ "\n") = ezn_glob ++ [10] := by
    decide
  have h2 : bytes ("***" ++ " " ++ "EZN" ++ " " ++ "END " ++ " " ++ "***" ++ "\n") = ezn_end ++ [10] := by
    decide
  have h3 : bytes "cleanup\n" = bytes "cleanup" ++ [10] := by decide
  obtain ⟨e, c⟩ := g
  cases e <;> cases c <;>
    simp only [emit_global, global_lines, join_lines, h1, h2, h3, bytes_lf] <;> simp [join_lines]

theorem header_lines_fold (r : file_s) (content : Bytes → Bytes) (hr : record_ok content r)
    (h1 : r.length < 2147483648) (nh : header_s) :
    (header_lines r).foldl (fun h l => header_line h (l ++ [10])) nh
      = ⟨some r.name, r.type, r.mode, r.length, nh._file_pos⟩ := by
  obtain ⟨hn, hm, hl⟩ := hr
  have h0 : (0 : Int) ≤ r.length := by rw [hl]; omega
  simp only [header_lines, List.foldl_cons, List.foldl_nil, header_line_empty,
    header_line_name _ _ hn.1, header_line_type, header_line_mode _ _ hm,
    header_line_length _ _ h0 h1]

theorem utoa_length (base : Nat) (hb : 2 ≤ base) : ∀ (fuel n k : Nat), 1 ≤ k → n < base ^ k →
    (utoa base fuel n).length ≤ k := by
  intro fuel
  induction fuel with
  | zero => intro n k _ _; simp [utoa]
  | succ fuel ih =>
    intro n k hk hn
    unfold utoa
    split
    · simpa using hk
    · rename_i hnb
      obtain ⟨j, rfl⟩ : ∃ j, k = j + 1 := ⟨k - 1, by omega⟩
      have hj : 1 ≤ j := by
        rcases Nat.eq_zero_or_pos j with h | h
        · subst h; simp at hn; omega
        · exact h
      have hdiv : n / base < base ^ j := by
        rw [Nat.div_lt_iff_lt_mul (by omega)]
        rwa [pow_succ] at hn
      have := ih (n / base) j hj hdiv
      simp; omega

theorem header_lines_ok (r : file_s) (content : Bytes → Bytes) (hr : record_ok content r)
    (h1 : r.length < 2147483648) :
    ∀ l ∈ header_lines r, 10 ∉ l ∧ l.length < 4095 ∧ (l ++ [10]).head? ≠ some 42 := by
  obtain ⟨hn, hm, hl⟩ := hr
  have h0 : (0 : Int) ≤ r.length := by rw [hl]; omega
  have hmode : (fmt_o r.mode).length ≤ 4000 := by
    have := utoa_length 8 (by omega) (r.mode % 4294967296 + 1) (r.mode % 4294967296) 11
      (by omega) (by have := Nat.mod_lt r.mode (show 0 < 4294967296 by omega); omega)
    unfold fmt_o; omega
  have hlen : (fmt_d r.length).length ≤ 4000 := by
    have := utoa_length 10 (by omega) (r.length.natAbs + 1) r.length.natAbs 10
      (by omega) (by omega)
    unfold fmt_d
    have hneg : ¬ r.length < 0 := by omega
    simp only [hneg, if_false]; omega
  intro l hl
  simp only [header_lines, List.mem_cons, List.mem_singleton, List.not_mem_nil, or_false] at hl
  rcases hl with rfl | rfl | rfl | rfl | rfl
  · simp
  · refine ⟨?_, ?_, ?_⟩
    · intro h
      rcases List.mem_append.mp h with h | h
      · revert h; decide
      · exact (hn.1 10 h).2.1 rfl
    · have := hn.2
      simp [bytes_name]; omega
    · simp [bytes_name]
  · refine ⟨?_, ?_, ?_⟩
    · intro h
      rcases List.mem_append.mp h with h | h
      · revert h; decide
      · exact (file_type_to_string_clean r.type 10 h).2.1 rfl
    · cases r.type <;> decide
    · simp [bytes_type]
  · refine ⟨?_, ?_, ?_⟩
    · intro h
      rcases List.mem_append.mp h with h | h
      · revert h; decide
      · exact (fmt_o_clean r.mode 10 h).2.1 rfl
    · simp [bytes_mode]; omega
    · simp [bytes_mode]
  · refine ⟨?_, ?_, ?_⟩
    · intro h
      rcases List.mem_append.mp h with h | h
      · revert h; decide
      · exact (fmt_d_clean r.length h0 10 h).2.1 rfl
    · simp [bytes_length]; omega
    · simp [bytes_length]

/-- The function `header_read` on the block that `emit_header` wrote, entered
right after the 16 bytes of the HEAD token. -/
theorem header_read_record (stale data tail : Bytes) (content : Bytes → Bytes) (r : file_s)
    (p fuel : Nat) (hr : record_ok content r) (h1 : r.length < 2147483648)
    (hd : data.drop p = join_lines (header_lines r) ++ (ezn_end ++ tail))
    (hp : p + (join_lines (header_lines r)).length + 17 < 2147483648) (hf : 5 < fuel) :
    header_read stale fuel ⟨data, p, false⟩
      = some (⟨some r.name, r.type, r.mode, r.length,
                ((p + (join_lines (header_lines r)).length + 17 : Nat) : Int)⟩,
              ⟨data, p + (join_lines (header_lines r)).length + 16, false⟩) := by
  unfold header_read
  simp only [ftell]
  rw [wrap32_nat p (by omega),
    header_loop_lines stale data tail (header_lines r) p _ fuel hd
      (header_lines_ok r content hr h1) (by omega) (by simpa [header_lines] using hf)]
  simp only [header_lines_fold r content hr h1, if_true, ftell]
  have e : wrap32 (((p + (join_lines (header_lines r)).length + 16 : Nat) : Int) + 1)
      = ((p + (join_lines (header_lines r)).length + 17 : Nat) : Int) := by
    unfold wrap32; omega
  rw [e]

theorem global_lines_ok (g : global_s) (hg : global_ok g) :
    ∀ l ∈ global_lines g, 10 ∉ l ∧ l.length < 4095 ∧ (l ++ [10]).head? ≠ some 42 := by
  obtain ⟨e, c⟩ := g
  intro l hl
  have hcl : (10 ∉ bytes "cleanup" ∧ (bytes "cleanup").length < 4095
      ∧ (bytes "cleanup" ++ [10]).head? ≠ some 42) := by decide
  have hex : ∀ x, clean_text x → (10 ∉ bytes "exec " ++ x ∧ (bytes "exec " ++ x).length < 4095
      ∧ ((bytes "exec " ++ x) ++ [10]).head? ≠ some 42) := by
    intro x hx
    refine ⟨?_, ?_, ?_⟩
    · intro h
      rcases List.mem_append.mp h with h | h
      · revert h; decide
      · exact (hx.1 10 h).2.1 rfl
    · have := hx.2
      simp [bytes_exec]; omega
    · simp [bytes_exec]
  cases e with
  | none =>
    cases c
    · simp [global_lines] at hl
      subst hl; simp
    · simp [global_lines] at hl
      rcases hl with rfl | rfl
      · simp
      · exact hcl
  | some x =>
    have hx : clean_text x := hg
    cases c
    · simp [global_lines] at hl
      rcases hl with rfl | rfl
      · simp
      · exact hex x hx
    · simp [global_lines] at hl
      rcases hl with rfl | rfl | rfl
      · simp
      · exact hex x hx
      · exact hcl

theorem global_lines_fold (g : global_s) (hg : global_ok g) :
    (global_lines g).foldl (fun h l => global_line h (l ++ [10])) ⟨none, false⟩ = g := by
  obtain ⟨e, c⟩ := g
  cases e with
  | none =>
    cases c
    · simp only [global_lines, List.append_nil, List.foldl_cons, List.foldl_nil,
        global_line_empty, Bool.false_eq_true, if_false]
    · simp only [global_lines, List.append_nil, List.foldl_cons, List.foldl_nil,
        global_line_empty, if_true, List.singleton_append, global_line_cleanup]
  | some x =>
    have hx : clean_text x := hg
    cases c
    · simp only [global_lines, List.append_nil, List.foldl_cons, List.foldl_nil,
        global_line_empty, List.singleton_append, global_line_exec _ _ hx.1,
        Bool.false_eq_true, if_false]
    · simp only [global_lines, List.append_nil, List.foldl_cons, List.foldl_nil,
        global_line_empty, if_true, List.singleton_append, List.cons_append, List.nil_append,
        global_line_exec _ _ hx.1, global_line_cleanup]

theorem global_lines_length (g : global_s) : (global_lines g).length ≤ 3 := by
  obtain ⟨e, c⟩ := g
  cases e <;> cases c <;> simp [global_lines]

/-- The function `global_read` on the block that `emit_global` wrote, entered
right after the 16 bytes of the GLOB token. -/
theorem global_read_block (stale data tail : Bytes) (g : global_s) (p fuel : Nat)
    (hg : global_ok g)
    (hd : data.drop p = join_lines (global_lines g) ++ (ezn_end ++ tail))
    (hp : p + (join_lines (global_lines g)).length + 16 < 2147483648) (hf : 3 < fuel) :
    global_read stale fuel ⟨data, p, false⟩
      = some (g, ⟨data, p + (join_lines (global_lines g)).length + 16, false⟩) := by
  unfold global_read
  simp only [ftell]
  rw [wrap32_nat p (by omega),
    global_loop_lines stale data tail (global_lines g) p _ fuel hd
      (global_lines_ok g hg) hp (by have := global_lines_length g; omega)]
  rw [global_lines_fold g hg]

theorem to_size_t_nat (n : Nat) (h : n < 18446744073709551616) : to_size_t (n : Int) = n := by
  unfold to_size_t; omega

theorem loop_bound (n : Nat) (h16 : 16 ≤ n) (h : n < 18446744073709551616) :
    to_size_t ((to_size_t (n : Int) : Int) - 16) = n - 16 := by
  rw [to_size_t_nat n h]
  unfold to_size_t; omega

/-- Each turn of the loop of `sections_list` begins with an `fseek`, so the
position and the end-of-file flag of the stream do not matter. -/
theorem sections_loop_norm (stale : Bytes) (fuel : Nat) (f : FILE) (end_ i : Nat)
    (acc : List section_s) (hi : i < 9223372036854775808) :
    sections_loop stale fuel f end_ i acc
      = sections_loop stale fuel ⟨f.data, 0, false⟩ end_ i acc := by
  cases fuel with
  | zero => simp [sections_loop]
  | succ k =>
    unfold sections_loop
    simp only [to_long_nat i hi, fseek_set_nat]

/-- A turn of the loop of `sections_list` at an offset without GLOB or HEAD
marker moves the cursor by one. -/
theorem sections_loop_step (stale data : Bytes) (fuel i : Nat) (acc : List section_s)
    (hlen : data.length < 9223372036854775808) (hi : i + 16 < data.length)
    (hg : classify ((data.drop i).take 16) ≠ marker_type.marker_global)
    (hh : classify ((data.drop i).take 16) ≠ marker_type.marker_header) :
    sections_loop stale (fuel + 1) ⟨data, 0, false⟩ (to_size_t data.length) i acc
      = sections_loop stale fuel ⟨data, 0, false⟩ (to_size_t data.length) (i + 1) acc := by
  have hb := loop_bound data.length (by omega) (by omega)
  have hr := read_marker_full stale data i false (by rw [List.length_drop]; omega)
  have hn : to_size_t ((i : Int) + 1) = i + 1 := by unfold to_size_t; omega
  conv_lhs => unfold sections_loop
  simp only [hb, to_long_nat i (by omega), fseek_set_nat, hr, hn]
  rw [if_pos (by omega)]
  generalize classify ((data.drop i).take 16) = m at hg hh
  cases m
  · rw [sections_loop_norm _ _ _ _ _ _ (by omega)]
  · rw [sections_loop_norm _ _ _ _ _ _ (by omega)]
  · exact absurd rfl hg
  · exact absurd rfl hh
  · rw [sections_loop_norm _ _ _ _ _ _ (by omega)]

/-- The loop of `sections_list` over a stretch without GLOB or HEAD marker. -/
theorem sections_loop_skip (stale data : Bytes) (hlen : data.length < 9223372036854775808) :
    ∀ (n i fuel : Nat) (acc : List section_s), i + n + 16 ≤ data.length →
    (∀ j, i ≤ j → j < i + n →
      classify ((data.drop j).take 16) ≠ marker_type.marker_global ∧
      classify ((data.drop j).take 16) ≠ marker_type.marker_header) →
    sections_loop stale (n + fuel) ⟨data, 0, false⟩ (to_size_t data.length) i acc
      = sections_loop stale fuel ⟨data, 0, false⟩ (to_size_t data.length) (i + n) acc := by
  intro n
  induction n with
  | zero => intro i fuel acc _ _; simp
  | succ n ih =>
    intro i fuel acc hi hc
    have h := hc i (Nat.le_refl _) (by omega)
    rw [show n + 1 + fuel = (n + fuel) + 1 by omega,
      sections_loop_step stale data (n + fuel) i acc hlen (by omega) h.1 h.2,
      ih (i + 1) fuel acc (by omega) (fun j h1 h2 => hc j (by omega) (by omega))]
    rw [show i + 1 + n = i + (n + 1) by omega]

theorem emit_header_length (r : file_s) :
    (emit_header (header_of_file r)).length = (join_lines (header_lines r)).length + 33 := by
  rw [emit_header_eq]
  have h1 : ezn_head.length = 16 := by decide
  have h2 : ezn_end.length = 16 := by decide
  simp [h1, h2]; omega

theorem length_of_drop (data : Bytes) (p : Nat) (s : Bytes) (hd : data.drop p = s)
    (hp : p ≤ data.length) : data.length = p + s.length := by
  have := List.length_drop p data
  rw [hd] at this
  omega

/-- The turn of the loop of `sections_list` at the HEAD marker of a block that
`emit_header` wrote: one Header section, and the cursor resumes one byte before
the end of the payload. -/
theorem sections_loop_header (stale data tail : Bytes) (content : Bytes → Bytes) (r : file_s)
    (p fuel : Nat) (acc : List section_s)
    (hr : record_ok content r) (hlen : data.length < 2147483648)
    (hd : data.drop p = emit_header (header_of_file r) ++ tail) (hp : p ≤ data.length)
    (hpay : (emit_file content (header_of_file r)).length ≤ tail.length)
    (hf : 5 < fuel) :
    sections_loop stale (fuel + 1) ⟨data, 0, false⟩ (to_size_t data.length) p acc
      = sections_loop stale fuel ⟨data, 0, false⟩ (to_size_t data.length)
          (p + (emit_header (header_of_file r)).length
             + (emit_file content (header_of_file r)).length - 1)
          (acc ++ [section_s.header ⟨some r.name, r.type, r.mode, r.length,
              ((p + (emit_header (header_of_file r)).length : Nat) : Int)⟩]) := by
  have hH := emit_header_length r
  have hL := length_of_drop data p _ hd hp
  simp only [List.length_append] at hL
  have h1 : r.length < 2147483648 := by rw [hr.2.2]; omega
  have hb := loop_bound data.length (by omega) (by omega)
  have hrm := read_marker_full stale data p false (by rw [hd]; simp; omega)
  have hw : classify ((data.drop p).take 16) = marker_type.marker_header := by
    rw [hd, emit_header_eq, List.append_assoc, List.take_left' (by decide)]
    decide
  have hd2 : data.drop (p + 16)
      = join_lines (header_lines r) ++ (ezn_end ++ ([10] ++ tail)) := by
    have := drop_add_of_drop data p ezn_head
      (join_lines (header_lines r) ++ (ezn_end ++ ([10] ++ tail)))
      (by rw [hd, emit_header_eq]; simp)
    rw [show ezn_head.length = 16 by decide] at this
    exact this
  have hhr := header_read_record stale data ([10] ++ tail) content r (p + 16) fuel hr h1 hd2
    (by omega) hf
  conv_lhs => unfold sections_loop
  simp only [hb, to_long_nat p (by omega), fseek_set_nat, hrm, hw]
  rw [if_pos (by omega)]
  simp only [hhr, ftell, fseek_set]
  have hi : to_size_t ((to_size_t (((p + 16 + (join_lines (header_lines r)).length + 16 : Nat) : Int)
      + r.length - 1) : Int) + 1)
      = p + (emit_header (header_of_file r)).length
          + (emit_file content (header_of_file r)).length - 1 := by
    rw [hr.2.2]
    unfold to_size_t
    omega
  have hq : ((p + 16 + (join_lines (header_lines r)).length + 17 : Nat) : Int)
      = ((p + (emit_header (header_of_file r)).length : Nat) : Int) := by
    rw [hH]; congr 1; omega
  rw [hi, hq]
  simp

theorem sections_loop_stop (stale data : Bytes) (fuel i : Nat) (acc : List section_s)
    (h16 : 16 ≤ data.length) (hlen : data.length < 9223372036854775808) (hi : data.length ≤ i + 16) :
    sections_loop stale (fuel + 1) ⟨data, 0, false⟩ (to_size_t data.length) i acc = some acc := by
  have hb := loop_bound data.length h16 (by omega)
  unfold sections_loop
  simp only [hb]
  rw [if_neg (by omega)]

theorem classify_before_head (data : Bytes) (q : Nat) (rest : Bytes) (hq : 0 < q)
    (hql : q ≤ data.length) (hd : data.drop q = ezn_head ++ rest) :
    classify ((data.drop (q - 1)).take 16) = marker_type.marker_none := by
  have h1 : q - 1 < data.length := by omega
  rw [List.drop_eq_getElem_cons h1, show q - 1 + 1 = q by omega, hd, ezn_head_eq]
  simpa using classify_shifted _ _

/-- The loop of `sections_list` over the blocks of the file records, from the
HEAD marker of the first one to the end of the file. -/
theorem scan_files (stale data : Bytes) (content : Bytes → Bytes)
    (hlen : data.length < 2147483648) :
    ∀ (fs : List file_s) (p fuel : Nat) (acc : List section_s),
    data.drop p = emit_files content fs → p ≤ data.length → 16 ≤ p →
    (∀ r ∈ fs, record_ok content r) → 2 * fs.length + 7 ≤ fuel →
    sections_loop stale fuel ⟨data, 0, false⟩ (to_size_t data.length) p acc
      = some (acc ++ scanned_headers content p fs) := by
  intro fs
  induction fs with
  | nil =>
    intro p fuel acc hd hp h16 _ hf
    obtain ⟨k, rfl⟩ : ∃ k, fuel = k + 1 := ⟨fuel - 1, by omega⟩
    have hL := length_of_drop data p _ hd hp
    simp only [emit_files, List.length_nil] at hL
    rw [sections_loop_stop stale data k p acc (by omega) (by omega) (by omega)]
    simp [scanned_headers]
  | cons r rs ih =>
    intro p fuel acc hd hp h16 hok hf
    simp only [List.length_cons] at hf
    obtain ⟨k, rfl⟩ : ∃ k, fuel = k + 2 := ⟨fuel - 2, by omega⟩
    have hr := hok r (List.mem_cons_self _ _)
    have hrs : ∀ x ∈ rs, record_ok content x := fun x hx => hok x (List.mem_cons_of_mem _ hx)
    have hd1 : data.drop p = emit_header (header_of_file r)
        ++ (emit_file content (header_of_file r) ++ emit_files content rs) := by
      rw [hd]; simp [emit_files]
    have hL := length_of_drop data p _ hd1 hp
    simp only [List.length_append] at hL
    have hH := emit_header_length r
    have hd2 : data.drop (p + (emit_header (header_of_file r)).length
        + (emit_file content (header_of_file r)).length) = emit_files content rs := by
      have := drop_add_of_drop data p
        (emit_header (header_of_file r) ++ emit_file content (header_of_file r))
        (emit_files content rs) (by rw [hd1]; simp)
      simpa [Nat.add_assoc] using this
    rw [show k + 2 = (k + 1) + 1 by omega,
      sections_loop_header stale data _ content r p (k + 1) acc hr hlen hd1 hp (by simp) (by omega)]
    cases rs with
    | nil =>
      simp only [emit_files, List.length_nil] at hL
      rw [sections_loop_stop stale data k _ _ (by omega) (by omega) (by omega)]
      simp [scanned_headers]
    | cons r2 rs2 =>
      have hH2 := emit_header_length r2
      have hd3 : data.drop (p + (emit_header (header_of_file r)).length
          + (emit_file content (header_of_file r)).length)
          = ezn_head ++ (join_lines (header_lines r2) ++ (ezn_end ++ [10])
              ++ (emit_file content (header_of_file r2) ++ emit_files content rs2)) := by
        rw [hd2]; simp [emit_files, emit_header_eq]
      have hL2 : (emit_files content (r2 :: rs2)).length ≥ 33 := by
        simp [emit_files]; omega
      have hc := classify_before_head data _ _ (by omega) (by omega) hd3
      rw [sections_loop_step stale data k _ _ (by omega) (by omega) (by rw [hc]; decide)
        (by rw [hc]; decide)]
      rw [show p + (emit_header (header_of_file r)).length
          + (emit_file content (header_of_file r)).length - 1 + 1
          = p + (emit_header (header_of_file r)).length
          + (emit_file content (header_of_file r)).length by omega]
      rw [ih _ k _ hd2 (by omega) (by omega) hrs (by simp at hf ⊢; omega)]
      simp [scanned_headers]

theorem emit_global_length (g : global_s) :
    (emit_global g).length = (join_lines (global_lines g)).length + 33 := by
  rw [emit_global_eq]
  have h1 : ezn_glob.length = 16 := by decide
  have h2 : ezn_end.length = 16 := by decide
  simp [h1, h2]; omega

/-- The turn of the loop of `sections_list` at the GLOB marker of the block
that `emit_global` wrote: one Global section, and the cursor resumes right
after the block. -/
theorem sections_loop_global (stale data tail : Bytes) (g : global_s)
    (p fuel : Nat) (acc : List section_s)
    (hg : global_ok g) (hlen : data.length < 2147483648)
    (hd : data.drop p = emit_global g ++ tail) (hp : p ≤ data.length) (hf : 3 < fuel) :
    sections_loop stale (fuel + 1) ⟨data, 0, false⟩ (to_size_t data.length) p acc
      = sections_loop stale fuel ⟨data, 0, false⟩ (to_size_t data.length)
          (p + (emit_global g).length) (acc ++ [section_s.global g]) := by
  have hG := emit_global_length g
  have hL := length_of_drop data p _ hd hp
  simp only [List.length_append] at hL
  have hb := loop_bound data.length (by omega) (by omega)
  have hrm := read_marker_full stale data p false (by rw [hd]; simp; omega)
  have hw : classify ((data.drop p).take 16) = marker_type.marker_global := by
    rw [hd, emit_global_eq, List.append_assoc, List.take_left' (by decide)]
    decide
  have hd2 : data.drop (p + 16)
      = join_lines (global_lines g) ++ (ezn_end ++ ([10] ++ tail)) := by
    have := drop_add_of_drop data p ezn_glob
      (join_lines (global_lines g) ++ (ezn_end ++ ([10] ++ tail)))
      (by rw [hd, emit_global_eq]; simp)
    rw [show ezn_glob.length = 16 by decide] at this
    exact this
  have hgr := global_read_block stale data ([10] ++ tail) g (p + 16) fuel hg hd2 (by omega) hf
  conv_lhs => unfold sections_loop
  simp only [hb, to_long_nat p (by omega), fseek_set_nat, hrm, hw]
  rw [if_pos (by omega)]
  simp only [hgr, ftell]
  have hi : to_size_t (((p + 16 + (join_lines (global_lines g)).length + 16 : Nat) : Int) + 1)
      = p + (emit_global g).length := by
    unfold to_size_t
    omega
  rw [hi, sections_loop_norm _ _ _ _ _ _ (by omega)]

theorem emit_files_length (content : Bytes → Bytes) (fs : List file_s) :
    2 * fs.length ≤ (emit_files content fs).length := by
  induction fs with
  | nil => simp
  | cons r rs ih =>
    have := emit_header_length r
    simp [emit_files]; omega

theorem window_of_prefix (a b : Bytes) (j : Nat) (h : j + 16 ≤ a.length) :
    ((a ++ b).drop j).take 16 = (a.drop j).take 16 := by
  rw [List.drop_append_of_le_length (by omega),
    List.take_append_of_le_length (by rw [List.length_drop]; omega)]

theorem data_line_windows : ∀ k, k < 17 →
    classify (((emit_data ++ ezn_glob).drop k).take 16) ≠ marker_type.marker_global ∧
    classify (((emit_data ++ ezn_glob).drop k).take 16) ≠ marker_type.marker_header := by
  decide

/-- The scan of an archive that `create_installer` wrote from inputs that the
archive can carry: the Global, then one Header per file record. -/
theorem scan_created (stale host : Bytes) (global : global_s) (fs : List file_s)
    (content : Bytes → Bytes) (hok : build_ok host global fs content) (fuel : Nat)
    (hf : (create_installer host global fs content).length ≤ fuel) :
    sections_list stale fuel (create_installer host global fs content)
      = some (section_s.global global
          :: scanned_headers content (host ++ emit_data ++ emit_global global).length fs) := by
  obtain ⟨hh, hg, hrs, hlen⟩ := hok
  have hG := emit_global_length global
  have hF := emit_files_length content fs
  have hD : emit_data.length = 17 := by decide
  have hA : (create_installer host global fs content).length
      = host.length + 17 + (emit_global global).length + (emit_files content fs).length := by
    simp [create_installer, hD]; omega
  generalize hdata : create_installer host global fs content = data at hf hlen hA
  have hsplit1 : data = (host ++ emit_data)
      ++ (emit_global global ++ emit_files content fs) := by
    rw [← hdata]; simp [create_installer]
  have hsplit2 : data = host ++ ((emit_data ++ ezn_glob)
      ++ (join_lines (global_lines global) ++ (ezn_end ++ [10]) ++ emit_files content fs)) := by
    rw [← hdata]; simp [create_installer, emit_global_eq]
  obtain ⟨k, rfl⟩ : ∃ k, fuel = (host.length + 17) + (k + 1) :=
    ⟨fuel - (host.length + 17) - 1, by omega⟩
  unfold sections_list fopen_r
  rw [sections_loop_skip stale data (by omega) (host.length + 17) 0 (k + 1) [] (by omega)]
  · have hd : data.drop (0 + (host.length + 17)) = emit_global global ++ emit_files content fs := by
      have := drop_add_of_drop data 0 (host ++ emit_data) _ (by simpa using hsplit1)
      simpa [hD] using this
    rw [sections_loop_global stale data _ global _ k [] hg hlen hd (by omega) (by omega)]
    have hd2 : data.drop (0 + (host.length + 17) + (emit_global global).length)
        = emit_files content fs := by
      have := drop_add_of_drop data 0 (host ++ emit_data ++ emit_global global)
        (emit_files content fs) (by rw [hsplit1]; simp)
      simpa [hD, Nat.add_assoc] using this
    rw [scan_files stale data content hlen fs _ k _ hd2 (by omega) (by omega) hrs (by omega)]
    simp [hD, Nat.add_assoc]
  · intro j _ hj
    by_cases hjh : j < host.length
    · have hw : (data.drop j).take 16 = (((host ++ emit_data).drop j).take 16) := by
        rw [hsplit1]
        exact window_of_prefix _ _ j (by simp [hD]; omega)
      rw [hw, hh j hjh]
      decide
    · obtain ⟨i, rfl⟩ : ∃ i, j = host.length + i := ⟨j - host.length, by omega⟩
      have hw : (data.drop (host.length + i)).take 16
          = (((emit_data ++ ezn_glob).drop i).take 16) := by
        rw [hsplit2, List.drop_append]
        exact window_of_prefix _ _ i (by
          have : ezn_glob.length = 16 := by decide
          simp [hD, this]; omega)
      rw [hw]
      exact data_line_windows i (by omega)

/-! ## The claims -/

set_option maxRecDepth 100000

theorem classify_cases (b : Bytes) (hb : b.length = 16) :
    (classify b = marker_type.marker_data ↔ b = ezn_data) ∧
    (classify b = marker_type.marker_global ↔ b = ezn_glob) ∧
    (classify b = marker_type.marker_header ↔ b = ezn_head) ∧
    (classify b = marker_type.marker_end ↔ b = ezn_end) ∧
    (classify b = marker_type.marker_none ↔
      b ≠ ezn_data ∧ b ≠ ezn_glob ∧ b ≠ ezn_head ∧ b ≠ ezn_end) := by
  have e1 : strncmp_eq 16 b ezn_data = true ↔ b = ezn_data := by
    rw [strncmp_eq_iff_take 16 b ezn_data (by decide) (by decide),
      List.take_of_length_le (by omega)]
  have e2 : strncmp_eq 16 b ezn_glob = true ↔ b = ezn_glob := by
    rw [strncmp_eq_iff_take 16 b ezn_glob (by decide) (by decide),
      List.take_of_length_le (by omega)]
  have e3 : strncmp_eq 16 b ezn_head = true ↔ b = ezn_head := by
    rw [strncmp_eq_iff_take 16 b ezn_head (by decide) (by decide),
      List.take_of_length_le (by omega)]
  have e4 : strncmp_eq 16 b ezn_end = true ↔ b = ezn_end := by
    rw [strncmp_eq_iff_take 16 b ezn_end (by decide) (by decide),
      List.take_of_length_le (by omega)]
  have d12 : ezn_data ≠ ezn_glob := by decide
  have d13 : ezn_data ≠ ezn_head := by decide
  have d14 : ezn_data ≠ ezn_end := by decide
  have d23 : ezn_glob ≠ ezn_head := by decide
  have d24 : ezn_glob ≠ ezn_end := by decide
  have d34 : ezn_head ≠ ezn_end := by decide
  simp only [classify, e1, e2, e3, e4]
  by_cases h1 : b = ezn_data
  · subst h1; simp [d12, d13, d14]
  · by_cases h2 : b = ezn_glob
    · subst h2; simp [h1, d23, d24]
    · by_cases h3 : b = ezn_head
      · subst h3; simp [h1, h2, d34]
      · by_cases h4 : b = ezn_end
        · subst h4; simp [h1, h2, h3]
        · simp [h1, h2, h3, h4]

/-- C7: `read_marker` on a stream that holds at least 16 more bytes classifies
exactly: it returns DATA, GLOBAL, HEADER or END if and only if the 16 bytes read
are the token `*** EZN DATA ***`, `*** EZN GLOB ***`, `*** EZN HEAD ***` or
`*** EZN END  ***`, and NONE if and only if they are none of the four; the four
tokens have 16 bytes each and are pairwise distinct. -/
theorem read_marker_exact_match (stale : Bytes) (f : FILE) (h : f.pos + 16 ≤ f.data.length) :
    ((read_marker stale f).1 = marker_type.marker_data
        ↔ (f.data.drop f.pos).take 16 = bytes "*** EZN DATA ***") ∧
    ((read_marker stale f).1 = marker_type.marker_global
        ↔ (f.data.drop f.pos).take 16 = bytes "*** EZN GLOB ***") ∧
    ((read_marker stale f).1 = marker_type.marker_header
        ↔ (f.data.drop f.pos).take 16 = bytes "*** EZN HEAD ***") ∧
    ((read_marker stale f).1 = marker_type.marker_end
        ↔ (f.data.drop f.pos).take 16 = bytes "*** EZN END  ***") ∧
    ((read_marker stale f).1 = marker_type.marker_none
        ↔ ((f.data.drop f.pos).take 16 ≠ bytes "*** EZN DATA ***" ∧
           (f.data.drop f.pos).take 16 ≠ bytes "*** EZN GLOB ***" ∧
           (f.data.drop f.pos).take 16 ≠ bytes "*** EZN HEAD ***" ∧
           (f.data.drop f.pos).take 16 ≠ bytes "*** EZN END  ***")) ∧
    [bytes "*** EZN DATA ***", bytes "*** EZN GLOB ***", bytes "*** EZN HEAD ***",
      bytes "*** EZN END  ***"].Nodup ∧
    (∀ t ∈ [bytes "*** EZN DATA ***", bytes "*** EZN GLOB ***", bytes "*** EZN HEAD ***",
      bytes "*** EZN END  ***"], t.length = 16) := by
  obtain ⟨data, pos, eof⟩ := f
  simp only at h
  have hl : ((data.drop pos).take 16).length = 16 := by
    rw [List.length_take, List.length_drop]; omega
  have hc := classify_cases _ hl
  rw [read_marker_full stale data pos eof (by rw [List.length_drop]; omega)]
  have t1 : bytes "*** EZN DATA ***" = ezn_data := by decide
  have t2 : bytes "*** EZN GLOB ***" = ezn_glob := by decide
  have t3 : bytes "*** EZN HEAD ***" = ezn_head := by decide
  have t4 : bytes "*** EZN END  ***" = ezn_end := by decide
  rw [t1, t2, t3, t4]
  exact ⟨hc.1, hc.2.1, hc.2.2.1, hc.2.2.2.1, hc.2.2.2.2, by decide, by decide⟩

/-- C7 at an input: a stream positioned on a HEAD token followed by a newline. -/
theorem read_marker_exact_match_witness :
    (fopen_r (bytes "*** EZN HEAD ***\n")).pos + 16 ≤ (fopen_r (bytes "*** EZN HEAD ***\n")).data.length ∧
    (read_marker [] (fopen_r (bytes "*** EZN HEAD ***\n"))).1 = marker_type.marker_header := by
  refine ⟨by decide, ?_⟩
  have h := read_marker_exact_match [] (fopen_r (bytes "*** EZN HEAD ***\n")) (by decide)
  exact h.2.2.1.mpr (by decide)

/-- C9: a file of at least 16 bytes (and of a size that fits a `long`) in which
none of the four marker tokens occurs at any offset has no sections:
`sections_list` finishes within as many turns as the file has bytes and returns
a section list, not NULL, with zero sections. -/
theorem sections_list_no_markers (stale data : Bytes) (h16 : 16 ≤ data.length)
    (hlen : data.length < 9223372036854775808)
    (hno : ∀ j, j < data.length →
      (data.drop j).take 16 ≠ bytes "*** EZN DATA ***" ∧
      (data.drop j).take 16 ≠ bytes "*** EZN GLOB ***" ∧
      (data.drop j).take 16 ≠ bytes "*** EZN HEAD ***" ∧
      (data.drop j).take 16 ≠ bytes "*** EZN END  ***")
    (fuel : Nat) (hf : data.length ≤ fuel) :
    sections_list stale fuel data = some [] := by
  have t2 : bytes "*** EZN GLOB ***" = ezn_glob := by decide
  have t3 : bytes "*** EZN HEAD ***" = ezn_head := by decide
  obtain ⟨k, rfl⟩ : ∃ k, fuel = (data.length - 16) + (k + 1) :=
    ⟨fuel - (data.length - 16) - 1, by omega⟩
  unfold sections_list fopen_r
  rw [sections_loop_skip stale data hlen (data.length - 16) 0 (k + 1) [] (by omega)]
  · exact sections_loop_stop stale data k _ _ h16 hlen (by omega)
  · intro j _ hj
    have hl : ((data.drop j).take 16).length = 16 := by
      rw [List.length_take, List.length_drop]; omega
    have hc := classify_cases _ hl
    have hn := hno j (by omega)
    rw [t2, t3] at hn
    exact ⟨fun h => hn.2.1 (hc.2.1.mp h), fun h => hn.2.2.1 (hc.2.2.1.mp h)⟩

/-- C9 at an input: a file of 24 bytes without marker. -/
theorem sections_list_no_markers_witness :
    sections_list [] 24 (bytes "no marker in this file.\n") = some [] :=
  sections_list_no_markers [] (bytes "no marker in this file.\n") (by decide) (by decide)
    (by decide) 24 (by decide)

theorem extract_loop_no_remove (env : Env) : ∀ (ss : List section_s) (f : FILE) (hist : List Call),
    (∀ name, Call.remove name ∉ hist) →
    ∀ name, Call.remove name ∉ (extract_loop env ss f hist).2 := by
  intro ss
  induction ss with
  | nil => intro f hist h; simpa [extract_loop] using h
  | cons s ss ih =>
    intro f hist h
    cases s with
    | global g => simpa [extract_loop] using ih f hist h
    | header hd =>
      unfold extract_loop
      cases hd.type with
      | file_none =>
        exact ih f _ (by intro name; simp; exact h name)
      | file_regular =>
        cases hd.name with
        | none => simpa using h
        | some n =>
          simp only []
          split
          · exact ih _ _ (by intro name; simp; exact h name)
          · exact ih _ _ (by intro name; simp; exact h name)
      | file_directory =>
        cases hd.name with
        | none => simpa using h
        | some n => exact ih f _ (by intro name; simp; exact h name)

theorem run_loop_no_remove (env : Env) : ∀ (ss : List section_s) (r : Int) (hist : List Call),
    (∀ name, Call.remove name ∉ hist) →
    ∀ name, Call.remove name ∉ (run_loop env ss r hist).2 := by
  intro ss
  induction ss with
  | nil => intro r hist h; simpa [run_loop] using h
  | cons s ss ih =>
    intro r hist h
    cases s with
    | header hd => simpa [run_loop] using ih r hist h
    | global g =>
      unfold run_loop
      cases g.exec with
      | none => exact ih 0 hist h
      | some e =>
        simp only []
        split
        · exact ih _ _ (by intro name; simp; exact h name)
        · exact ih 0 hist h

/-- C4: cleanup gating on a failed run.  In `install`, for every section list
(whether or not a Global has the cleanup flag set), when extraction succeeded
and the run stage returns a non-zero result, `install` returns that result,
makes no call after those of the run stage (`cleanup` is not executed), and no
`remove` call occurs among the calls it made. -/
theorem install_failed_run_skips_cleanup (env : Env) (f : FILE) (ss : List section_s)
    (hx : (extract env f ss []).1 = some 0)
    (hr : (run env ss (extract env f ss []).2).1 ≠ 0) :
    install_stages env f ss
        = (some (run env ss (extract env f ss []).2).1, (run env ss (extract env f ss []).2).2) ∧
      ∀ name, Call.remove name ∉ (install_stages env f ss).2 := by
  have h1 : install_stages env f ss
      = (some (run env ss (extract env f ss []).2).1, (run env ss (extract env f ss []).2).2) := by
    unfold install_stages
    simp only [hx]
    simp [hr]
  refine ⟨h1, ?_⟩
  rw [h1]
  exact run_loop_no_remove env ss _ _ (extract_loop_no_remove env ss f [] (by simp))

/-- C4 at an input: a Global with the command `false` and the cleanup flag set,
one regular entry, and an environment in which every command exits with 1. -/
theorem install_failed_run_skips_cleanup_witness :
    install_stages ⟨fun n => n, fun _ _ => true, fun _ _ => 1⟩ (fopen_r (bytes "xyz"))
        [section_s.global ⟨some (bytes "false"), true⟩,
         section_s.header ⟨some (bytes "a"), file_type.file_regular, 420, 3, 0⟩]
      = (some 1, [Call.mkdir_p (bytes "a") 511, Call.fopen_w (bytes "a"),
                  Call.fwrite (bytes "a") (bytes "xyz"), Call.chmod (some (bytes "a")) 420,
                  Call.system (bytes "false")]) := by
  have h := install_failed_run_skips_cleanup ⟨fun n => n, fun _ _ => true, fun _ _ => 1⟩
    (fopen_r (bytes "xyz"))
    [section_s.global ⟨some (bytes "false"), true⟩,
     section_s.header ⟨some (bytes "a"), file_type.file_regular, 420, 3, 0⟩]
    (by decide) (by decide)
  rw [h.1]
  decide

theorem cleanup_flag_eq (ss : List section_s) : ∀ (d : Bool),
    cleanup_flag ss d = (d || ss.any (fun s =>
      match s with
      | section_s.global g => g.cleanup
      | section_s.header _ => false)) := by
  induction ss with
  | nil => intro d; simp [cleanup_flag]
  | cons s ss ih =>
    intro d
    cases s with
    | header h => simp [cleanup_flag, ih]
    | global g =>
      cases hg : g.cleanup <;> cases d <;> simp [cleanup_flag, ih, hg]

theorem cleanup_remove_eq (ss : List section_s) :
    cleanup_remove ss = ss.filterMap (fun s =>
      match s with
      | section_s.header h =>
        if h.type = file_type.file_regular ∨ h.type = file_type.file_directory
        then some (Call.remove h.name) else none
      | section_s.global _ => none) := by
  induction ss with
  | nil => simp [cleanup_remove]
  | cons s ss ih =>
    cases s with
    | global g => simp [cleanup_remove, ih]
    | header h =>
      cases ht : h.type <;> simp [cleanup_remove, ih, ht]

/-- C5: for every section list, `cleanup` returns 0 and, to the calls made so
far, adds nothing when no Global section has the cleanup flag set; when some
Global has it set, it adds exactly one `remove` call for the name of each Header
section of type regular or directory, in section order, and no other call.  The
results of the `remove` calls are not an input of `cleanup`: they cannot change
what it returns. -/
theorem cleanup_removes_named_entries (ss : List section_s) (hist : List Call) :
    cleanup ss hist =
      ((0 : Int), if ss.any (fun s =>
              match s with
              | section_s.global g => g.cleanup
              | section_s.header _ => false)
          then hist ++ ss.filterMap (fun s =>
              match s with
              | section_s.header h =>
                if h.type = file_type.file_regular ∨ h.type = file_type.file_directory
                then some (Call.remove h.name) else none
              | section_s.global _ => none)
          else hist) := by
  unfold cleanup
  rw [cleanup_flag_eq ss false, cleanup_remove_eq ss]
  simp only [Bool.false_or]
  split <;> rfl

theorem negative_length_header_read (stale : Bytes) (fuel : Nat) :
    header_read stale fuel ⟨negative_length_file, 16, false⟩ = none ∨
    header_read stale fuel ⟨negative_length_file, 16, false⟩
      = some (⟨none, file_type.file_none, 0, -44, 45⟩, ⟨negative_length_file, 44, false⟩) := by
  have hd0 : negative_length_file.drop 16
      = [] ++ 10 :: (bytes "length -44" ++ 10 :: (ezn_end ++ [10])) := by decide
  have hd1 : negative_length_file.drop (16 + (([] : Bytes).length + 1))
      = bytes "length -44" ++ 10 :: (ezn_end ++ [10]) := by decide
  have s0 := fun (k : Nat) (nh : header_s) =>
    header_loop_line stale negative_length_file 16 k nh [] _ hd0
      (by decide) (by decide) (by decide) (by decide) (by decide)
  have s1 := fun (k : Nat) (nh : header_s) =>
    header_loop_line stale negative_length_file (16 + (([] : Bytes).length + 1)) k nh
      (bytes "length -44") _ hd1 (by decide) (by decide) (by decide) (by decide) (by decide)
  have e16 : wrap32 ((16 : Nat) : Int) = ((16 : Nat) : Int) := wrap32_nat 16 (by omega)
  rcases Nat.lt_or_ge fuel 3 with h | h
  · left
    unfold header_read
    simp only [ftell, e16]
    have : fuel = 0 ∨ fuel = 1 ∨ fuel = 2 := by omega
    rcases this with rfl | rfl | rfl
    · simp [header_loop]
    · rw [s0 0]; simp [header_loop]
    · rw [s0 1, s1 0]; simp [header_loop]
  · right
    have hl := header_loop_lines stale negative_length_file [10] [[], bytes "length -44"] 16
      ⟨none, file_type.file_none, 0, 0, 0⟩ fuel (by decide) (by decide) (by decide)
      (by simpa using h)
    unfold header_read
    simp only [ftell, e16, hl]
    decide

/-- C6, the failing input: on the 45 byte file with one HEAD block whose length
line reads -44, the cursor of `sections_list` wraps back to offset 0 after the
block, so the scan never finishes: it runs out of every amount of fuel, whatever
the stale bytes of the marker buffer. -/
theorem sections_list_negative_length_diverges (stale : Bytes) (fuel : Nat) :
    sections_list stale fuel negative_length_file = none := by
  have hlen : to_size_t negative_length_file.length = 45 := by decide
  have hb : to_size_t ((45 : Nat) - 16 : Int) = 29 := by decide
  have key : ∀ (k : Nat) (acc : List section_s),
      sections_loop stale k ⟨negative_length_file, 0, false⟩ 45 0 acc = none := by
    intro k
    induction k with
    | zero => intro acc; simp [sections_loop]
    | succ k ih =>
      intro acc
      have hrm := read_marker_full stale negative_length_file 0 false (by decide)
      have hw : classify ((negative_length_file.drop 0).take 16) = marker_type.marker_header := by
        decide
      have hi : to_size_t ((to_size_t (((44 : Nat) : Int) + (-44) - 1) : Int) + 1) = 0 := by
        decide
      unfold sections_loop
      simp only [hb, to_long_nat 0 (by omega), fseek_set_nat, hrm, hw]
      rw [if_pos (by omega)]
      rcases negative_length_header_read stale k with h | h
      · simp only [h]
      · simp only [h, ftell, hi]
        exact ih _
  unfold sections_list fopen_r
  rw [hlen]
  exact key fuel []

theorem read_marker_data (stale : Bytes) (f : FILE) : (read_marker stale f).2.data = f.data := rfl

theorem read_marker_pos (stale : Bytes) (f : FILE) (P : Nat) (hl : f.data.length ≤ P)
    (hp : f.pos ≤ P) : (read_marker stale f).2.pos ≤ P := by
  simp only [read_marker, fread16, List.length_take, List.length_drop]
  omega

theorem read_marker_short_eof (stale : Bytes) (f : FILE) (h : f.data.length < 16) :
    (read_marker stale f).2.eof = true := by
  simp only [read_marker, fread16, List.length_take, List.length_drop]
  have : min 16 (f.data.length - f.pos) < 16 := by omega
  simp [this]

theorem fseek_set_data (f : FILE) (off : Int) : (fseek_set f off).data = f.data := by
  unfold fseek_set; split <;> rfl

theorem fseek_set_pos (f : FILE) (off : Int) (P : Nat) (hp : f.pos ≤ P) (ho : off ≤ P) :
    (fseek_set f off).pos ≤ P := by
  unfold fseek_set; split
  · exact hp
  · simp only; omega

theorem take_line_length (k : Nat) : ∀ (l : Bytes), (take_line k l).length ≤ l.length := by
  induction k with
  | zero => intro l; simp [take_line]
  | succ k ih =>
    intro l
    cases l with
    | nil => simp [take_line]
    | cons c cs =>
      unfold take_line
      split
      · simp
      · simp; exact ih cs

theorem fgets_data (n : Nat) (f : FILE) : (fgets n f).2.data = f.data := by
  unfold fgets; simp only; split <;> rfl

theorem fgets_pos (n : Nat) (f : FILE) (P : Nat) (hl : f.data.length ≤ P) (hp : f.pos ≤ P) :
    (fgets n f).2.pos ≤ P := by
  have h := take_line_length (n - 1) (f.data.drop f.pos)
  rw [List.length_drop] at h
  unfold fgets; simp only; split
  · exact hp
  · simp only; omega

theorem wrap32_le (v : Int) (h : 0 ≤ v) : wrap32 v ≤ v := by
  unfold wrap32; omega

/-- The stream that `global_read` returns is the same file, at a position that
does not exceed the larger of the file size and the position at entry. -/
theorem global_loop_pos (stale : Bytes) (P : Nat) : ∀ (fuel : Nat) (f : FILE) (loc : Int)
    (ng g : global_s) (f3 : FILE), f.data.length ≤ P → f.pos ≤ P → loc ≤ P →
    global_loop stale fuel f loc ng = some (g, f3) → f3.data = f.data ∧ f3.pos ≤ P := by
  intro fuel
  induction fuel with
  | zero => intro f loc ng g f3 _ _ _ h; simp [global_loop] at h
  | succ k ih =>
    intro f loc ng g f3 hl hp hloc h
    unfold global_loop at h
    simp only at h
    split at h
    · simp only [Option.some.injEq, Prod.mk.injEq] at h
      rw [← h.2]
      exact ⟨read_marker_data stale f, read_marker_pos stale f P hl hp⟩
    · have hd : (fgets 4096 (fseek_set (read_marker stale f).2 loc)).2.data = f.data := by
        rw [fgets_data, fseek_set_data, read_marker_data]
      have hq : (fgets 4096 (fseek_set (read_marker stale f).2 loc)).2.pos ≤ P := by
        apply fgets_pos
        · rw [fseek_set_data, read_marker_data]; exact hl
        · exact fseek_set_pos _ _ P (read_marker_pos stale f P hl hp) hloc
      have := ih _ _ _ g f3 (by rw [hd]; exact hl) hq
        (by
          have := wrap32_le ((ftell (fgets 4096 (fseek_set (read_marker stale f).2 loc)).2 : Nat) : Int)
            (by omega)
          simp only [ftell] at this ⊢
          omega) h
      exact ⟨by rw [this.1, hd], this.2⟩

/-- On a file shorter than 16 bytes `header_read` leaves its loop at once (the
read is short, so the end-of-file flag is set): no length is parsed. -/
theorem header_read_short (stale : Bytes) (fuel : Nat) (f : FILE) (P : Nat)
    (h : f.data.length < 16) (hl : f.data.length ≤ P) (hp : f.pos ≤ P) :
    header_read stale fuel f = none ∨
    ∃ hd f3, header_read stale fuel f = some (hd, f3) ∧ hd.length = 0 ∧
      f3.data = f.data ∧ f3.pos ≤ P := by
  cases fuel with
  | zero => left; simp [header_read, header_loop]
  | succ k =>
    right
    have he := read_marker_short_eof stale f h
    have hloop : ∀ (loc : Int) (nh : header_s), header_loop stale (k + 1) f loc nh
        = some (nh, (read_marker stale f).1, (read_marker stale f).2) := by
      intro loc nh
      unfold header_loop
      simp [he]
    unfold header_read
    rw [hloop]
    simp only
    refine ⟨_, _, rfl, ?_, read_marker_data stale f, read_marker_pos stale f P hl hp⟩
    split <;> rfl

theorem sections_loop_short (stale data : Bytes) (h : data.length < 16) :
    ∀ (fuel i : Nat) (f : FILE) (acc : List section_s), f.data = data →
    i + 17 * fuel < 9223372036854775808 →
    sections_loop stale fuel f (to_size_t data.length) i acc = none := by
  intro fuel
  induction fuel with
  | zero => intro i f acc _ _; simp [sections_loop]
  | succ k ih =>
    intro i f acc hf hi
    have hb : to_size_t ((to_size_t (data.length : Int) : Int) - 16)
        = 18446744073709551600 + data.length := by
      unfold to_size_t; omega
    have hfs : fseek_set f (to_long i) = ⟨data, i, false⟩ := by
      rw [to_long_nat i (by omega), fseek_set_nat, hf]
    have hrd : (read_marker stale ⟨data, i, false⟩).2.data = data := rfl
    have hrp : (read_marker stale ⟨data, i, false⟩).2.pos ≤ i + 16 :=
      read_marker_pos stale ⟨data, i, false⟩ (i + 16) (by simp only; omega) (by simp only; omega)
    unfold sections_loop
    simp only [hb, hfs]
    rw [if_pos (by omega)]
    have hn : to_size_t ((i : Int) + 1) = i + 1 := by unfold to_size_t; omega
    cases hm : (read_marker stale ⟨data, i, false⟩).1 with
    | marker_none => simp only [hn]; exact ih _ _ _ hrd (by omega)
    | marker_data => simp only [hn]; exact ih _ _ _ hrd (by omega)
    | marker_end => simp only [hn]; exact ih _ _ _ hrd (by omega)
    | marker_global =>
      simp only
      cases hg : global_read stale k (read_marker stale ⟨data, i, false⟩).2 with
      | none => rfl
      | some r =>
        obtain ⟨g, f3⟩ := r
        have hw := wrap32_le ((ftell (read_marker stale ⟨data, i, false⟩).2 : Nat) : Int)
          (by omega)
        simp only [ftell] at hw
        have := global_loop_pos stale (i + 16) k _ _ _ g f3
          (by rw [hrd]; omega) hrp (by simp only [ftell]; omega) hg
        simp only [ftell]
        have hn3 : to_size_t ((f3.pos : Int) + 1) = f3.pos + 1 := by unfold to_size_t; omega
        rw [hn3]
        exact ih _ _ _ (by rw [this.1, hrd]) (by omega)
    | marker_header =>
      simp only
      rcases header_read_short stale k (read_marker stale ⟨data, i, false⟩).2 (i + 16)
        (by rw [hrd]; exact h) (by rw [hrd]; omega) hrp with hh | ⟨hd, f3, hh, h0, h3d, h3p⟩
      · simp only [hh]
      · simp only [hh, ftell, h0]
        have hn3 : to_size_t ((to_size_t ((f3.pos : Int) + 0 - 1) : Int) + 1) = f3.pos := by
          unfold to_size_t; omega
        rw [hn3]
        exact ih _ _ _ (by rw [fseek_set_data, h3d, hrd]) (by omega)

/-- C10, the failing inputs: for a file shorter than 16 bytes the loop bound
`end - 16` of `sections_list`, computed in `size_t`, wraps to
2 ^ 64 - 16 + end, and the scan then has not returned after 2 ^ 58 turns of the
loop, whatever the stale bytes of the marker buffer: it does not return an empty
section list in any feasible time. -/
theorem sections_list_short_file_wraps (stale data : Bytes) (fuel : Nat)
    (h : data.length < 16) (hf : fuel ≤ 288230376151711744) :
    to_size_t ((to_size_t (data.length : Int) : Int) - 16) = 18446744073709551600 + data.length ∧
    sections_list stale fuel data = none := by
  refine ⟨by unfold to_size_t; omega, ?_⟩
  unfold sections_list
  exact sections_loop_short stale data h fuel 0 _ [] rfl (by omega)

/-- C10 at an input: the empty file and one million turns of the loop. -/
theorem sections_list_short_file_wraps_witness :
    sections_list [] 1000000 [] = none :=
  (sections_list_short_file_wraps [] [] 1000000 (by decide) (by decide)).2

theorem scanned_headers_length (content : Bytes → Bytes) : ∀ (fs : List file_s) (off : Nat),
    (scanned_headers content off fs).length = fs.length := by
  intro fs
  induction fs with
  | nil => intro off; rfl
  | cons r rs ih => intro off; simp [scanned_headers, ih]

theorem scanned_headers_fields (content : Bytes → Bytes) : ∀ (fs : List file_s) (off : Nat),
    ∃ hs : List header_s, scanned_headers content off fs = hs.map section_s.header ∧
      hs.map (fun h => (h.name, h.type, h.mode, h.length))
        = fs.map (fun r => (some r.name, r.type, r.mode, r.length)) := by
  intro fs
  induction fs with
  | nil => intro off; exact ⟨[], rfl, rfl⟩
  | cons r rs ih =>
    intro off
    obtain ⟨hs, h1, h2⟩ := ih (off + (emit_header (header_of_file r)).length
      + (emit_file content (header_of_file r)).length)
    refine ⟨⟨some r.name, r.type, r.mode, r.length,
      ((off + (emit_header (header_of_file r)).length : Nat) : Int)⟩ :: hs, ?_, ?_⟩
    · simp only [scanned_headers, h1, List.map_cons]
    · simp only [List.map_cons, h2]

theorem emit_files_append (content : Bytes → Bytes) : ∀ (a b : List file_s),
    emit_files content (a ++ b) = emit_files content a ++ emit_files content b := by
  intro a
  induction a with
  | nil => intro b; rfl
  | cons r rs ih => intro b; simp [emit_files, ih]

theorem scanned_headers_append (content : Bytes → Bytes) : ∀ (a b : List file_s) (off : Nat),
    scanned_headers content off (a ++ b)
      = scanned_headers content off a
        ++ scanned_headers content (off + (emit_files content a).length) b := by
  intro a
  induction a with
  | nil => intro b off; simp [scanned_headers, emit_files]
  | cons r rs ih =>
    intro b off
    rw [List.cons_append, scanned_headers, scanned_headers, ih, emit_files]
    simp [Nat.add_assoc]

theorem scanned_headers_congr (content content2 : Bytes → Bytes) : ∀ (fs : List file_s) (off : Nat),
    (∀ r ∈ fs, (emit_file content2 (header_of_file r)).length
      = (emit_file content (header_of_file r)).length) →
    scanned_headers content2 off fs = scanned_headers content off fs := by
  intro fs
  induction fs with
  | nil => intro off _; rfl
  | cons r rs ih =>
    intro off h
    simp only [scanned_headers, h r (List.mem_cons_self _ _)]
    rw [ih _ (fun x hx => h x (List.mem_cons_of_mem _ hx))]

theorem emit_files_length_congr (content content2 : Bytes → Bytes) : ∀ (fs : List file_s),
    (∀ r ∈ fs, (emit_file content2 (header_of_file r)).length
      = (emit_file content (header_of_file r)).length) →
    (emit_files content2 fs).length = (emit_files content fs).length := by
  intro fs
  induction fs with
  | nil => intro _; rfl
  | cons r rs ih =>
    intro h
    simp only [emit_files, List.length_append, h r (List.mem_cons_self _ _),
      ih (fun x hx => h x (List.mem_cons_of_mem _ hx))]

/-- C1, the claim as stated fails: a Global whose exec string holds a line feed
is not read back; the scan of the archive built from exec `a\nb` returns the
exec string `a`. -/
theorem roundtrip_counterexample :
    sections_list [] 64
        (create_installer (bytes "host") ⟨some (bytes "a\nb"), false⟩ [] (fun _ => []))
      = some [section_s.global ⟨some (bytes "a"), false⟩] ∧
    (⟨some (bytes "a"), false⟩ : global_s) ≠ ⟨some (bytes "a\nb"), false⟩ := by
  decide

/-- C1, amended: round trip of build and scan.  For a host in which no marker
token begins, a Global whose exec string (when present) is a clean text, file
records with clean names, `mode_t` modes and lengths equal to the number of
payload bytes written, and an archive shorter than 2 ^ 31 bytes, the scan of the
archive that `create_installer` writes finishes (within as many turns as the
archive has bytes) and returns the Global, equal to the one given, followed by
one Header per file record, equal field for field (name, type, mode, length). -/
theorem roundtrip_build_scan (stale host : Bytes) (global : global_s) (fs : List file_s)
    (content : Bytes → Bytes) (hok : build_ok host global fs content) (fuel : Nat)
    (hf : (create_installer host global fs content).length ≤ fuel) :
    ∃ hs : List header_s,
      sections_list stale fuel (create_installer host global fs content)
        = some (section_s.global global :: hs.map section_s.header) ∧
      hs.map (fun h => (h.name, h.type, h.mode, h.length))
        = fs.map (fun r => (some r.name, r.type, r.mode, r.length)) := by
  obtain ⟨hs, h1, h2⟩ := scanned_headers_fields content fs
    (host ++ emit_data ++ emit_global global).length
  exact ⟨hs, by rw [scan_created stale host global fs content hok fuel hf, h1], h2⟩

/-- C1 at an input: the archive of Scenario A. -/
theorem roundtrip_build_scan_witness :
    build_ok scenario_host scenario_global scenario_files scenario_content ∧
    ∃ hs : List header_s,
      sections_list [] 340
          (create_installer scenario_host scenario_global scenario_files scenario_content)
        = some (section_s.global scenario_global :: hs.map section_s.header) ∧
      hs.map (fun h => (h.name, h.type, h.mode, h.length))
        = scenario_files.map (fun r => (some r.name, r.type, r.mode, r.length)) :=
  ⟨by decide, roundtrip_build_scan [] scenario_host scenario_global scenario_files
    scenario_content (by decide) 340 (by decide)⟩

/-- C2, the claim as stated fails: for a file record whose name holds a line
feed followed by the text of an END marker, `header_read` stops at that text;
the Header returned has `_file_pos` 96, whereas the payload `abc` of the entry
begins at offset 144 of the archive of 147 bytes. -/
theorem file_pos_counterexample :
    sections_list [] 147
        (create_installer (bytes "host") ⟨none, false⟩
          [⟨file_type.file_regular, bytes "x\n*** EZN END  ***", 420, 3⟩] (fun _ => bytes "abc"))
      = some [section_s.global ⟨none, false⟩,
              section_s.header ⟨some (bytes "x"), file_type.file_none, 0, 0, 96⟩] ∧
    (create_installer (bytes "host") ⟨none, false⟩
          [⟨file_type.file_regular, bytes "x\n*** EZN END  ***", 420, 3⟩]
          (fun _ => bytes "abc")).drop 144 = bytes "abc" := by
  decide

/-- C2, amended: payload location.  For inputs that the archive can carry
(`build_ok`), the Header that `sections_list` returns for a file record `r`
(the section after the Global and the Headers of the records before `r`) has
`_file_pos` equal to the offset right after the END marker line of the block of
`r`, and the `length` bytes of the archive from `_file_pos` on are exactly the
bytes that `emit_file` wrote for `r`. -/
theorem file_pos_is_payload_offset (stale host : Bytes) (global : global_s) (fs : List file_s)
    (content : Bytes → Bytes) (hok : build_ok host global fs content) (fuel : Nat)
    (hf : (create_installer host global fs content).length ≤ fuel)
    (before after : List file_s) (r : file_s) (hfs : fs = before ++ r :: after) :
    ∃ (ss : List section_s) (h : header_s),
      sections_list stale fuel (create_installer host global fs content) = some ss ∧
      ss[before.length + 1]? = some (section_s.header h) ∧ h.name = some r.name ∧
      h._file_pos = ((host ++ emit_data ++ emit_global global ++ emit_files content before
                        ++ emit_header (header_of_file r)).length : Int) ∧
      ((create_installer host global fs content).drop h._file_pos.toNat).take h.length.toNat
        = emit_file content (header_of_file r) := by
  have hr : record_ok content r := hok.2.2.1 r (by rw [hfs]; simp)
  refine ⟨_, ⟨some r.name, r.type, r.mode, r.length,
    ((host ++ emit_data ++ emit_global global ++ emit_files content before
      ++ emit_header (header_of_file r)).length : Int)⟩,
    scan_created stale host global fs content hok fuel hf, ?_, rfl, rfl, ?_⟩
  · rw [hfs, scanned_headers_append, List.getElem?_cons_succ,
      List.getElem?_append_right (by rw [scanned_headers_length]),
      scanned_headers_length, Nat.sub_self, scanned_headers]
    simp [Nat.add_assoc]
  · have hA : create_installer host global fs content
        = (host ++ emit_data ++ emit_global global ++ emit_files content before
            ++ emit_header (header_of_file r))
          ++ (emit_file content (header_of_file r) ++ emit_files content after) := by
      rw [hfs]; simp [create_installer, emit_files_append, emit_files]
    simp only [Int.toNat_ofNat, hr.2.2]
    rw [hA, List.drop_left, List.take_left]

/-- C2 at an input: the entry `sub/b.txt` of Scenario A, after two others. -/
theorem file_pos_is_payload_offset_witness :
    ∃ (ss : List section_s) (h : header_s),
      sections_list [] 340
        (create_installer scenario_host scenario_global scenario_files scenario_content)
          = some ss ∧
      ss[3]? = some (section_s.header h) ∧ h.name = some (bytes "sub/b.txt") ∧
      h._file_pos = 335 ∧
      ((create_installer scenario_host scenario_global scenario_files scenario_content).drop
          h._file_pos.toNat).take h.length.toNat = bytes "12345" := by
  obtain ⟨ss, h, h1, h2, h3, h4, h5⟩ :=
    file_pos_is_payload_offset [] scenario_host scenario_global scenario_files scenario_content
      (by decide) 340 (by decide)
      [⟨file_type.file_regular, bytes "a.txt", 420, 12⟩,
       ⟨file_type.file_directory, bytes "sub", 493, 0⟩]
      [] ⟨file_type.file_regular, bytes "sub/b.txt", 420, 5⟩ (by decide)
  exact ⟨ss, h, h1, h2, h3, by rw [h4]; decide, by rw [h5]; decide⟩

/-- C3, the claim as stated fails: when the length recorded for a regular file
is not the number of payload bytes written (here 0, for a file that holds 44
bytes when `emit_file` copies it), the payload is scanned; a HEAD block inside
it gives a third section, which a payload of 44 zero bytes does not. -/
theorem payload_scan_counterexample :
    sections_list [] 171
        (create_installer (bytes "host") ⟨none, false⟩
          [⟨file_type.file_regular, bytes "f", 420, 0⟩]
          (fun _ => bytes "*** EZN HEAD ***\nname evil\n*** EZN END  ***\n"))
      = some [section_s.global ⟨none, false⟩,
              section_s.header ⟨some (bytes "f"), file_type.file_regular, 420, 0, 127⟩,
              section_s.header ⟨some (bytes "evil"), file_type.file_none, 0, 0, 171⟩] ∧
    sections_list [] 171
        (create_installer (bytes "host") ⟨none, false⟩
          [⟨file_type.file_regular, bytes "f", 420, 0⟩] (fun _ => List.replicate 44 0))
      = some [section_s.global ⟨none, false⟩,
              section_s.header ⟨some (bytes "f"), file_type.file_regular, 420, 0, 127⟩] := by
  decide

/-- C3, amended: payload bytes are not scanned as markers.  For inputs that the
archive can carry (`build_ok`, in particular every recorded length is the number
of payload bytes written), the section list does not depend on the payload
bytes: with any other payloads of the same lengths, marker text included, the
scan returns the same list, of one Global and one Header per file record. -/
theorem payload_bytes_not_scanned (stale host : Bytes) (global : global_s) (fs : List file_s)
    (content content2 : Bytes → Bytes) (hok : build_ok host global fs content)
    (hsame : ∀ r ∈ fs, (emit_file content2 (header_of_file r)).length
      = (emit_file content (header_of_file r)).length)
    (fuel : Nat) (hf : (create_installer host global fs content).length ≤ fuel) :
    sections_list stale fuel (create_installer host global fs content2)
        = sections_list stale fuel (create_installer host global fs content) ∧
      ∃ ss, sections_list stale fuel (create_installer host global fs content2) = some ss ∧
        ss.length = 1 + fs.length := by
  have hlen : (create_installer host global fs content2).length
      = (create_installer host global fs content).length := by
    simp [create_installer, emit_files_length_congr content content2 fs hsame]
  have hok2 : build_ok host global fs content2 := by
    refine ⟨hok.1, hok.2.1, ?_, by rw [hlen]; exact hok.2.2.2⟩
    intro r hr
    have h := hok.2.2.1 r hr
    exact ⟨h.1, h.2.1, by rw [hsame r hr]; exact h.2.2⟩
  have h1 := scan_created stale host global fs content hok fuel hf
  have h2 := scan_created stale host global fs content2 hok2 fuel (by rw [hlen]; exact hf)
  rw [scanned_headers_congr content content2 fs _ hsame] at h2
  refine ⟨by rw [h1, h2], _, h2, ?_⟩
  simp [scanned_headers_length]; omega

/-- C3 at an input: a regular file of 44 bytes whose payload is the text of a
complete HEAD block, against a payload of 44 zero bytes. -/
theorem payload_bytes_not_scanned_witness :
    sections_list [] 240
        (create_installer scenario_host scenario_global marker_payload_files
          marker_payload_content)
      = sections_list [] 240
        (create_installer scenario_host scenario_global marker_payload_files
          plain_payload_content) ∧
    ∃ ss, sections_list [] 240
        (create_installer scenario_host scenario_global marker_payload_files
          marker_payload_content) = some ss ∧ ss.length = 2 :=
  payload_bytes_not_scanned [] scenario_host scenario_global marker_payload_files
    plain_payload_content marker_payload_content (by decide) (by decide) 240 (by decide)

/-- C8, the claim as stated fails: when the host is itself an installer (build
mode run from an installer copies the whole file), the scan of the archive
built from a Global and no file record returns two sections, not one. -/
theorem section_count_counterexample :
    sections_list [] 114
        (create_installer
          (create_installer (bytes "ELF") ⟨some (bytes "old"), false⟩ [] (fun _ => []))
          ⟨none, false⟩ [] (fun _ => []))
      = some [section_s.global ⟨some (bytes "old"), false⟩, section_s.global ⟨none, false⟩] := by
  decide

/-- C8, amended: section order equals append order.  For inputs that the archive
can carry (`build_ok`, in particular a host in which no marker token begins),
the scan of the archive written from a Global and N file records returns exactly
1 + N sections: the Global first, and at position k + 1 the Header of the k-th
file record (same name, type, mode and length). -/
theorem section_order_is_append_order (stale host : Bytes) (global : global_s)
    (fs : List file_s) (content : Bytes → Bytes) (hok : build_ok host global fs content)
    (fuel : Nat) (hf : (create_installer host global fs content).length ≤ fuel) :
    ∃ ss : List section_s,
      sections_list stale fuel (create_installer host global fs content) = some ss ∧
      ss.length = 1 + fs.length ∧ ss[0]? = some (section_s.global global) ∧
      ∀ (k : Nat) (r : file_s), fs[k]? = some r →
        ∃ h : header_s, ss[k + 1]? = some (section_s.header h) ∧ h.name = some r.name ∧
          h.type = r.type ∧ h.mode = r.mode ∧ h.length = r.length := by
  obtain ⟨hs, h1, h2⟩ := scanned_headers_fields content fs
    (host ++ emit_data ++ emit_global global).length
  refine ⟨_, scan_created stale host global fs content hok fuel hf, ?_, by simp, ?_⟩
  · simp [scanned_headers_length]; omega
  · intro k r hk
    rw [List.getElem?_cons_succ, h1, List.getElem?_map]
    have h3 : (hs.map (fun h => (h.name, h.type, h.mode, h.length)))[k]?
        = some (some r.name, r.type, r.mode, r.length) := by
      rw [h2, List.getElem?_map, hk]; rfl
    rw [List.getElem?_map] at h3
    cases hh : hs[k]? with
    | none => rw [hh] at h3; simp at h3
    | some h =>
      rw [hh] at h3
      simp only [Option.map_some', Option.some.injEq, Prod.mk.injEq] at h3
      exact ⟨h, rfl, h3.1, h3.2.1, h3.2.2.1, h3.2.2.2⟩

/-- C8 at an input: the archive of Scenario A has four sections. -/
theorem section_order_is_append_order_witness :
    ∃ ss : List section_s,
      sections_list [] 340
        (create_installer scenario_host scenario_global scenario_files scenario_content)
          = some ss ∧
      ss.length = 4 ∧ ss[0]? = some (section_s.global scenario_global) := by
  obtain ⟨ss, h1, h2, h3, _⟩ :=
    section_order_is_append_order [] scenario_host scenario_global scenario_files
      scenario_content (by decide) 340 (by decide)
  exact ⟨ss, h1, h2, h3⟩

theorem run_loop_skip_headers (env : Env) : ∀ (ss : List section_s) (r : Int) (hist : List Call),
    globals_of ss = [] → run_loop env ss r hist = (r, hist) := by
  intro ss
  induction ss with
  | nil => intro r hist _; rfl
  | cons s ss ih =>
    intro r hist h
    cases s with
    | global g => simp [globals_of] at h
    | header hd => simpa [run_loop] using ih r hist (by simpa [globals_of] using h)

/-- C11: run stage result.  For every section list with exactly one Global
section, `run` calls `system` exactly once, on the exec string of that Global,
and returns what `system` returned, when the exec string is present and not
empty; when it is absent or empty, `run` makes no call and returns 0. -/
theorem run_single_global (env : Env) (ss : List section_s) (hist : List Call) (g : global_s)
    (h1 : globals_of ss = [g]) :
    (∀ e, g.exec = some e → e ≠ [] →
        run env ss hist = (env.system hist e, hist ++ [Call.system e])) ∧
    ((g.exec = none ∨ g.exec = some []) → run env ss hist = (0, hist)) := by
  have key : ∀ (ss : List section_s) (r : Int), globals_of ss = [g] →
      run_loop env ss r hist
        = (match g.exec with
           | some e => if e.length ≠ 0 then (env.system hist e, hist ++ [Call.system e])
                       else (0, hist)
           | none => (0, hist)) := by
    intro ss
    induction ss with
    | nil => intro r h; simp [globals_of] at h
    | cons s ss ih =>
      intro r h
      cases s with
      | header hd => simpa [run_loop] using ih r (by simpa [globals_of] using h)
      | global g2 =>
        simp only [globals_of, List.cons.injEq] at h
        obtain ⟨rfl, h2⟩ := h
        unfold run_loop
        cases he : g2.exec with
        | none => simp only []; exact run_loop_skip_headers env ss 0 hist h2
        | some e =>
          simp only []
          split
          · exact run_loop_skip_headers env ss _ _ h2
          · exact run_loop_skip_headers env ss 0 hist h2
  constructor
  · intro e he hne
    unfold run
    rw [key ss (-1) h1, he]
    have : e.length ≠ 0 := by simpa using hne
    simp [this]
  · intro h
    unfold run
    rw [key ss (-1) h1]
    rcases h with h | h
    · rw [h]
    · rw [h]; simp

/-- C11 at an input: the section list of Scenario A with an environment in which
`system` returns 7. -/
theorem run_single_global_witness :
    run (plain_env 7)
        [section_s.header ⟨some (bytes "a.txt"), file_type.file_regular, 420, 12, 166⟩,
         section_s.global scenario_global] []
      = (7, [Call.system (bytes "echo hi")]) :=
  (run_single_global (plain_env 7)
    [section_s.header ⟨some (bytes "a.txt"), file_type.file_regular, 420, 12, 166⟩,
     section_s.global scenario_global] [] scenario_global (by decide)).1
    (bytes "echo hi") (by decide) (by decide)

/-- The status of `extract`: the process dies when a Header of type regular or
directory has no name; otherwise `extract` returns 0.  It has no other
result. -/
theorem extract_loop_status_eq (env : Env) : ∀ (ss : List section_s) (f : FILE)
    (hist : List Call),
    (extract_loop env ss f hist).1 = if nameless ss then none else some 0 := by
  intro ss
  induction ss with
  | nil => intro f hist; rfl
  | cons s ss ih =>
    intro f hist
    cases s with
    | global g => simpa [extract_loop, nameless, headers_of] using ih f hist
    | header h =>
      have hrest : ∀ f hist, (extract_loop env ss f hist).1
          = if (headers_of ss).any
              (fun h => decide (h.type ≠ file_type.file_none) && h.name.isNone)
            then none else some 0 := ih
      unfold extract_loop
      cases ht : h.type with
      | file_none =>
        simp only [nameless, headers_of, List.any_cons, ht]
        simpa using hrest f _
      | file_regular =>
        cases hm : h.name with
        | none => simp [nameless, headers_of, ht, hm]
        | some n =>
          simp only [nameless, headers_of, List.any_cons, ht, hm]
          split
          · simpa using hrest _ _
          · simpa using hrest _ _
      | file_directory =>
        cases hm : h.name with
        | none => simp [nameless, headers_of, ht, hm]
        | some n =>
          simp only [nameless, headers_of, List.any_cons, ht, hm]
          simpa using hrest f _

/-- Every Header that the scan of a built archive returns has a name. -/
theorem scanned_headers_named (content : Bytes → Bytes) (g : global_s) (fs : List file_s)
    (off : Nat) : nameless (section_s.global g :: scanned_headers content off fs) = false := by
  obtain ⟨hs, h1, h2⟩ := scanned_headers_fields content fs off
  have hh : ∀ (l : List header_s), headers_of (l.map section_s.header) = l := by
    intro l
    induction l with
    | nil => rfl
    | cons x l ih => simp [headers_of, ih]
  have hnm : ∀ h ∈ hs, h.name.isNone = false := by
    intro h hmem
    have : (h.name, h.type, h.mode, h.length)
        ∈ hs.map (fun h => (h.name, h.type, h.mode, h.length)) :=
      List.mem_map_of_mem _ hmem
    rw [h2] at this
    obtain ⟨r, _, hr⟩ := List.mem_map.mp this
    have : some r.name = h.name := congrArg Prod.fst hr
    rw [← this]; rfl
  unfold nameless
  rw [headers_of, h1, hh]
  rw [List.any_eq_false]
  intro h hmem
  simp [hnm h hmem]

/-- C12, the claim as stated fails: `install` does not return a status for
every archive that can be opened.  The file `nameless_header_file` is scanned
into one regular Header without a name; `extract` passes the NULL name to
`strdup` and the process dies there, before any call is made.  On
`negative_length_file` the scan itself does not finish within 64 turns. -/
theorem install_nameless_header_counterexample :
    sections_list [] 64 nameless_header_file
      = some [section_s.header ⟨none, file_type.file_regular, 0, 0, 47⟩] ∧
    install (plain_env 0) [] 64 nameless_header_file = some (none, []) ∧
    install (plain_env 0) [] 64 negative_length_file = none := by
  decide

/-- C12, amended: `install` surfaces the first failing stage.  For every
environment and every archive, `install` returns exactly when the scan returns a
section list `ss`, and then:
when a Header of type regular or directory of `ss` has no name, the process dies
in `extract` and `install` returns no status;
otherwise `extract` returns 0 (it has no non-zero result), and `install` returns
the result of `run` when that is not 0, after the calls of `extract` and `run`
and without those of `cleanup`; when `run` returns 0, `install` returns 0 after
the calls of `cleanup`, whose result is not used.
For an archive that `create_installer` wrote from inputs that the archive can
carry, with fuel of at least the length of the archive, the scan returns and all
Headers have names: `install` returns a status. -/
theorem install_first_failing_stage (env : Env) (stale : Bytes) (fuel : Nat) (data : Bytes) :
    install env stale fuel data
      = (sections_list stale fuel data).map (fun ss =>
          if nameless ss then (none, (extract env (fopen_r data) ss []).2)
          else if (run env ss (extract env (fopen_r data) ss []).2).1 ≠ 0 then
            (some (run env ss (extract env (fopen_r data) ss []).2).1,
              (run env ss (extract env (fopen_r data) ss []).2).2)
          else
            (some 0, (run env ss (extract env (fopen_r data) ss []).2).2
              ++ (if cleanup_flag ss false then cleanup_remove ss else []))) ∧
    (∀ (f : FILE) (ss : List section_s) (hist : List Call),
      (extract env f ss hist).1 = if nameless ss then none else some 0) ∧
    (∀ (host : Bytes) (g : global_s) (fs : List file_s) (content : Bytes → Bytes),
      build_ok host g fs content → data = create_installer host g fs content →
      data.length ≤ fuel →
      ∃ (st : Int) (calls : List Call), install env stale fuel data = some (some st, calls) ∧
        (st = (run env (section_s.global g
              :: scanned_headers content (host ++ emit_data ++ emit_global g).length fs)
            (extract env (fopen_r data) (section_s.global g
              :: scanned_headers content (host ++ emit_data ++ emit_global g).length fs)
              []).2).1)) := by
  have hmain : ∀ ss, install_stages env (fopen_r data) ss
      = (if nameless ss then (none, (extract env (fopen_r data) ss []).2)
          else if (run env ss (extract env (fopen_r data) ss []).2).1 ≠ 0 then
            (some (run env ss (extract env (fopen_r data) ss []).2).1,
              (run env ss (extract env (fopen_r data) ss []).2).2)
          else
            (some 0, (run env ss (extract env (fopen_r data) ss []).2).2
              ++ (if cleanup_flag ss false then cleanup_remove ss else []))) := by
    intro ss
    have hx := extract_loop_status_eq env ss (fopen_r data) []
    unfold install_stages
    simp only [extract]
    rw [hx]
    by_cases hn : nameless ss = true
    · simp [hn]
    · simp only [hn, Bool.false_eq_true, if_false, ne_eq, not_true_eq_false]
      by_cases hr : (run env ss (extract_loop env ss (fopen_r data) []).2).1 = 0
      · simp only [hr, not_true_eq_false, if_false]
        unfold cleanup
        split <;> simp
      · simp [hr]
  refine ⟨?_, fun f ss hist => extract_loop_status_eq env ss f hist, ?_⟩
  · unfold install
    cases hs : sections_list stale fuel data with
    | none => rfl
    | some ss => simp only [Option.map_some', hmain ss]
  · intro host g fs content hok hd hf
    subst hd
    have hs := scan_created stale host g fs content hok fuel hf
    have hn := scanned_headers_named content g fs (host ++ emit_data ++ emit_global g).length
    unfold install
    rw [hs]
    simp only [hmain, hn, Bool.false_eq_true, if_false]
    split
    · exact ⟨_, _, rfl, rfl⟩
    · rename_i hr
      have hr0 := not_not.mp hr
      exact ⟨_, _, rfl, hr0.symm⟩

/-- C12 at an input: the installer of Scenario A when the command fails with
status 3: the files are extracted, `install` returns 3, nothing is removed. -/
theorem install_first_failing_stage_witness :
    build_ok scenario_host scenario_global scenario_files scenario_content ∧
    install (plain_env 3) [] 340
        (create_installer scenario_host scenario_global scenario_files scenario_content)
      = some (some 3,
          [Call.mkdir_p (bytes ".") 511, Call.fopen_w (bytes "a.txt"),
           Call.fwrite (bytes "a.txt") (bytes "hello world\n"),
           Call.chmod (some (bytes "a.txt")) 420,
           Call.mkdir_p (bytes "sub") 511, Call.chmod (some (bytes "sub")) 493,
           Call.mkdir_p (bytes "sub") 511, Call.fopen_w (bytes "sub/b.txt"),
           Call.fwrite (bytes "sub/b.txt") (bytes "12345"),
           Call.chmod (some (bytes "sub/b.txt")) 420,
           Call.system (bytes "echo hi")]) := by
  have h := install_first_failing_stage (plain_env 3) [] 340
    (create_installer scenario_host scenario_global scenario_files scenario_content)
  obtain ⟨st, calls, h3, _⟩ := h.2.2 scenario_host scenario_global scenario_files
    scenario_content (by decide) rfl (by decide)
  refine ⟨by decide, ?_⟩
  rw [h.1]
  decide

/-- C13, the claim as stated fails: on the empty section list that the scan of a
file without markers returns, `extract` returns 0, not a failure. -/
theorem extract_nothing_counterexample :
    sections_list [] 24 (bytes "no marker in this file.\n") = some [] ∧
    extract (plain_env 0) (fopen_r (bytes "no marker in this file.\n")) [] [] = (some 0, []) := by
  decide

/-- C13, amended: for every open archive and every section list that contains no
Header section, `extract` makes no call and returns 0 (success): it has nothing
to extract and does not report that as a failure. -/
theorem extract_without_headers (env : Env) (f : FILE) (ss : List section_s)
    (hist : List Call) (h : headers_of ss = []) :
    extract env f ss hist = (some 0, hist) := by
  unfold extract
  induction ss with
  | nil => rfl
  | cons s ss ih =>
    cases s with
    | header hd => simp [headers_of] at h
    | global g => simpa [extract_loop] using ih (by simpa [headers_of] using h)

/-- C13 at an input: a section list that holds a Global only. -/
theorem extract_without_headers_witness :
    extract (plain_env 0) (fopen_r []) [section_s.global scenario_global] [] = (some 0, []) :=
  extract_without_headers (plain_env 0) (fopen_r []) [section_s.global scenario_global] []
    (by decide)

/-- C19: Global block format.  For every Global, `emit_global` writes the GLOB
marker line, then the line `exec <command>` exactly when the exec string is
present, then the line `cleanup` exactly when the flag is set, then the END
marker line; with no exec string and no flag the block is the two marker
lines. -/
theorem emit_global_format (g : global_s) :
    emit_global g
      = bytes "*** EZN GLOB ***\n"
        ++ (match g.exec with
            | some e => bytes "exec " ++ e ++ bytes "\n"
            | none => [])
        ++ (if g.cleanup then bytes "cleanup\n" else [])
        ++ bytes "*** EZN END  ***\n" ∧
    emit_global ⟨none, false⟩ = bytes "*** EZN GLOB ***\n*** EZN END  ***\n" := by
  constructor
  · have h1 : bytes ("***" ++ " " ++ "EZN" ++ " " ++ "GLOB" ++ " " ++ "***" ++ "\n")
        = bytes "*** EZN GLOB ***\n" := by decide
    have h2 : bytes ("***" ++ " " ++ "EZN" ++ " " ++ "END " ++ " " ++ "***" ++ "\n")
        = bytes "*** EZN END  ***\n" := by decide
    simp only [emit_global, h1, h2]
  · decide

/-- The loop of `extract` over a list in two parts: the second part starts from
the state that the first part left. -/
theorem extract_loop_append (env : Env) : ∀ (pre post : List section_s) (f : FILE)
    (hist : List Call),
    extract_loop env (pre ++ post) f hist
      = (match extract_state env pre f hist with
         | (none, h1) => (none, h1)
         | (some f1, h1) => extract_loop env post f1 h1) := by
  intro pre
  induction pre with
  | nil => intro post f hist; rfl
  | cons s pre ih =>
    intro post f hist
    cases s with
    | global g => simpa [extract_loop, extract_state] using ih post f hist
    | header h =>
      simp only [List.cons_append]
      cases ht : h.type with
      | file_none =>
        simp only [extract_loop, extract_state, ht]
        exact ih post f _
      | file_regular =>
        cases hm : h.name with
        | none => simp only [extract_loop, extract_state, ht, hm]
        | some n =>
          simp only [extract_loop, extract_state, ht, hm]
          split
          · exact ih post _ _
          · exact ih post _ _
      | file_directory =>
        cases hm : h.name with
        | none => simp only [extract_loop, extract_state, ht, hm]
        | some n =>
          simp only [extract_loop, extract_state, ht, hm]
          exact ih post f _

/-- The loop of `extract` returns 0 when every Header of type regular or
directory has a name. -/
theorem extract_loop_named (env : Env) : ∀ (ss : List section_s) (f : FILE) (hist : List Call),
    (∀ h ∈ headers_of ss, h.type ≠ file_type.file_none → h.name ≠ none) →
    (extract_loop env ss f hist).1 = some 0 := by
  intro ss
  induction ss with
  | nil => intro f hist _; rfl
  | cons s ss ih =>
    intro f hist hn
    cases s with
    | global g => simpa [extract_loop] using ih f hist (by simpa [headers_of] using hn)
    | header h =>
      have hh := hn h (by simp [headers_of])
      have hrest : ∀ x ∈ headers_of ss, x.type ≠ file_type.file_none → x.name ≠ none :=
        fun x hx => hn x (by simp [headers_of, hx])
      unfold extract_loop
      cases ht : h.type with
      | file_none => exact ih f _ hrest
      | file_regular =>
        cases hm : h.name with
        | none => exact absurd hm (hh (by rw [ht]; decide))
        | some n =>
          simp only []
          split
          · exact ih _ _ hrest
          · exact ih _ _ hrest
      | file_directory =>
        cases hm : h.name with
        | none => exact absurd hm (hh (by rw [ht]; decide))
        | some n => exact ih f _ hrest

/-- The calls that the loop of `extract` makes for a list of sections do not
depend on the calls made before nor on the position of the archive stream, when
every regular Header has a non-negative payload offset and the `fopen` calls of
the two runs get the same answers. -/
theorem extract_loop_same_answers (env env2 : Env) (hdir : env2.dirname = env.dirname) :
    ∀ (ss : List section_s) (f f2 : FILE) (h1 h2 : List Call), f2.data = f.data →
    (∀ h ∈ headers_of ss, h.type = file_type.file_regular → 0 ≤ h._file_pos) →
    fopen_answers env2 ss f2 h2 = fopen_answers env ss f h1 →
    ∃ (st : Option Int) (calls : List Call),
      extract_loop env ss f h1 = (st, h1 ++ calls) ∧
      extract_loop env2 ss f2 h2 = (st, h2 ++ calls) := by
  intro ss
  induction ss with
  | nil =>
    intro f f2 h1 h2 _ _ _
    exact ⟨some 0, [], by simp [extract_loop], by simp [extract_loop]⟩
  | cons s ss ih =>
    intro f f2 h1 h2 hd hok hans
    cases s with
    | global g =>
      simpa [extract_loop] using ih f f2 h1 h2 hd (by simpa [headers_of] using hok)
        (by simpa [fopen_answers] using hans)
    | header h =>
      have hh := hok h (by simp [headers_of])
      have hrest : ∀ x ∈ headers_of ss, x.type = file_type.file_regular → 0 ≤ x._file_pos :=
        fun x hx => hok x (by simp [headers_of, hx])
      unfold extract_loop
      unfold fopen_answers at hans
      cases ht : h.type with
      | file_none =>
        simp only [ht] at hans
        obtain ⟨st, calls, e1, e2⟩ := ih f f2 (h1 ++ [Call.chmod h.name h.mode])
          (h2 ++ [Call.chmod h.name h.mode]) hd hrest hans
        exact ⟨st, Call.chmod h.name h.mode :: calls,
          by simpa [List.append_assoc] using e1, by simpa [List.append_assoc] using e2⟩
      | file_directory =>
        cases hm : h.name with
        | none => exact ⟨none, [], by simp, by simp⟩
        | some n =>
          simp only [ht, hm] at hans
          obtain ⟨st, calls, e1, e2⟩ := ih f f2
            (h1 ++ [Call.mkdir_p n 511, Call.chmod (some n) h.mode])
            (h2 ++ [Call.mkdir_p n 511, Call.chmod (some n) h.mode]) hd hrest hans
          exact ⟨st, Call.mkdir_p n 511 :: Call.chmod (some n) h.mode :: calls,
            by simpa [List.append_assoc] using e1, by simpa [List.append_assoc] using e2⟩
      | file_regular =>
        cases hm : h.name with
        | none => exact ⟨none, [], by simp, by simp⟩
        | some n =>
          have hp := hh ht
          simp only [ht, hm, hdir] at hans
          have hseek : fseek_set f2 h._file_pos = fseek_set f h._file_pos := by
            unfold fseek_set
            rw [if_neg (by omega), if_neg (by omega), hd]
          simp only [hdir]
          by_cases hb : env.fopen_ok (h1 ++ [Call.mkdir_p (env.dirname n) 511]) n = true
          · by_cases hb2 : env2.fopen_ok (h2 ++ [Call.mkdir_p (env.dirname n) 511]) n = true
            · simp only [hb, hb2, if_true, hseek, List.cons.injEq, true_and] at hans ⊢
              obtain ⟨st, calls, e1, e2⟩ := ih
                (copy_payload (fseek_set f h._file_pos) h.length).2
                (copy_payload (fseek_set f h._file_pos) h.length).2
                (h1 ++ [Call.mkdir_p (env.dirname n) 511]
                  ++ [Call.fopen_w n,
                      Call.fwrite n (copy_payload (fseek_set f h._file_pos) h.length).1,
                      Call.chmod (some n) h.mode])
                (h2 ++ [Call.mkdir_p (env.dirname n) 511]
                  ++ [Call.fopen_w n,
                      Call.fwrite n (copy_payload (fseek_set f h._file_pos) h.length).1,
                      Call.chmod (some n) h.mode]) rfl hrest hans
              exact ⟨st, Call.mkdir_p (env.dirname n) 511 :: Call.fopen_w n
                :: Call.fwrite n (copy_payload (fseek_set f h._file_pos) h.length).1
                :: Call.chmod (some n) h.mode :: calls,
                by simpa [List.append_assoc] using e1, by simpa [List.append_assoc] using e2⟩
            · simp [hb, hb2] at hans
          · by_cases hb2 : env2.fopen_ok (h2 ++ [Call.mkdir_p (env.dirname n) 511]) n = true
            · simp [hb, hb2] at hans
            · have hbf : env.fopen_ok (h1 ++ [Call.mkdir_p (env.dirname n) 511]) n = false := by
                simpa using hb
              have hbf2 : env2.fopen_ok (h2 ++ [Call.mkdir_p (env.dirname n) 511]) n = false := by
                simpa using hb2
              simp only [hbf, hbf2, Bool.false_eq_true, if_false, List.cons.injEq,
                true_and] at hans ⊢
              obtain ⟨st, calls, e1, e2⟩ := ih f f2
                (h1 ++ [Call.mkdir_p (env.dirname n) 511]
                  ++ [Call.fopen_w n, Call.chmod (some n) h.mode])
                (h2 ++ [Call.mkdir_p (env.dirname n) 511]
                  ++ [Call.fopen_w n, Call.chmod (some n) h.mode]) hd hrest hans
              exact ⟨st, Call.mkdir_p (env.dirname n) 511 :: Call.fopen_w n
                :: Call.chmod (some n) h.mode :: calls,
                by simpa [List.append_assoc] using e1, by simpa [List.append_assoc] using e2⟩

/-- C14, the claim as stated fails, on two section lists whose first entry
`a.txt` cannot be opened in `locked_env` and can in `plain_env 0`.  In the first
list the second entry has the payload offset -1: its `fseek` fails and the copy
starts where the stream stands, so the entry gets the bytes `0123` when `a.txt`
was skipped and `efgh` when `a.txt` was written.  In the second list the second
entry has no name: the process dies in `strdup(NULL)`, `extract` does not
return 0. -/
theorem extract_unopenable_counterexample :
    extract locked_env twenty_bytes
        [section_s.header ⟨some (bytes "a.txt"), file_type.file_regular, 420, 4, 10⟩,
         section_s.header ⟨some (bytes "b"), file_type.file_regular, 420, 4, -1⟩] []
      = (some 0,
          [Call.mkdir_p (bytes ".") 511, Call.fopen_w (bytes "a.txt"),
           Call.chmod (some (bytes "a.txt")) 420,
           Call.mkdir_p (bytes ".") 511, Call.fopen_w (bytes "b"),
           Call.fwrite (bytes "b") (bytes "0123"), Call.chmod (some (bytes "b")) 420]) ∧
    extract (plain_env 0) twenty_bytes
        [section_s.header ⟨some (bytes "a.txt"), file_type.file_regular, 420, 4, 10⟩,
         section_s.header ⟨some (bytes "b"), file_type.file_regular, 420, 4, -1⟩] []
      = (some 0,
          [Call.mkdir_p (bytes ".") 511, Call.fopen_w (bytes "a.txt"),
           Call.fwrite (bytes "a.txt") (bytes "abcd"), Call.chmod (some (bytes "a.txt")) 420,
           Call.mkdir_p (bytes ".") 511, Call.fopen_w (bytes "b"),
           Call.fwrite (bytes "b") (bytes "efgh"), Call.chmod (some (bytes "b")) 420]) ∧
    extract locked_env twenty_bytes
        [section_s.header ⟨some (bytes "a.txt"), file_type.file_regular, 420, 4, 10⟩,
         section_s.header ⟨none, file_type.file_directory, 493, 0, 14⟩] []
      = (none,
          [Call.mkdir_p (bytes ".") 511, Call.fopen_w (bytes "a.txt"),
           Call.chmod (some (bytes "a.txt")) 420]) := by
  decide

/-- C14, amended: per-entry failures do not abort extraction.  When the loop of
`extract` reaches a regular Header (after the sections `pre`) whose target file
cannot be opened for writing, the entry gets three calls (`mkdir_p` of the
parent, the failed `fopen`, `chmod`), none of them a write, the archive stream
is left as it is, and the loop goes on with the sections after the entry.
`extract` then returns 0 when every Header of type regular or directory after
the entry has a name, and dies in `strdup(NULL)` otherwise.  When the regular
Headers after the entry have payload offsets that are not negative, the status
and the calls for the sections after the entry are the same as in a run of any
environment `env2` in which the `fopen` of the entry succeeds and the `fopen`
calls after it get the same answers as in the run in which it failed. -/
theorem extract_skips_unopenable_entry (env : Env) (f f1 : FILE) (hist h1 : List Call)
    (pre post : List section_s) (h : header_s) (n : Bytes)
    (ht : h.type = file_type.file_regular) (hn : h.name = some n)
    (hpre : extract_state env pre f hist = (some f1, h1))
    (hfail : env.fopen_ok (h1 ++ [Call.mkdir_p (env.dirname n) 511]) n = false) :
    extract env f (pre ++ section_s.header h :: post) hist
        = extract env f1 post
            (h1 ++ [Call.mkdir_p (env.dirname n) 511, Call.fopen_w n,
                    Call.chmod (some n) h.mode]) ∧
    (extract env f (pre ++ section_s.header h :: post) hist).1
        = (if nameless post then none else some 0) ∧
    (∀ env2 : Env, env2.dirname = env.dirname →
      env2.fopen_ok (h1 ++ [Call.mkdir_p (env.dirname n) 511]) n = true →
      (∀ x ∈ headers_of post, x.type = file_type.file_regular → 0 ≤ x._file_pos) →
      fopen_answers env2 post (copy_payload (fseek_set f1 h._file_pos) h.length).2
          (h1 ++ [Call.mkdir_p (env.dirname n) 511, Call.fopen_w n,
                  Call.fwrite n (copy_payload (fseek_set f1 h._file_pos) h.length).1,
                  Call.chmod (some n) h.mode])
        = fopen_answers env post f1
            (h1 ++ [Call.mkdir_p (env.dirname n) 511, Call.fopen_w n,
                    Call.chmod (some n) h.mode]) →
      ∃ (st : Option Int) (calls : List Call),
        extract env f1 post
            (h1 ++ [Call.mkdir_p (env.dirname n) 511, Call.fopen_w n,
                    Call.chmod (some n) h.mode])
          = (st, h1 ++ [Call.mkdir_p (env.dirname n) 511, Call.fopen_w n,
                    Call.chmod (some n) h.mode] ++ calls) ∧
        extract env2 f1 (section_s.header h :: post) h1
          = (st, h1 ++ [Call.mkdir_p (env.dirname n) 511, Call.fopen_w n,
                    Call.fwrite n (copy_payload (fseek_set f1 h._file_pos) h.length).1,
                    Call.chmod (some n) h.mode] ++ calls)) := by
  have hA : extract env f (pre ++ section_s.header h :: post) hist
      = extract env f1 post
          (h1 ++ [Call.mkdir_p (env.dirname n) 511, Call.fopen_w n,
                  Call.chmod (some n) h.mode]) := by
    unfold extract
    rw [extract_loop_append, hpre]
    simp only [extract_loop, ht, hn, hfail]
    simp
  refine ⟨hA, ?_, ?_⟩
  · rw [hA]
    exact extract_loop_status_eq env post f1 _
  · intro env2 hdir hopen hpost hans
    obtain ⟨st, calls, e1, e2⟩ := extract_loop_same_answers env env2 hdir post f1
      (copy_payload (fseek_set f1 h._file_pos) h.length).2
      (h1 ++ [Call.mkdir_p (env.dirname n) 511, Call.fopen_w n, Call.chmod (some n) h.mode])
      (h1 ++ [Call.mkdir_p (env.dirname n) 511, Call.fopen_w n,
              Call.fwrite n (copy_payload (fseek_set f1 h._file_pos) h.length).1,
              Call.chmod (some n) h.mode])
      (by unfold copy_payload; simp only; exact fseek_set_data f1 h._file_pos) hpost hans
    refine ⟨st, calls, e1, ?_⟩
    unfold extract
    simp only [extract_loop, ht, hn, hdir, hopen]
    simpa [List.append_assoc] using e2

/-- C14 at an input: the sections of Scenario A on a file system in which
`a.txt` is a directory and cannot be opened for writing: nothing is written for
it, the two other entries are extracted, the status is 0; and on the file system
without that directory the entries after `a.txt` get the same calls. -/
theorem extract_skips_unopenable_entry_witness :
    extract (fs_env 8 [(bytes ".", node.dir), (bytes "a.txt", node.dir)] 0)
        (fopen_r (create_installer scenario_host scenario_global scenario_files scenario_content))
        scenario_sections []
      = (some 0,
          [Call.mkdir_p (bytes ".") 511, Call.fopen_w (bytes "a.txt"),
           Call.chmod (some (bytes "a.txt")) 420,
           Call.mkdir_p (bytes "sub") 511, Call.chmod (some (bytes "sub")) 493,
           Call.mkdir_p (bytes "sub") 511, Call.fopen_w (bytes "sub/b.txt"),
           Call.fwrite (bytes "sub/b.txt") (bytes "12345"),
           Call.chmod (some (bytes "sub/b.txt")) 420]) ∧
    extract (fs_env 8 [(bytes ".", node.dir)] 0)
        (fopen_r (create_installer scenario_host scenario_global scenario_files scenario_content))
        (scenario_sections.drop 1) []
      = (some 0,
          [Call.mkdir_p (bytes ".") 511, Call.fopen_w (bytes "a.txt"),
           Call.fwrite (bytes "a.txt") (bytes "hello world\n"),
           Call.chmod (some (bytes "a.txt")) 420,
           Call.mkdir_p (bytes "sub") 511, Call.chmod (some (bytes "sub")) 493,
           Call.mkdir_p (bytes "sub") 511, Call.fopen_w (bytes "sub/b.txt"),
           Call.fwrite (bytes "sub/b.txt") (bytes "12345"),
           Call.chmod (some (bytes "sub/b.txt")) 420]) := by
  have h := extract_skips_unopenable_entry
    (fs_env 8 [(bytes ".", node.dir), (bytes "a.txt", node.dir)] 0)
    (fopen_r (create_installer scenario_host scenario_global scenario_files scenario_content))
    (fopen_r (create_installer scenario_host scenario_global scenario_files scenario_content))
    [] [] [section_s.global scenario_global]
    [section_s.header ⟨some (bytes "sub"), file_type.file_directory, 493, 0, 255⟩,
     section_s.header ⟨some (bytes "sub/b.txt"), file_type.file_regular, 420, 5, 335⟩]
    ⟨some (bytes "a.txt"), file_type.file_regular, 420, 12, 167⟩ (bytes "a.txt")
    rfl rfl (by decide) (by decide)
  obtain ⟨st, calls, e1, e2⟩ := h.2.2 (fs_env 8 [(bytes ".", node.dir)] 0) rfl
    (by decide) (by decide) (by decide)
  have e : scenario_sections = [section_s.global scenario_global]
      ++ section_s.header ⟨some (bytes "a.txt"), file_type.file_regular, 420, 12, 167⟩
        :: [section_s.header ⟨some (bytes "sub"), file_type.file_directory, 493, 0, 255⟩,
            section_s.header ⟨some (bytes "sub/b.txt"), file_type.file_regular, 420, 5, 335⟩] := by
    decide
  have hc : extract (fs_env 8 [(bytes ".", node.dir), (bytes "a.txt", node.dir)] 0)
      (fopen_r (create_installer scenario_host scenario_global scenario_files scenario_content))
      [section_s.header ⟨some (bytes "sub"), file_type.file_directory, 493, 0, 255⟩,
       section_s.header ⟨some (bytes "sub/b.txt"), file_type.file_regular, 420, 5, 335⟩]
      ([] ++ [Call.mkdir_p ((fs_env 8 [(bytes ".", node.dir), (bytes "a.txt", node.dir)] 0).dirname
          (bytes "a.txt")) 511, Call.fopen_w (bytes "a.txt"),
        Call.chmod (some (bytes "a.txt")) 420])
      = (some 0,
          [] ++ [Call.mkdir_p ((fs_env 8 [(bytes ".", node.dir),
              (bytes "a.txt", node.dir)] 0).dirname (bytes "a.txt")) 511,
            Call.fopen_w (bytes "a.txt"), Call.chmod (some (bytes "a.txt")) 420]
          ++ [Call.mkdir_p (bytes "sub") 511, Call.chmod (some (bytes "sub")) 493,
           Call.mkdir_p (bytes "sub") 511, Call.fopen_w (bytes "sub/b.txt"),
           Call.fwrite (bytes "sub/b.txt") (bytes "12345"),
           Call.chmod (some (bytes "sub/b.txt")) 420]) := by
    decide
  rw [hc] at e1
  have hst : st = some 0 := (congrArg Prod.fst e1).symm
  have hcalls : calls = [Call.mkdir_p (bytes "sub") 511, Call.chmod (some (bytes "sub")) 493,
           Call.mkdir_p (bytes "sub") 511, Call.fopen_w (bytes "sub/b.txt"),
           Call.fwrite (bytes "sub/b.txt") (bytes "12345"),
           Call.chmod (some (bytes "sub/b.txt")) 420] :=
    (List.append_cancel_left (congrArg Prod.snd e1)).symm
  subst hst hcalls
  refine ⟨?_, ?_⟩
  · rw [e, h.1, hc]
    decide
  · have e3 : scenario_sections.drop 1
        = [section_s.header ⟨some (bytes "a.txt"), file_type.file_regular, 420, 12, 167⟩,
           section_s.header ⟨some (bytes "sub"), file_type.file_directory, 493, 0, 255⟩,
           section_s.header ⟨some (bytes "sub/b.txt"), file_type.file_regular, 420, 5, 335⟩] := by
      decide
    rw [e3, e2]
    decide

theorem utoa_eq_digits (base : Nat) (hb : 2 ≤ base) : ∀ (fuel n : Nat), n < fuel → 0 < n →
    utoa base fuel n = (Nat.digits base n).reverse.map (fun d => 48 + d) := by
  intro fuel
  induction fuel with
  | zero => intro n h _; omega
  | succ fuel ih =>
    intro n h hpos
    unfold utoa
    split
    · rename_i hn
      rw [Nat.digits_of_lt base n (by omega) hn]
      rfl
    · rename_i hn
      have hdiv : n / base < fuel := by
        have : n / base < n := Nat.div_lt_self (by omega) (by omega)
        omega
      have hdpos : 0 < n / base := Nat.div_pos (by omega) (by omega)
      rw [ih _ hdiv hdpos, Nat.digits_def' (by omega) hpos]
      simp

theorem utoa_eq_digits_text (base : Nat) (hb : 2 ≤ base) (n : Nat) :
    utoa base (n + 1) n = digits_text base n := by
  unfold digits_text
  split
  · rename_i h
    subst h
    unfold utoa
    simp; omega
  · exact utoa_eq_digits base hb (n + 1) n (by omega) (by omega)

/-- C18: builder output follows the wire format.  For file records of type
regular or directory with a `mode_t` mode and a length that is not negative,
the bytes that a successful `create_installer` writes are the host bytes
unmodified, the DATA marker line, the Global block, and for each record in list
order the HEAD marker line, the lines `name`, `type` (REGULAR or DIRECTORY),
`mode` (octal digits), `length` (decimal digits), the END marker line, and then
the file's bytes for a regular entry, nothing for a directory. -/
theorem create_installer_wire_format (host : Bytes) (global : global_s) (fs : List file_s)
    (content : Bytes → Bytes)
    (hfs : ∀ r ∈ fs, (r.type = file_type.file_regular ∨ r.type = file_type.file_directory) ∧
      r.mode < 4294967296 ∧ 0 ≤ r.length) :
    create_installer host global fs content
      = host ++ bytes "*** EZN DATA ***\n" ++ emit_global global
        ++ (fs.map (fun r =>
              bytes "*** EZN HEAD ***\n"
              ++ (bytes "name " ++ r.name ++ bytes "\n")
              ++ (bytes "type "
                  ++ (if r.type = file_type.file_regular then bytes "REGULAR"
                      else bytes "DIRECTORY") ++ bytes "\n")
              ++ (bytes "mode " ++ digits_text 8 r.mode ++ bytes "\n")
              ++ (bytes "length " ++ digits_text 10 r.length.toNat ++ bytes "\n")
              ++ bytes "*** EZN END  ***\n"
              ++ (if r.type = file_type.file_regular then content r.name else []))).flatten := by
  have hd : emit_data = bytes "*** EZN DATA ***\n" := by decide
  have h1 : bytes ("***" ++ " " ++ "EZN" ++ " " ++ "HEAD" ++ " " ++ "***" ++ "\n")
      = bytes "*** EZN HEAD ***\n" := by decide
  have h2 : bytes ("***" ++ " " ++ "EZN" ++ " " ++ "END " ++ " " ++ "***" ++ "\n")
      = bytes "*** EZN END  ***\n" := by decide
  unfold create_installer
  rw [hd]
  congr 1
  induction fs with
  | nil => rfl
  | cons r rs ih =>
    have hr := hfs r (List.mem_cons_self _ _)
    have hrs := ih (fun x hx => hfs x (List.mem_cons_of_mem _ hx))
    have hmode : fmt_o r.mode = digits_text 8 r.mode := by
      unfold fmt_o
      rw [Nat.mod_eq_of_lt hr.2.1]
      exact utoa_eq_digits_text 8 (by omega) r.mode
    have hlen : fmt_d r.length = digits_text 10 r.length.toNat := by
      unfold fmt_d
      rw [if_neg (by omega)]
      have : r.length.natAbs = r.length.toNat := by omega
      rw [this]
      exact utoa_eq_digits_text 10 (by omega) _
    have htype : file_type_to_string r.type
        = (if r.type = file_type.file_regular then bytes "REGULAR" else bytes "DIRECTORY") := by
      rcases hr.1 with h | h <;> rw [h] <;> rfl
    have hfile : emit_file content (header_of_file r)
        = (if r.type = file_type.file_regular then content r.name else []) := by
      rcases hr.1 with h | h <;> simp [emit_file, header_of_file, fmt_s, h]
    rw [List.map_cons, List.flatten_cons, ← hrs, emit_files, hfile]
    simp only [emit_header, header_of_file, fmt_s, h1, h2, hmode, hlen, htype]

/-- C18 at an input: the installer of Scenario A, byte for byte. -/
theorem create_installer_wire_format_witness :
    create_installer scenario_host scenario_global scenario_files scenario_content
      = bytes ("#!host executable\n*** EZN DATA ***\n*** EZN GLOB ***\nexec echo hi\ncleanup\n"
          ++ "*** EZN END  ***\n"
          ++ "*** EZN HEAD ***\nname a.txt\ntype REGULAR\nmode 644\nlength 12\n"
          ++ "*** EZN END  ***\nhello world\n"
          ++ "*** EZN HEAD ***\nname sub\ntype DIRECTORY\nmode 755\nlength 0\n"
          ++ "*** EZN END  ***\n"
          ++ "*** EZN HEAD ***\nname sub/b.txt\ntype REGULAR\nmode 644\nlength 5\n"
          ++ "*** EZN END  ***\n12345") := by
  have h8a : digits_text 8 420 = bytes "644" := by norm_num [digits_text]; decide
  have h8b : digits_text 8 493 = bytes "755" := by norm_num [digits_text]; decide
  have h12 : digits_text 10 (Int.toNat 12) = bytes "12" := by
    rw [show Int.toNat 12 = 12 by decide]; norm_num [digits_text]; decide
  have h0 : digits_text 10 (Int.toNat 0) = bytes "0" := by decide
  have h5 : digits_text 10 (Int.toNat 5) = bytes "5" := by
    rw [show Int.toNat 5 = 5 by decide]; norm_num [digits_text]; decide
  rw [create_installer_wire_format scenario_host scenario_global scenario_files
    scenario_content (by decide)]
  simp only [scenario_files, List.map_cons, List.map_nil, h8a, h8b, h12, h0, h5]
  decide

/-- The loop of `files_expand_directory` over entries that satisfy the
conditions of `tree_ok`, given what the recursive call does on the
subdirectories. -/
theorem expand_entries_preorder (d : Disk) (n : Nat) (x : Bytes)
    (recur : List file_s → Bytes → Option (List file_s × Int))
    (hrec : ∀ (fs : List file_s) (y : Bytes), tree_ok d n y = true →
      ∃ st, recur fs y = some (fs ++ preorder d n y, st)) :
    ∀ (es : List Bytes) (fs : List file_s),
    (es.all (fun e =>
        if e = bytes "." ∨ e = bytes ".." then
          S_ISDIR (get_file_type_and_mode d (x ++ bytes "/" ++ e))
        else
          decide (strip_slash (x ++ bytes "/" ++ e) = x ++ bytes "/" ++ e) &&
          (if (file_fill d (x ++ bytes "/" ++ e)).type = file_type.file_directory
           then tree_ok d n (x ++ bytes "/" ++ e) else true))) = true →
    expand_entries d recur es fs x = some (fs ++ preorder_entries d (preorder d n) x es) := by
  intro es
  induction es with
  | nil => intro fs _; simp [expand_entries, preorder_entries]
  | cons e es ih =>
    intro fs hall
    rw [List.all_cons, Bool.and_eq_true] at hall
    obtain ⟨he, hes⟩ := hall
    by_cases hdot : e = bytes "." ∨ e = bytes ".."
    · rw [if_pos hdot] at he
      unfold expand_entries preorder_entries
      rw [if_pos ⟨he, hdot⟩, if_pos hdot]
      exact ih fs hes
    · rw [if_neg hdot, Bool.and_eq_true] at he
      obtain ⟨hname, hsub⟩ := he
      have hname2 : (file_fill d (x ++ bytes "/" ++ e)).name = x ++ bytes "/" ++ e := by
        simpa [file_fill] using hname
      unfold expand_entries preorder_entries
      rw [if_neg (fun h => hdot h.2), if_neg hdot]
      cases ht : (file_fill d (x ++ bytes "/" ++ e)).type with
      | file_directory =>
        rw [ht] at hsub
        simp only [if_true] at hsub
        obtain ⟨st, hr⟩ := hrec (fs ++ [file_fill d (x ++ bytes "/" ++ e)])
          (x ++ bytes "/" ++ e) hsub
        simp only [hname2, hr]
        rw [ih _ hes]
        simp
      | file_regular =>
        simp only []
        rw [ih _ hes]
        simp
      | file_none =>
        simp only []
        rw [ih _ hes]
        simp

/-- The function `files_expand_directory` on a finite tree appends the list
preorder of the claim. -/
theorem files_expand_directory_preorder (d : Disk) : ∀ (n : Nat) (fs : List file_s) (x : Bytes),
    tree_ok d n x = true →
    ∃ st, files_expand_directory d n fs x = some (fs ++ preorder d n x, st) := by
  intro n
  induction n with
  | zero => intro fs x h; simp [tree_ok] at h
  | succ n ih =>
    intro fs x h
    unfold tree_ok at h
    unfold files_expand_directory preorder
    cases hr : d.readdir x with
    | none => exact ⟨-1, by simp⟩
    | some es =>
      rw [hr] at h
      simp only [] at h
      simp only []
      rw [expand_entries_preorder d n x (files_expand_directory d n) ih es fs h]
      exact ⟨0, rfl⟩

theorem preorder_entries_names (d : Disk) (n : Nat) (x : Bytes)
    (hsub : ∀ y, tree_ok d n y = true → ∀ r ∈ preorder d n y, ∃ t, r.name = y ++ bytes "/" ++ t) :
    ∀ (es : List Bytes),
    (es.all (fun e =>
        if e = bytes "." ∨ e = bytes ".." then
          S_ISDIR (get_file_type_and_mode d (x ++ bytes "/" ++ e))
        else
          decide (strip_slash (x ++ bytes "/" ++ e) = x ++ bytes "/" ++ e) &&
          (if (file_fill d (x ++ bytes "/" ++ e)).type = file_type.file_directory
           then tree_ok d n (x ++ bytes "/" ++ e) else true))) = true →
    ∀ r ∈ preorder_entries d (preorder d n) x es, ∃ t, r.name = x ++ bytes "/" ++ t := by
  intro es
  induction es with
  | nil => intro _ r hr; simp [preorder_entries] at hr
  | cons e es ih =>
    intro hall r hr
    rw [List.all_cons, Bool.and_eq_true] at hall
    obtain ⟨he, hes⟩ := hall
    unfold preorder_entries at hr
    by_cases hdot : e = bytes "." ∨ e = bytes ".."
    · rw [if_pos hdot] at hr
      exact ih hes r hr
    · rw [if_neg hdot] at hr
      rw [if_neg hdot, Bool.and_eq_true] at he
      obtain ⟨hname, htree⟩ := he
      have hname2 : (file_fill d (x ++ bytes "/" ++ e)).name = x ++ bytes "/" ++ e := by
        simpa [file_fill] using hname
      rcases List.mem_append.mp hr with h1 | h1
      · rcases List.mem_cons.mp h1 with h2 | h2
        · exact ⟨e, by rw [h2, hname2]⟩
        · by_cases ht : (file_fill d (x ++ bytes "/" ++ e)).type = file_type.file_directory
          · rw [if_pos ht] at h2 htree
            obtain ⟨t, ht2⟩ := hsub _ htree r h2
            exact ⟨e ++ bytes "/" ++ t, by rw [ht2]; simp [List.append_assoc]⟩
          · rw [if_neg ht] at h2
            simp at h2
      · exact ih hes r h1

/-- Every record of preorder(x) has a name beneath x. -/
theorem preorder_names (d : Disk) : ∀ (n : Nat) (x : Bytes), tree_ok d n x = true →
    ∀ r ∈ preorder d n x, ∃ t, r.name = x ++ bytes "/" ++ t := by
  intro n
  induction n with
  | zero => intro x h; simp [tree_ok] at h
  | succ n ih =>
    intro x h r hr
    unfold tree_ok at h
    unfold preorder at hr
    cases hd : d.readdir x with
    | none => rw [hd] at hr; simp at hr
    | some es =>
      rw [hd] at h hr
      exact preorder_entries_names d n x ih es h r hr

/-- C16, the failing input: when the directory `d` is given twice, the second
expansion appends the records of everything beneath it again; the names in the
collected list are not distinct. -/
theorem collect_duplicates_on_repeated_directory :
    (build_collect tree_disk 2 [bytes "d", bytes "d"] []).map (fun l => l.map (fun r => r.name))
      = some [bytes "d", bytes "d/x", bytes "d/e", bytes "d/e/y", bytes "d/z",
              bytes "d/x", bytes "d/e", bytes "d/e/y", bytes "d/z"] ∧
    (build_collect tree_disk 2 [bytes "d/x", bytes "d"] []).map
        (fun l => l.map (fun r => r.name))
      = some [bytes "d/x", bytes "d", bytes "d/x", bytes "d/e", bytes "d/e/y", bytes "d/z"] := by
  decide

/-- C20, the failing input: the installer of Scenario A on a file system that
holds the current directory only, with a command that succeeds.  `install`
returns 0, its last three calls are the `remove` calls of `cleanup`, and the
directory `sub` still exists afterwards: it was not empty when its `remove` call
was made, before that of `sub/b.txt`. -/
theorem cleanup_leaves_directory_behind :
    (install (fs_env 8 [(bytes ".", node.dir)] 0) [] 340
        (create_installer scenario_host scenario_global scenario_files scenario_content)).map
      (fun o => o.1) = some (some 0) ∧
    (install (fs_env 8 [(bytes ".", node.dir)] 0) [] 340
        (create_installer scenario_host scenario_global scenario_files scenario_content)).map
      (fun o => o.2.drop 11)
      = some [Call.remove (some (bytes "a.txt")), Call.remove (some (bytes "sub")),
              Call.remove (some (bytes "sub/b.txt"))] ∧
    (install (fs_env 8 [(bytes ".", node.dir)] 0) [] 340
        (create_installer scenario_host scenario_global scenario_files scenario_content)).bind
      (fun o => fs_after 8 [(bytes ".", node.dir)] o.2)
      = some [(bytes ".", node.dir), (bytes "sub", node.dir)] := by
  decide

theorem file_set_length_range (v : Int) : 0 ≤ file_set_length (wrap32 v) ∧
    file_set_length (wrap32 v) < 2147483648 := by
  unfold file_set_length wrap32
  split <;> omega

theorem file_fill_type (d : Disk) (name : Bytes) (sb : stat_s)
    (hs : d.stat (strip_slash name) = some sb) (hreg : sb.st_mode &&& S_IFMT = S_IFREG) :
    (file_fill d name).type = file_type.file_regular ∧
    (file_fill d name).name = strip_slash name ∧
    (file_fill d name).length = file_set_length (wrap32 sb.st_size) := by
  simp [file_fill, get_file_type_and_mode, get_file_size, hs, hreg]

/-- C21, the divergence: for a regular file whose `stat` size is `s` and whose
content, of `s` bytes, `emit_file` copies, `file_fill` records the length
`file_set_length (wrap32 s)`: the size narrowed to an `int`, then clamped at 0.
It equals `s` for `s < 2 ^ 31`; for every `s ≥ 2 ^ 31` it is below 2 ^ 31, hence
not `s`, and it is 0 for `2 ^ 31 ≤ s < 2 ^ 32`, while `emit_file` writes `s`
payload bytes. -/
theorem file_fill_length_narrowed (d : Disk) (name : Bytes) (sb : stat_s)
    (content : Bytes → Bytes)
    (hs : d.stat (strip_slash name) = some sb) (hreg : sb.st_mode &&& S_IFMT = S_IFREG)
    (hc : (content (strip_slash name)).length = sb.st_size) :
    (emit_file content (header_of_file (file_fill d name))).length = sb.st_size ∧
    (file_fill d name).length = file_set_length (wrap32 sb.st_size) ∧
    (sb.st_size < 2147483648 → (file_fill d name).length = sb.st_size) ∧
    (2147483648 ≤ sb.st_size →
      (file_fill d name).length < 2147483648 ∧ (file_fill d name).length ≠ sb.st_size) ∧
    (2147483648 ≤ sb.st_size → sb.st_size < 4294967296 → (file_fill d name).length = 0) := by
  obtain ⟨h1, h2, h3⟩ := file_fill_type d name sb hs hreg
  have hr := file_set_length_range sb.st_size
  refine ⟨?_, h3, ?_, ?_, ?_⟩
  · simp [emit_file, header_of_file, h1, h2, fmt_s, hc]
  · intro h
    rw [h3]
    unfold file_set_length wrap32
    split <;> omega
  · intro h
    rw [h3]
    exact ⟨hr.2, by omega⟩
  · intro h h4
    rw [h3]
    unfold file_set_length wrap32
    split <;> omega

/-- C21 at an input: a regular file of 2 ^ 31 bytes is recorded with length 0
and written with 2 ^ 31 payload bytes. -/
theorem file_fill_length_narrowed_witness :
    (file_fill ⟨fun _ => some ⟨33188, 2147483648⟩, fun _ => none⟩ (bytes "big")).length = 0 ∧
    (emit_file (fun _ => List.replicate 2147483648 0)
      (header_of_file (file_fill ⟨fun _ => some ⟨33188, 2147483648⟩, fun _ => none⟩
        (bytes "big")))).length = 2147483648 :=
  have h := file_fill_length_narrowed ⟨fun _ => some ⟨33188, 2147483648⟩, fun _ => none⟩
    (bytes "big") ⟨33188, 2147483648⟩ (fun _ => List.replicate 2147483648 0) rfl (by decide)
    (List.length_replicate _ _)
  ⟨h.2.2.2.2 (by decide) (by decide), h.1⟩

/-- C22: file record invariant.  For every state of the file system and every
path, the record that `file_fill` produces has no file type bit in its mode, a
length that is not negative (and below 2 ^ 31), and the length 0 when its type
is not regular. -/
theorem file_fill_record_invariant (d : Disk) (name : Bytes) :
    (file_fill d name).mode &&& S_IFMT = 0 ∧ 0 ≤ (file_fill d name).length ∧
    ((file_fill d name).type ≠ file_type.file_regular → (file_fill d name).length = 0) ∧
    (file_fill d name).length < 2147483648 := by
  have hm : ∀ t : Nat, (t &&& (4294967295 ^^^ S_IFMT)) &&& S_IFMT = 0 := by
    intro t
    rw [Nat.and_assoc, show (4294967295 ^^^ S_IFMT) &&& S_IFMT = 0 by decide, Nat.and_zero]
  have hl : ∀ v : Int, 0 ≤ file_set_length v := by
    intro v; unfold file_set_length; split <;> omega
  refine ⟨hm _, ?_, ?_, ?_⟩
  · unfold file_fill
    simp only
    split
    · exact hl _
    · exact le_refl _
  · intro h
    have hz : ∀ (t : file_type) (v : Int), t ≠ file_type.file_regular →
        (match t with
         | file_type.file_regular => v
         | _ => (0 : Int)) = 0 := by
      intro t v ht
      cases t <;> simp at ht ⊢
    exact hz _ _ h
  · unfold file_fill get_file_size
    simp only
    split
    · split
      · exact (file_set_length_range _).2
      · decide
    · decide

/-- C28: file type text round trip.  Reading back the text written for a file
type gives the type, for each of the three types (`file_none` is written as
`<unknown>`, which is read as `file_none`); `file_string_to_type` returns
regular for the string `REGULAR` only and directory for the string `DIRECTORY`
only, so that every other string, such as one in lower case or one with a
trailing blank, gives `file_none`. -/
theorem file_type_text_roundtrip :
    (∀ t, file_string_to_type (file_type_to_string t) = t) ∧
    file_type_to_string file_type.file_none = bytes "<unknown>" ∧
    (∀ s, file_string_to_type s = file_type.file_regular ↔ s = bytes "REGULAR") ∧
    (∀ s, file_string_to_type s = file_type.file_directory ↔ s = bytes "DIRECTORY") ∧
    file_string_to_type (bytes "regular") = file_type.file_none ∧
    file_string_to_type (bytes "Directory") = file_type.file_none ∧
    file_string_to_type (bytes "REGULAR ") = file_type.file_none := by
  refine ⟨file_type_string_roundtrip, rfl, ?_, ?_, by decide, by decide, by decide⟩
  · intro s
    unfold file_string_to_type
    constructor
    · intro h
      by_contra hs
      rw [if_neg hs] at h
      split at h <;> simp at h
    · intro h
      rw [if_pos h]
  · intro s
    unfold file_string_to_type
    constructor
    · intro h
      split at h
      · simp at h
      · by_contra hs
        rw [if_neg hs] at h
        simp at h
    · intro h
      rw [if_neg (by rw [h]; decide), if_pos h]

theorem strip_slash_snoc_slash (s : Bytes) : strip_slash (s ++ [47]) = strip_slash s := by
  unfold strip_slash
  rw [List.reverse_append]
  simp

theorem strip_slash_snoc_other (s : Bytes) (c : Nat) (hc : c ≠ 47) :
    strip_slash (s ++ [c]) = s ++ [c] := by
  unfold strip_slash
  rw [List.reverse_append]
  simp [hc]

theorem strip_slash_nil : strip_slash [] = [] := by decide

theorem strip_slash_loop_eq : ∀ (n : Nat) (s : Bytes), s.length ≤ n → ∀ before,
    strip_slash_loop before (n + 2) s = some (strip_slash s) := by
  intro n
  induction n with
  | zero =>
    intro s hs before
    have : s = [] := List.length_eq_zero.mp (by omega)
    subst this
    by_cases hb : before = 47
    · simp [strip_slash_loop, hb, strip_slash_nil]
    · simp [strip_slash_loop, hb, strip_slash_nil]
  | succ n ih =>
    intro s hs before
    rcases List.eq_nil_or_concat s with h | ⟨d, c, h⟩
    · subst h
      by_cases hb : before = 47
      · simp [strip_slash_loop, hb, strip_slash_nil]
      · simp [strip_slash_loop, hb, strip_slash_nil]
    · subst h
      have hd : d.length ≤ n := by simp at hs; omega
      unfold strip_slash_loop
      simp only [List.concat_eq_append, List.getLast?_concat, List.dropLast_concat]
      by_cases hc : c = 47
      · subst hc
        simp only [if_true]
        rw [ih d hd before, strip_slash_snoc_slash]
      · simp only [hc, if_false]
        rw [strip_slash_snoc_other d c hc]

theorem strip_slash_decompose : ∀ (s : Bytes),
    (∃ k, s = strip_slash s ++ List.replicate k 47) ∧ (strip_slash s).getLast? ≠ some 47 := by
  intro s
  induction s using List.reverseRecOn with
  | nil => exact ⟨⟨0, by simp [strip_slash_nil]⟩, by simp [strip_slash_nil]⟩
  | append_singleton d c ih =>
    by_cases hc : c = 47
    · subst hc
      rw [strip_slash_snoc_slash]
      obtain ⟨⟨k, hk⟩, hl⟩ := ih
      refine ⟨⟨k + 1, ?_⟩, hl⟩
      conv_lhs => rw [hk]
      rw [List.append_assoc]
      congr 1
      rw [List.replicate_succ', List.append_cancel_right_eq]
    · rw [strip_slash_snoc_other d c hc]
      exact ⟨⟨0, by simp⟩, by simp [hc]⟩

theorem strip_slash_all : ∀ (s : Bytes), (∀ c ∈ s, c = 47) → strip_slash s = [] := by
  intro s
  induction s using List.reverseRecOn with
  | nil => intro _; exact strip_slash_nil
  | append_singleton d c ih =>
    intro h
    have hc : c = 47 := h c (by simp)
    subst hc
    rw [strip_slash_snoc_slash]
    exact ih (fun x hx => h x (by simp [hx]))

theorem strip_slash_idem (s : Bytes) : strip_slash (strip_slash s) = strip_slash s := by
  induction s using List.reverseRecOn with
  | nil => simp [strip_slash_nil]
  | append_singleton d c ih =>
    by_cases hc : c = 47
    · subst hc
      rw [strip_slash_snoc_slash, ih]
    · rw [strip_slash_snoc_other d c hc, strip_slash_snoc_other d c hc]

/-- C23: trailing separators are stripped from stored names.  For every path
`s` the name that `file_fill` stores is `strip_slash s`; the loop of the C
function, whatever the byte in front of the buffer, ends within `length s + 2`
turns with that string; `s` is the stored name followed by slashes only, the
stored name does not end in a slash, `strip_slash` is idempotent, and a path of
slashes only is stored as the empty name. -/
theorem stored_name_strips_slashes (d : Disk) (s : Bytes) :
    (file_fill d s).name = strip_slash s ∧
    (∀ before, strip_slash_loop before (s.length + 2) s = some (strip_slash s)) ∧
    (∃ k, s = (file_fill d s).name ++ List.replicate k 47) ∧
    (file_fill d s).name.getLast? ≠ some 47 ∧
    strip_slash (strip_slash s) = strip_slash s ∧
    ((∀ c ∈ s, c = 47) → (file_fill d s).name = []) := by
  have hn : (file_fill d s).name = strip_slash s := rfl
  rw [hn]
  exact ⟨rfl, strip_slash_loop_eq s.length s (le_refl _), (strip_slash_decompose s).1,
    (strip_slash_decompose s).2, strip_slash_idem s, strip_slash_all s⟩

theorem fs_stat_append (fs : Files) (p q : Bytes) (x : node) :
    fs_stat (fs ++ [(p, x)]) q
      = (match fs_stat fs q with
         | some n => some n
         | none => if p = q then some x else none) := by
  unfold fs_stat
  rw [List.find?_append]
  cases h : List.find? (fun e => decide (e.1 = q)) fs with
  | some e => simp
  | none =>
    by_cases hp : p = q
    · simp [List.find?_cons, hp]
    · simp [List.find?_cons, hp]

theorem fs_stat_mem (fs : Files) (q : Bytes) (n : node) (h : fs_stat fs q = some n) :
    (q, n) ∈ fs := by
  unfold fs_stat at h
  cases hf : List.find? (fun e => decide (e.1 = q)) fs with
  | none => rw [hf] at h; simp at h
  | some e =>
    rw [hf] at h
    have h1 := List.find?_some hf
    have h2 := List.mem_of_find?_eq_some hf
    simp only [Option.map_some', Option.some.injEq] at h
    have h3 : e.1 = q := by simpa using h1
    have : e = (q, n) := Prod.ext h3 h
    rw [← this]
    exact h2

theorem strip_slash_length (s : Bytes) : (strip_slash s).length ≤ s.length := by
  obtain ⟨k, hk⟩ := (strip_slash_decompose s).1
  have := congrArg List.length hk
  simp at this
  omega

/-- A string that does not end in a slash is left as it is by `strip_slash`. -/
theorem strip_slash_fix (s : Bytes) (h : s.getLast? ≠ some 47) : strip_slash s = s := by
  rcases List.eq_nil_or_concat s with h0 | ⟨d, c, h0⟩
  · subst h0; exact strip_slash_nil
  · subst h0
    rw [List.concat_eq_append] at h ⊢
    have hc : c ≠ 47 := by
      intro e; subst e; simp at h
    exact strip_slash_snoc_other d c hc

/-- The function `dirname` in terms of the part `u` of the path that it looks
at. -/
theorem dirname_eq (p u : Bytes) (hu : u = if strip_slash p = [] then p else strip_slash p) :
    dirname p
      = (if 47 ∉ u then [46]
         else if strip_slash ((u.reverse.dropWhile (fun c => decide (c ≠ 47))).reverse) = [] then
           (if ((u.reverse.dropWhile (fun c => decide (c ≠ 47))).reverse).length = 2
            then [47, 47] else [47])
         else strip_slash ((u.reverse.dropWhile (fun c => decide (c ≠ 47))).reverse)) := by
  subst hu
  rfl

/-- The function `dirname` at the inputs where implementations differ, as glibc
answers: the empty path, paths of slashes only, leading and trailing slashes. -/
theorem dirname_examples :
    dirname (bytes "") = bytes "." ∧ dirname (bytes "a") = bytes "." ∧
    dirname (bytes "a/") = bytes "." ∧ dirname (bytes "a/b/") = bytes "a" ∧
    dirname (bytes "a//b") = bytes "a" ∧ dirname (bytes "/") = bytes "/" ∧
    dirname (bytes "//") = bytes "//" ∧ dirname (bytes "///") = bytes "/" ∧
    dirname (bytes "/tmp") = bytes "/" ∧ dirname (bytes "//tmp") = bytes "//" ∧
    dirname (bytes "///tmp") = bytes "/" ∧ dirname (bytes "/a/") = bytes "/" ∧
    dirname (bytes "a/..") = bytes "a" ∧ dirname (bytes "..") = bytes "." := by
  decide

/-- Each step of `dirname` ends at one of the three names of a root or gives a
shorter path. -/
theorem dirname_shrinks (p : Bytes) :
    dirname p = bytes "." ∨ dirname p = bytes "/" ∨ dirname p = bytes "//" ∨
      (dirname p).length < p.length := by
  have hdot : bytes "." = [46] := by decide
  have hroot : bytes "/" = [47] := by decide
  have hroot2 : bytes "//" = [47, 47] := by decide
  by_cases hs : strip_slash p = []
  · rw [dirname_eq p p (by rw [if_pos hs])]
    have hall : ∀ c ∈ p, c = 47 := by
      obtain ⟨k, hk⟩ := (strip_slash_decompose p).1
      rw [hs, List.nil_append] at hk
      intro c hc
      rw [hk] at hc
      exact (List.mem_replicate.mp hc).2
    have hd : strip_slash ((p.reverse.dropWhile (fun c => decide (c ≠ 47))).reverse) = [] := by
      apply strip_slash_all
      intro c hc
      have hc1 : c ∈ List.dropWhile (fun c => decide (c ≠ 47)) p.reverse := by
        simpa using hc
      have hc2 := (List.dropWhile_suffix _).subset hc1
      exact hall c (by simpa using hc2)
    rw [if_pos hd]
    split
    · left; exact hdot.symm
    · split
      · right; right; left; exact hroot2.symm
      · right; left; exact hroot.symm
  · rw [dirname_eq p (strip_slash p) (by rw [if_neg hs])]
    split
    · left; exact hdot.symm
    · split
      · split
        · right; right; left; exact hroot2.symm
        · right; left; exact hroot.symm
      · right; right; right
        have hlast := (strip_slash_decompose p).2
        have hlen := strip_slash_length p
        have hX := strip_slash_length
          ((strip_slash p).reverse.dropWhile (fun c => decide (c ≠ 47))).reverse
        have hd : ((strip_slash p).reverse.dropWhile (fun c => decide (c ≠ 47))).length
            < (strip_slash p).length := by
          cases hr : (strip_slash p).reverse with
          | nil =>
            have : strip_slash p = [] := by simpa using hr
            exact absurd this hs
          | cons c t =>
            have hc : (strip_slash p).getLast? = some c := by
              rw [← List.head?_reverse, hr]; rfl
            have hc47 : c ≠ 47 := by
              intro h; rw [h] at hc; exact hlast hc
            rw [List.dropWhile_cons_of_pos (by simp [hc47])]
            have h5 : (List.dropWhile (fun c => decide (c ≠ 47)) t).length ≤ t.length :=
              (List.dropWhile_suffix _).length_le
            have h6 : (strip_slash p).length = t.length + 1 := by
              have := congrArg List.length hr
              simpa using this
            omega
        simp only [List.length_reverse] at hX
        omega

/-- In the file system every path that exists has an existing directory as its
parent (the form of `fs_closed` in terms of `stat`). -/
theorem fs_closed_stat (fs : Files) (h : fs_closed fs) (q : Bytes) (n : node)
    (hq : fs_stat fs q = some n) : fs_stat fs (dirname q) = some node.dir :=
  h (q, n) (fs_stat_mem fs q n hq)

theorem dropWhile_append_all (f : Nat → Bool) : ∀ (a b : List Nat), (∀ x ∈ a, f x = true) →
    (a ++ b).dropWhile f = b.dropWhile f := by
  intro a
  induction a with
  | nil => intro b _; rfl
  | cons x a ih =>
    intro b h
    rw [List.cons_append, List.dropWhile_cons_of_pos (h x (by simp))]
    exact ih b (fun y hy => h y (by simp [hy]))

theorem takeWhile_append_all (f : Nat → Bool) : ∀ (a b : List Nat), (∀ x ∈ a, f x = true) →
    (a ++ b).takeWhile f = a ++ b.takeWhile f := by
  intro a
  induction a with
  | nil => intro b _; rfl
  | cons x a ih =>
    intro b h
    rw [List.cons_append, List.takeWhile_cons_of_pos (h x (by simp))]
    rw [ih b (fun y hy => h y (by simp [hy]))]
    rfl

/-- A component does not end in a slash. -/
theorem component_last (c : Bytes) (hc : component c) : c.getLast? ≠ some 47 := by
  intro h
  exact hc.2.1 (List.mem_of_mem_getLast? (Option.mem_def.mpr h))

/-- The path of an entry is not empty and does not end in a slash. -/
theorem path_child_last (d c : Bytes) (hc : component c) :
    path_child d c ≠ [] ∧ (path_child d c).getLast? ≠ some 47 := by
  have hne := hc.1
  have hl := component_last c hc
  obtain ⟨x, t, rfl⟩ := List.exists_cons_of_ne_nil hne
  unfold path_child
  split
  · exact ⟨hne, hl⟩
  · split
    · refine ⟨by simp, ?_⟩
      rw [List.getLast?_cons_cons]
      exact hl
    · refine ⟨by simp, ?_⟩
      rw [List.getLast?_append_of_ne_nil _ (by simp), List.getLast?_cons_cons]
      exact hl

/-- What stands in front of the last slash of `x/c`, for a component `c`. -/
theorem before_last_slash (x c : Bytes) (hc : 47 ∉ c) :
    ((x ++ 47 :: c).reverse.dropWhile (fun c => decide (c ≠ 47))).reverse = x ++ [47] := by
  have e : (x ++ 47 :: c).reverse = c.reverse ++ (47 :: x.reverse) := by simp
  rw [e, dropWhile_append_all _ _ _ (by
    intro y hy
    have : y ∈ c := by simpa using hy
    have : y ≠ 47 := fun h => hc (h ▸ this)
    simpa using this)]
  rw [List.dropWhile_cons_of_neg (by simp)]
  simp

/-- The function `dirname` gives the directory of an entry back. -/
theorem dirname_child (d c : Bytes) (hd : d = [47] ∨ (d ≠ [] ∧ d.getLast? ≠ some 47))
    (hc : component c) : dirname (path_child d c) = d := by
  obtain ⟨hpne, hpl⟩ := path_child_last d c hc
  have hfix := strip_slash_fix _ hpl
  rw [dirname_eq (path_child d c) (path_child d c) (by rw [hfix, if_neg hpne])]
  unfold path_child
  by_cases h1 : d = [46]
  · rw [if_pos h1, if_pos hc.2.1, h1]
  · by_cases h2 : d = [47]
    · rw [if_neg h1, if_pos h2]
      have hb := before_last_slash [] c hc.2.1
      simp only [List.nil_append] at hb
      rw [if_neg (by simp), hb, h2]
      decide
    · rw [if_neg h1, if_neg h2]
      rcases hd with hd | ⟨hd1, hd2⟩
      · exact absurd hd h2
      · rw [if_neg (by simp), before_last_slash d c hc.2.1, strip_slash_snoc_slash,
          strip_slash_fix d hd2, if_neg hd1]

/-- The last component of the path of an entry is its name. -/
theorem last_component_child (d c : Bytes) (hc : component c) :
    last_component (path_child d c) = c := by
  obtain ⟨hpne, hpl⟩ := path_child_last d c hc
  unfold last_component
  rw [strip_slash_fix _ hpl]
  have hall : ∀ y ∈ c.reverse, (fun c => decide (c ≠ 47)) y = true := by
    intro y hy
    have : y ∈ c := by simpa using hy
    have : y ≠ 47 := fun h => hc.2.1 (h ▸ this)
    simpa using this
  unfold path_child
  split
  · have := takeWhile_append_all _ c.reverse [] hall
    simp only [List.append_nil] at this
    rw [this]
    simp
  · split
    · have e : (47 :: c).reverse = c.reverse ++ [47] := by simp
      rw [e, takeWhile_append_all _ _ _ hall]
      simp
    · have e : (d ++ 47 :: c).reverse = c.reverse ++ (47 :: d.reverse) := by simp
      rw [e, takeWhile_append_all _ _ _ hall]
      simp

theorem path_of_snoc (abs : Bool) (ns : List Bytes) (c : Bytes) :
    path_of abs (ns ++ [c]) = path_child (path_of abs ns) c := by
  simp [path_of, List.foldl_append]

theorem path_of_nil (abs : Bool) : path_of abs [] = if abs then [47] else [46] := rfl

/-- A path in canonical form is `/` or does not end in a slash. -/
theorem path_of_good (abs : Bool) (ns : List Bytes) (hn : ∀ c ∈ ns, component c) :
    path_of abs ns = [47] ∨ (path_of abs ns ≠ [] ∧ (path_of abs ns).getLast? ≠ some 47) := by
  rcases List.eq_nil_or_concat ns with h | ⟨d, c, h⟩
  · subst h
    cases abs
    · right; decide
    · left; rfl
  · subst h
    rw [List.concat_eq_append, path_of_snoc]
    right
    exact path_child_last _ c (hn c (by simp))

theorem dirname_path_of_snoc (abs : Bool) (ns : List Bytes) (c : Bytes)
    (hn : ∀ x ∈ ns, component x) (hc : component c) :
    dirname (path_of abs (ns ++ [c])) = path_of abs ns := by
  rw [path_of_snoc]
  exact dirname_child _ c (path_of_good abs ns hn) hc

theorem dirname_path_of_nil (abs : Bool) : dirname (path_of abs []) = path_of abs [] := by
  cases abs <;> decide

theorem take_snoc (ns : List Bytes) (c : Bytes) (j : Nat) :
    (ns ++ [c]).take j = if j ≤ ns.length then ns.take j else ns ++ [c] := by
  split
  · rename_i h
    exact List.take_append_of_le_length h
  · rename_i h
    exact List.take_of_length_le (by simp; omega)

/-- Only the working directory has the path `.`. -/
theorem path_child_ne_dot (d c : Bytes) (hc : component c) : path_child d c ≠ [46] := by
  obtain ⟨x, t, rfl⟩ := List.exists_cons_of_ne_nil hc.1
  unfold path_child
  split
  · exact hc.2.2.1
  · split
    · simp
    · intro h
      have := congrArg List.length h
      simp at this
      omega

theorem path_child_length (d c : Bytes) (hc : component c) (hd : d ≠ [46]) :
    d.length < (path_child d c).length := by
  obtain ⟨x, t, rfl⟩ := List.exists_cons_of_ne_nil hc.1
  unfold path_child
  rw [if_neg hd]
  split
  · rename_i h; rw [h]; simp
  · simp

theorem path_of_take_length (abs : Bool) : ∀ (ns : List Bytes), (∀ c ∈ ns, component c) →
    ∀ j, (path_of abs (ns.take j)).length ≤ (path_of abs ns).length := by
  intro ns
  induction ns using List.reverseRecOn with
  | nil => intro _ j; simp
  | append_singleton ns c ih =>
    intro hn j
    have hn1 : ∀ x ∈ ns, component x := fun x hx => hn x (by simp [hx])
    have hc : component c := hn c (by simp)
    rw [take_snoc]
    split
    · have h1 := ih hn1 j
      rw [path_of_snoc]
      by_cases hd : path_of abs ns = [46]
      · have : 0 < (path_child (path_of abs ns) c).length :=
          List.length_pos.mpr (path_child_last _ c hc).1
        have : (path_of abs ns).length = 1 := by rw [hd]; rfl
        omega
      · have := path_child_length _ c hc hd
        omega
    · exact le_refl _

/-- The path of an entry is not the path of one of its ancestors. -/
theorem path_of_take_ne (abs : Bool) (ns : List Bytes) (c : Bytes)
    (hn : ∀ x ∈ ns, component x) (hc : component c) (j : Nat) :
    path_of abs (ns.take j) ≠ path_child (path_of abs ns) c := by
  by_cases hd : path_of abs ns = [46]
  · have hnil : ns = [] := by
      rcases List.eq_nil_or_concat ns with h | ⟨d, x, h⟩
      · exact h
      · subst h
        rw [List.concat_eq_append, path_of_snoc] at hd
        exact absurd hd (path_child_ne_dot _ x (hn x (by simp)))
    subst hnil
    rw [List.take_nil, hd]
    exact (path_child_ne_dot _ c hc).symm
  · intro h
    have h1 := path_of_take_length abs ns hn j
    have h2 := path_child_length _ c hc hd
    rw [h] at h1
    omega

/-- The value of `errno` after a failed `stat` of a path in canonical form none
of whose ancestors is a regular file. -/
theorem fs_stat_errno_enoent (fs : Files) (abs : Bool)
    (hrt : fs_stat fs (path_of abs []) = some node.dir) :
    ∀ (ns : List Bytes), (∀ c ∈ ns, component c) →
    (∀ j c, fs_stat fs (path_of abs (ns.take j)) ≠ some (node.file c)) →
    ∀ fuel, fs_stat_errno fs fuel (path_of abs ns) = ENOENT := by
  intro ns
  induction ns using List.reverseRecOn with
  | nil =>
    intro _ _ fuel
    cases fuel with
    | zero => rfl
    | succ n =>
      unfold fs_stat_errno
      rw [dirname_path_of_nil, hrt]
  | append_singleton ns c ih =>
    intro hn hfile fuel
    have hn1 : ∀ x ∈ ns, component x := fun x hx => hn x (by simp [hx])
    have hc : component c := hn c (by simp)
    cases fuel with
    | zero => rfl
    | succ n =>
      unfold fs_stat_errno
      rw [dirname_path_of_snoc abs ns c hn1 hc]
      have hD := hfile ns.length
      rw [take_snoc, if_pos (le_refl _), List.take_length] at hD
      cases hs : fs_stat fs (path_of abs ns) with
      | none =>
        simp only
        apply ih hn1
        intro j x
        have := hfile (min j ns.length) x
        rw [take_snoc, if_pos (Nat.min_le_right _ _)] at this
        rw [← List.take_take] at this
        rw [List.take_length] at this
        exact this
      | some x =>
        cases x with
        | dir => rfl
        | file y => exact absurd hs (hD y)

/-- In a file system as POSIX keeps it the ancestors of a path that exists are
directories. -/
theorem chain_dirs (fs : Files) (hc : fs_closed fs) (abs : Bool) :
    ∀ (ns : List Bytes), (∀ c ∈ ns, component c) →
    ∀ m, fs_stat fs (path_of abs ns) = some m →
    ∀ j, j < ns.length → fs_stat fs (path_of abs (ns.take j)) = some node.dir := by
  intro ns
  induction ns using List.reverseRecOn with
  | nil => intro _ m _ j hj; simp at hj
  | append_singleton ns c ih =>
    intro hn m hm j hj
    have hn1 : ∀ x ∈ ns, component x := fun x hx => hn x (by simp [hx])
    have hcc : component c := hn c (by simp)
    have hD := fs_closed_stat fs hc _ _ hm
    rw [dirname_path_of_snoc abs ns c hn1 hcc] at hD
    have hj1 : j ≤ ns.length := by simp at hj; omega
    rw [take_snoc, if_pos hj1]
    by_cases hj2 : j = ns.length
    · rw [hj2, List.take_length]; exact hD
    · exact ih hn1 _ hD j (by omega)

theorem mkdir_p_existing (fs : Files) (q : Bytes) (h : fs_stat fs q = some node.dir) :
    ∀ k, 1 ≤ k → mkdir_p k fs q = some (fs, 0) := by
  intro k hk
  obtain ⟨j, rfl⟩ : ∃ j, k = j + 1 := ⟨k - 1, by omega⟩
  unfold mkdir_p
  simp [h]

theorem mkdir_p_file (fs : Files) (q c : Bytes) (h : fs_stat fs q = some (node.file c)) :
    ∀ k, 1 ≤ k → mkdir_p k fs q = some (fs, -1) := by
  intro k hk
  obtain ⟨j, rfl⟩ : ∃ j, k = j + 1 := ⟨k - 1, by omega⟩
  unfold mkdir_p
  simp [h]

/-- The call `mkdir` of a missing entry of an existing directory makes it. -/
theorem fs_mkdir_ok (fs : Files) (p : Bytes) (hne : p ≠ [])
    (hl : last_component p ≠ [46] ∧ last_component p ≠ [46, 46])
    (hp : fs_stat fs p = none) (hd : fs_stat fs (dirname p) = some node.dir) :
    fs_mkdir fs p = (fs ++ [(p, node.dir)], 0) := by
  unfold fs_mkdir
  rw [if_neg hne, if_neg (by simp [hl.1, hl.2]), hp, hd]

theorem fs_closed_append (fs : Files) (p : Bytes) (hc : fs_closed fs)
    (hd : fs_stat fs (dirname p) = some node.dir) : fs_closed (fs ++ [(p, node.dir)]) := by
  intro e he
  rw [fs_stat_append]
  rcases List.mem_append.mp he with h | h
  · rw [hc e h]
  · have : e = (p, node.dir) := by simpa using h
    rw [this, hd]

/-- The function `mkdir_p` on a path in canonical form. -/
theorem mkdir_p_canonical (fs : Files) (abs : Bool)
    (hrt : fs_stat fs (path_of abs []) = some node.dir) (hc : fs_closed fs) :
    ∀ (ns : List Bytes), (∀ c ∈ ns, component c) →
    ∃ (fs1 : Files) (r : Int),
      (∀ fuel, ns.length + 1 ≤ fuel → mkdir_p fuel fs (path_of abs ns) = some (fs1, r)) ∧
      fs_closed fs1 ∧
      (∀ q m, fs_stat fs q = some m → fs_stat fs1 q = some m) ∧
      (r = 0 → ∀ j, fs_stat fs1 (path_of abs (ns.take j)) = some node.dir) ∧
      (∀ q m, fs_stat fs1 q = some m →
        fs_stat fs q = some m ∨ (m = node.dir ∧ ∃ j, q = path_of abs (ns.take j))) ∧
      ((∃ j c, fs_stat fs (path_of abs (ns.take j)) = some (node.file c)) →
        fs1 = fs ∧ r = -1) ∧
      ((∀ j c, fs_stat fs (path_of abs (ns.take j)) ≠ some (node.file c)) → r = 0) ∧
      (fs_stat fs (path_of abs ns) = some node.dir → fs1 = fs ∧ r = 0) := by
  intro ns
  induction ns using List.reverseRecOn with
  | nil =>
    intro _
    refine ⟨fs, 0, fun fuel hf => mkdir_p_existing fs _ hrt fuel (by omega), hc,
      fun _ _ h => h, ?_, fun _ _ h => Or.inl h, ?_, fun _ => rfl, fun _ => ⟨rfl, rfl⟩⟩
    · intro _ j
      rw [List.take_nil]; exact hrt
    · rintro ⟨j, c, h⟩
      rw [List.take_nil, hrt] at h
      simp at h
  | append_singleton ns c ih =>
    intro hn
    have hn1 : ∀ x ∈ ns, component x := fun x hx => hn x (by simp [hx])
    have hcc : component c := hn c (by simp)
    have hdir := dirname_path_of_snoc abs ns c hn1 hcc
    have hfull : ∀ j, ns.length < j → (ns ++ [c]).take j = ns ++ [c] := by
      intro j hj
      rw [take_snoc, if_neg (by omega)]
    cases hs : fs_stat fs (path_of abs (ns ++ [c])) with
    | some x =>
      cases x with
      | dir =>
        refine ⟨fs, 0, fun fuel hf => mkdir_p_existing fs _ hs fuel (by omega), hc,
          fun _ _ h => h, ?_, fun _ _ h => Or.inl h, ?_, fun _ => rfl, fun _ => ⟨rfl, rfl⟩⟩
        · intro _ j
          by_cases hj : j < (ns ++ [c]).length
          · exact chain_dirs fs hc abs (ns ++ [c]) hn _ hs j hj
          · rw [List.take_of_length_le (by omega)]; exact hs
        · rintro ⟨j, y, h⟩
          by_cases hj : j < (ns ++ [c]).length
          · rw [chain_dirs fs hc abs (ns ++ [c]) hn _ hs j hj] at h
            simp at h
          · rw [List.take_of_length_le (by omega), hs] at h
            simp at h
      | file y =>
        refine ⟨fs, -1, fun fuel hf => mkdir_p_file fs _ y hs fuel (by omega), hc,
          fun _ _ h => h, by simp, fun _ _ h => Or.inl h, fun _ => ⟨rfl, rfl⟩, ?_, ?_⟩
        · intro h
          exact absurd hs (by
            have := h (ns.length + 1) y
            rwa [hfull _ (by omega)] at this)
        · intro h; simp at h
    | none =>
      obtain ⟨fs2, r2, j1, j2, j3, j4, j5, j6, j7, _⟩ := ih hn1
      by_cases hblock : ∃ j y, fs_stat fs (path_of abs ((ns ++ [c]).take j)) = some (node.file y)
      · have hb1 : ∃ j y, fs_stat fs (path_of abs (ns.take j)) = some (node.file y) := by
          obtain ⟨j, y, h⟩ := hblock
          by_cases hj : j ≤ ns.length
          · rw [take_snoc, if_pos hj] at h
            exact ⟨j, y, h⟩
          · rw [hfull _ (by omega), hs] at h
            simp at h
        obtain ⟨e1, e2⟩ := j6 hb1
        subst e1 e2
        refine ⟨fs2, -1, ?_, hc, fun _ _ h => h, by simp, fun _ _ h => Or.inl h,
          fun _ => ⟨rfl, rfl⟩, fun h => ?_, fun h => ?_⟩
        · intro fuel hf
          obtain ⟨k, rfl⟩ : ∃ k, fuel = k + 1 := ⟨fuel - 1, by simp at hf; omega⟩
          unfold mkdir_p
          simp only [hs, hdir]
          rw [j1 k (by simp at hf; omega)]
          split <;> simp
        · obtain ⟨j, y, h0⟩ := hblock
          exact absurd h0 (h j y)
        · simp at h
      · have hfree : ∀ j y, fs_stat fs (path_of abs ((ns ++ [c]).take j)) ≠ some (node.file y) := by
          intro j y h
          exact hblock ⟨j, y, h⟩
        have hfree1 : ∀ j y, fs_stat fs (path_of abs (ns.take j)) ≠ some (node.file y) := by
          intro j y
          have := hfree (min j ns.length) y
          rw [take_snoc, if_pos (Nat.min_le_right _ _), ← List.take_take,
            List.take_length] at this
          exact this
        have herr := fs_stat_errno_enoent fs abs hrt (ns ++ [c]) hn hfree
        have hr2 : r2 = 0 := j7 hfree1
        subst hr2
        have hD : fs_stat fs2 (path_of abs ns) = some node.dir := by
          have := j4 rfl ns.length
          rwa [List.take_length] at this
        have hp2 : fs_stat fs2 (path_of abs (ns ++ [c])) = none := by
          cases h2 : fs_stat fs2 (path_of abs (ns ++ [c])) with
          | none => rfl
          | some m =>
            rcases j5 _ _ h2 with h | ⟨_, j, h⟩
            · rw [hs] at h; simp at h
            · rw [path_of_snoc] at h
              exact absurd h.symm (path_of_take_ne abs ns c hn1 hcc j)
        have hpne : path_of abs (ns ++ [c]) ≠ [] := by
          rw [path_of_snoc]; exact (path_child_last _ c hcc).1
        have hlast : last_component (path_of abs (ns ++ [c])) = c := by
          rw [path_of_snoc]; exact last_component_child _ c hcc
        have hmk := fs_mkdir_ok fs2 (path_of abs (ns ++ [c])) hpne
          (by rw [hlast]; exact ⟨hcc.2.2.1, hcc.2.2.2⟩) hp2 (by rw [hdir]; exact hD)
        have hnew : fs_stat (fs2 ++ [(path_of abs (ns ++ [c]), node.dir)])
            (path_of abs (ns ++ [c])) = some node.dir := by
          rw [fs_stat_append, hp2]; simp
        have hmono : ∀ q m, fs_stat fs2 q = some m
            → fs_stat (fs2 ++ [(path_of abs (ns ++ [c]), node.dir)]) q = some m := by
          intro q m h
          rw [fs_stat_append, h]
        refine ⟨fs2 ++ [(path_of abs (ns ++ [c]), node.dir)], 0, ?_,
          fs_closed_append fs2 _ j2 (by rw [hdir]; exact hD),
          fun q m h => hmono q m (j3 q m h), ?_, ?_, fun h => absurd h hblock,
          fun _ => rfl, fun h => by simp at h⟩
        · intro fuel hf
          obtain ⟨k, rfl⟩ : ∃ k, fuel = k + 1 := ⟨fuel - 1, by simp at hf; omega⟩
          unfold mkdir_p
          simp only [hs, hdir, herr]
          rw [j1 k (by simp at hf; omega)]
          simp [hmk]
        · intro _ j
          by_cases hj : j ≤ ns.length
          · rw [take_snoc, if_pos hj]
            exact hmono _ _ (j4 rfl j)
          · rw [hfull _ (by omega)]
            exact hnew
        · intro q m h
          rw [fs_stat_append] at h
          cases h2 : fs_stat fs2 q with
          | some n =>
            rw [h2] at h
            simp only [Option.some.injEq] at h
            subst h
            rcases j5 _ _ h2 with h3 | ⟨h3, j, h4⟩
            · exact Or.inl h3
            · refine Or.inr ⟨h3, min j ns.length, ?_⟩
              rw [take_snoc, if_pos (Nat.min_le_right _ _), ← List.take_take, List.take_length]
              exact h4
          | none =>
            rw [h2] at h
            simp only at h
            by_cases hpq : path_of abs (ns ++ [c]) = q
            · rw [if_pos hpq] at h
              simp only [Option.some.injEq] at h
              refine Or.inr ⟨h.symm, ns.length + 1, ?_⟩
              rw [hfull _ (by omega)]
              exact hpq.symm
            · rw [if_neg hpq] at h
              simp at h

/-- The function `mkdir_p` returns for every path, within a number of nested
calls bounded by the length of the path, on a file system that has `.`, `/`
and `//`. -/
theorem mkdir_p_returns (fs : Files)
    (hdot : fs_stat fs (bytes ".") = some node.dir)
    (hroot : fs_stat fs (bytes "/") = some node.dir)
    (hroot2 : fs_stat fs (bytes "//") = some node.dir) :
    ∀ (n : Nat) (q : Bytes), q.length ≤ n →
    ∃ res : Files × Int, ∀ fuel, n + 2 ≤ fuel → mkdir_p fuel fs q = some res := by
  intro n
  induction n with
  | zero =>
    intro q hq
    have hnil : q = [] := List.length_eq_zero.mp (by omega)
    subst hnil
    have hd : dirname [] = bytes "." := by decide
    cases hs : fs_stat fs [] with
    | some x =>
      cases x with
      | dir => exact ⟨(fs, 0), fun fuel hf => mkdir_p_existing fs _ hs fuel (by omega)⟩
      | file y => exact ⟨(fs, -1), fun fuel hf => mkdir_p_file fs _ y hs fuel (by omega)⟩
    | none =>
      refine ⟨(if fs_stat_errno fs ([] : Bytes).length.succ [] ≠ ENOENT then (fs, -1)
        else fs_mkdir fs []), ?_⟩
      intro fuel hf
      obtain ⟨k, rfl⟩ : ∃ k, fuel = k + 1 := ⟨fuel - 1, by omega⟩
      unfold mkdir_p
      simp only [hs, hd]
      rw [mkdir_p_existing fs _ hdot k (by omega)]
      split <;> simp
  | succ n ih =>
    intro q hq
    cases hs : fs_stat fs q with
    | some x =>
      cases x with
      | dir => exact ⟨(fs, 0), fun fuel hf => mkdir_p_existing fs _ hs fuel (by omega)⟩
      | file y => exact ⟨(fs, -1), fun fuel hf => mkdir_p_file fs _ y hs fuel (by omega)⟩
    | none =>
      have hsub : ∃ res2 : Files × Int, ∀ k, n + 2 ≤ k → mkdir_p k fs (dirname q) = some res2 := by
        rcases dirname_shrinks q with h | h | h | h
        · rw [h]; exact ⟨(fs, 0), fun k hk => mkdir_p_existing fs _ hdot k (by omega)⟩
        · rw [h]; exact ⟨(fs, 0), fun k hk => mkdir_p_existing fs _ hroot k (by omega)⟩
        · rw [h]; exact ⟨(fs, 0), fun k hk => mkdir_p_existing fs _ hroot2 k (by omega)⟩
        · exact ih (dirname q) (by omega)
      obtain ⟨res2, h2⟩ := hsub
      refine ⟨(if fs_stat_errno fs (q.length + 1) q ≠ ENOENT then (fs, -1)
        else if res2.2 ≠ 0 then (res2.1, -1) else fs_mkdir res2.1 q), ?_⟩
      intro fuel hf
      obtain ⟨k, rfl⟩ : ∃ k, fuel = k + 1 := ⟨fuel - 1, by omega⟩
      unfold mkdir_p
      simp only [hs]
      rw [h2 k (by omega)]
      split
      · rfl
      · simp only []
        split <;> rfl

/-- The ancestors of a path in canonical form are what the repeated `dirname`
gives. -/
theorem dirname_iterate_path_of (abs : Bool) : ∀ (k : Nat) (ns : List Bytes),
    (∀ c ∈ ns, component c) →
    dirname^[k] (path_of abs ns) = path_of abs (ns.take (ns.length - k)) := by
  intro k
  induction k with
  | zero => intro ns _; simp
  | succ k ih =>
    intro ns hn
    rw [Function.iterate_succ_apply]
    rcases List.eq_nil_or_concat ns with h | ⟨d, c, h⟩
    · subst h
      rw [dirname_path_of_nil, ih [] (by simp)]
      simp
    · subst h
      rw [List.concat_eq_append] at hn ⊢
      have hn1 : ∀ x ∈ d, component x := fun x hx => hn x (by simp [hx])
      rw [dirname_path_of_snoc abs d c hn1 (hn c (by simp)), ih d hn1]
      congr 1
      rw [take_snoc, if_pos (by simp), List.length_append, List.length_singleton]
      congr 1
      omega

/-- A path in canonical form has at least as many bytes as components. -/
theorem path_of_length (abs : Bool) : ∀ (ns : List Bytes), (∀ c ∈ ns, component c) →
    ns.length ≤ (path_of abs ns).length := by
  intro ns
  induction ns using List.reverseRecOn with
  | nil => intro _; simp
  | append_singleton ns c ih =>
    intro hn
    have hn1 : ∀ x ∈ ns, component x := fun x hx => hn x (by simp [hx])
    have hc : component c := hn c (by simp)
    have h1 := ih hn1
    rw [path_of_snoc, List.length_append, List.length_singleton]
    by_cases hd : path_of abs ns = [46]
    · have hnil : ns = [] := by
        rcases List.eq_nil_or_concat ns with h | ⟨d, x, h⟩
        · exact h
        · subst h
          rw [List.concat_eq_append, path_of_snoc] at hd
          exact absurd hd (path_child_ne_dot _ x (hn1 x (by simp)))
      subst hnil
      have : 0 < (path_child (path_of abs []) c).length :=
        List.length_pos.mpr (path_child_last _ c hc).1
      simpa using this
    · have := path_child_length _ c hc hd
      omega

/-- The value of `errno` after a failed `stat` of a path in canonical form one
of whose ancestors is a regular file. -/
theorem fs_stat_errno_enotdir (fs : Files) (abs : Bool)
    (hrt : fs_stat fs (path_of abs []) = some node.dir) (hc : fs_closed fs) :
    ∀ (ns : List Bytes), (∀ c ∈ ns, component c) →
    fs_stat fs (path_of abs ns) = none →
    (∃ j y, fs_stat fs (path_of abs (ns.take j)) = some (node.file y)) →
    ∀ fuel, ns.length ≤ fuel → fs_stat_errno fs fuel (path_of abs ns) = ENOTDIR := by
  intro ns
  induction ns using List.reverseRecOn with
  | nil =>
    intro _ h
    rw [hrt] at h
    simp at h
  | append_singleton ns c ih =>
    intro hn hs hblock fuel hf
    have hn1 : ∀ x ∈ ns, component x := fun x hx => hn x (by simp [hx])
    have hcc : component c := hn c (by simp)
    obtain ⟨k, rfl⟩ : ∃ k, fuel = k + 1 := ⟨fuel - 1, by simp at hf; omega⟩
    have hb1 : ∃ j y, j ≤ ns.length ∧ fs_stat fs (path_of abs (ns.take j)) = some (node.file y) := by
      obtain ⟨j, y, h⟩ := hblock
      by_cases hj : j ≤ ns.length
      · rw [take_snoc, if_pos hj] at h
        exact ⟨j, y, hj, h⟩
      · rw [take_snoc, if_neg hj, hs] at h
        simp at h
    obtain ⟨j, y, hj, hjy⟩ := hb1
    unfold fs_stat_errno
    rw [dirname_path_of_snoc abs ns c hn1 hcc]
    cases hD : fs_stat fs (path_of abs ns) with
    | none =>
      simp only
      exact ih hn1 hD ⟨j, y, hjy⟩ k (by simp at hf; omega)
    | some x =>
      cases x with
      | file z => rfl
      | dir =>
        exfalso
        by_cases hj2 : j = ns.length
        · rw [hj2, List.take_length, hD] at hjy
          simp at hjy
        · rw [chain_dirs fs hc abs ns hn1 _ hD j (by omega)] at hjy
          simp at hjy

/-- Outside the canonical form: the call for `a/../b` in a fresh directory.
Every `stat` fails, the directory `a` is made, the `mkdir` of `a/..` fails, and
`mkdir_p` returns -1. -/
theorem mkdir_p_dotdot_example :
    mkdir_p 5 fresh_fs (bytes "a/../b") = some (fresh_fs ++ [(bytes "a", node.dir)], -1) := by
  decide

/-- C25, the divergence: the scan cursor after a Header.  When the turn of the
loop of `sections_list` at offset `i` reads a HEAD marker and `header_read`
returns the Header `h`, with the payload offset `_file_pos` (the offset after
the END marker line) and a length `L ≥ 0`, the loop goes on at the offset
`_file_pos + L - 1`, one less than `_file_pos + L`: for `L > 0` that is the
offset of the last payload byte. -/
theorem scan_cursor_after_header (stale : Bytes) (fuel : Nat) (f f2 : FILE) (end_ i : Nat)
    (acc : List section_s) (h : header_s)
    (hi : i < to_size_t ((end_ : Int) - 16))
    (hm : (read_marker stale (fseek_set f (to_long i))).1 = marker_type.marker_header)
    (hr : header_read stale fuel (read_marker stale (fseek_set f (to_long i))).2 = some (h, f2))
    (hpos : h._file_pos = (ftell f2 : Int) + 1) (hp : h._file_pos < 2147483648)
    (hL : 0 ≤ h.length) (hL2 : h.length < 2147483648) :
    sections_loop stale (fuel + 1) f end_ i acc
      = sections_loop stale fuel (fseek_set f2 0) end_ (h._file_pos + h.length - 1).toNat
          (acc ++ [section_s.header h]) ∧
    (h._file_pos + h.length - 1).toNat + 1 = (h._file_pos + h.length).toNat ∧
    (0 < h.length → h._file_pos ≤ h._file_pos + h.length - 1 ∧
      h._file_pos + h.length - 1 < h._file_pos + h.length) := by
  have hidx : to_size_t ((to_size_t ((ftell f2 : Int) + h.length - 1) : Int) + 1)
      = (h._file_pos + h.length - 1).toNat := by
    rw [hpos]
    rw [hpos] at hp
    unfold to_size_t
    omega
  refine ⟨?_, ?_, ?_⟩
  · conv_lhs => unfold sections_loop
    rw [if_pos hi]
    simp only [hm, hr, hidx]
  · rw [hpos]
    omega
  · intro h0
    omega

/-- C25 at an input: the file `star_payload_file`; after the Header of the entry
`a` (payload offset 72, length 1) the scan goes on at offset 72, where the
payload byte, an asterisk, begins a GLOB token. -/
theorem scan_cursor_after_header_witness :
    sections_loop [] 130 (fopen_r star_payload_file) 113 0 []
      = sections_loop [] 129 (fseek_set ⟨star_payload_file, 71, false⟩ 0) 113 72
          [section_s.header ⟨some (bytes "a"), file_type.file_regular, 420, 1, 72⟩] ∧
    (star_payload_file.drop 72).take 1 = bytes "*" ∧
    classify ((star_payload_file.drop 72).take 16) = marker_type.marker_global :=
  ⟨(scan_cursor_after_header [] 129 (fopen_r star_payload_file) ⟨star_payload_file, 71, false⟩
      113 0 [] ⟨some (bytes "a"), file_type.file_regular, 420, 1, 72⟩ (by decide) (by decide)
      (by decide) (by decide) (by decide) (by decide) (by decide)).1, by decide, by decide⟩

/-- C25, the failing input: in `star_payload_file` the payload of the entry `a`
is the asterisk at offset 72; the scan reads a marker at that offset, finds the
GLOB token that begins with the payload byte, and returns a Global section after
the Header; with the payload byte `x` it returns the Header alone. -/
theorem payload_last_byte_scanned :
    sections_list [] 130 star_payload_file
      = some [section_s.header ⟨some (bytes "a"), file_type.file_regular, 420, 1, 72⟩,
              section_s.global ⟨some (bytes "x"), false⟩] ∧
    sections_list [] 130 plain_payload_file
      = some [section_s.header ⟨some (bytes "a"), file_type.file_regular, 420, 1, 72⟩] := by
  decide

theorem strip_append_stop (a b : Bytes) (c : Nat) (ha : a.getLast? = some c)
    (hc : c ≠ 10 ∧ c ≠ 13) : strip (a ++ b) = a ++ strip b := by
  have hr : ∃ t, a.reverse = c :: t := by
    have h := @List.head?_reverse Nat a
    rw [ha] at h
    cases hh : a.reverse with
    | nil => rw [hh] at h; simp at h
    | cons x t =>
      rw [hh] at h
      simp only [List.head?_cons, Option.some.injEq] at h
      exact ⟨t, by rw [h]⟩
  obtain ⟨t, ht⟩ := hr
  have hd : List.dropWhile (fun c => decide (c = 10) || decide (c = 13)) a.reverse = a.reverse := by
    rw [ht, List.dropWhile_cons_of_neg (by simp [hc.1, hc.2])]
  unfold strip
  rw [List.reverse_append, List.dropWhile_append]
  split
  · rename_i he
    have : List.dropWhile (fun c => decide (c = 10) || decide (c = 13)) b.reverse = [] := by
      simpa using he
    rw [hd, this]
    simp
  · simp

theorem strip_lf (l : Bytes) : strip (l ++ [10]) = strip l := by
  unfold strip
  rw [List.reverse_append]
  simp

theorem strip_take (l : Bytes) : ∃ t, l = strip l ++ t := by
  refine ⟨(l.reverse.takeWhile (fun c => decide (c = 10) || decide (c = 13))).reverse, ?_⟩
  unfold strip
  rw [← List.reverse_append, List.takeWhile_append_dropWhile, List.reverse_reverse]

/-- Testing the first bytes of a line after `strip` is testing them before. -/
theorem strip_keeps_head (l q : Bytes) (c : Nat) (hq : q.getLast? = some c)
    (hc : c ≠ 10 ∧ c ≠ 13) :
    ((strip l).take q.length = q ↔ l.take q.length = q) ∧
    (l.take q.length = q → strip l = q ++ strip (l.drop q.length)) := by
  have hback : l.take q.length = q → strip l = q ++ strip (l.drop q.length) := by
    intro h
    have hl : l = q ++ l.drop q.length := by
      conv_lhs => rw [← List.take_append_drop q.length l, h]
    conv_lhs => rw [hl]
    exact strip_append_stop q _ c hq hc
  refine ⟨⟨?_, ?_⟩, hback⟩
  · intro h
    obtain ⟨t, ht⟩ := strip_take l
    have hlen : q.length ≤ (strip l).length := by
      have := congrArg List.length h
      rw [List.length_take] at this
      omega
    rw [ht, List.take_append_of_le_length hlen]
    exact h
  · intro h
    rw [hback h, List.take_left' rfl]

theorem starts_with_iff : ∀ (q p : Bytes), starts_with p q = true ↔ p.take q.length = q := by
  intro q
  induction q with
  | nil => intro p; simp [starts_with]
  | cons c q ih =>
    intro p
    cases p with
    | nil => simp [starts_with]
    | cons x p =>
      simp only [starts_with, Bool.and_eq_true, decide_eq_true_eq, List.length_cons,
        List.take_succ_cons, List.cons.injEq, ih p]

/-- The body of the loop of `global_read` on a text line without NUL byte. -/
theorem global_line_text (ng : global_s) (l : Bytes) (h0 : ∀ c ∈ l, c ≠ 0 ∧ c ≠ 10) :
    global_line ng (l ++ [10])
      = (if starts_with l (bytes "exec ") then { ng with exec := some (strip (l.drop 5)) }
         else if starts_with l (bytes "cleanup") then { ng with cleanup := true }
         else ng) := by
  have hcs : cstr (l ++ [10]) = l ++ [10] := by
    apply cstr_of_no_zero
    intro c hc
    rcases List.mem_append.mp hc with h | h
    · exact (h0 c h).1
    · simp at h; omega
  have he := strip_keeps_head l (bytes "exec ") 32 (by decide) (by decide)
  have hk := strip_keeps_head l (bytes "cleanup") 112 (by decide) (by decide)
  have e1 : strncmp_eq 5 (strip l) (bytes "exec ") = true ↔ l.take 5 = bytes "exec " := by
    rw [strncmp_eq_iff_take 5 _ _ (by decide) (by decide)]
    exact he.1
  have e2 : strncmp_eq 7 (strip l) (bytes "cleanup") = true ↔ l.take 7 = bytes "cleanup" := by
    rw [strncmp_eq_iff_take 7 _ _ (by decide) (by decide)]
    exact hk.1
  have s1 : starts_with l (bytes "exec ") = true ↔ l.take 5 = bytes "exec " :=
    starts_with_iff _ _
  have s2 : starts_with l (bytes "cleanup") = true ↔ l.take 7 = bytes "cleanup" :=
    starts_with_iff _ _
  unfold global_line
  simp only [hcs, strip_lf]
  by_cases h1 : l.take 5 = bytes "exec "
  · have hs := he.2 h1
    have hne : (strip l).length ≠ 0 := by
      rw [hs]; simp [bytes_exec]
    have hdrop : (strip l).drop 5 = strip (l.drop 5) := by
      rw [hs]
      exact List.drop_left' rfl
    rw [if_pos hne, if_pos (e1.mpr h1), if_pos (s1.mpr h1), hdrop]
  · have n1 : ¬ strncmp_eq 5 (strip l) (bytes "exec ") = true := fun h => h1 (e1.mp h)
    have m1 : ¬ starts_with l (bytes "exec ") = true := fun h => h1 (s1.mp h)
    rw [if_neg m1]
    by_cases h2 : l.take 7 = bytes "cleanup"
    · have hs := hk.2 h2
      have hne : (strip l).length ≠ 0 := by
        rw [hs]; simp [bytes_cleanup]
      rw [if_pos hne, if_neg n1, if_pos (e2.mpr h2), if_pos (s2.mpr h2)]
    · have n2 : ¬ strncmp_eq 7 (strip l) (bytes "cleanup") = true := fun h => h2 (e2.mp h)
      have m2 : ¬ starts_with l (bytes "cleanup") = true := fun h => h2 (s2.mp h)
      rw [if_neg n1, if_neg n2, if_neg m2]
      simp

theorem window_not_end (l rest : Bytes) (h16 : 15 ≤ l.length + rest.length)
    (he : l.take 16 ≠ ezn_end) :
    classify ((l ++ 10 :: rest).take 16) ≠ marker_type.marker_end := by
  have hlen : ((l ++ 10 :: rest).take 16).length = 16 := by
    rw [List.length_take]; simp; omega
  rw [Ne, (classify_cases _ hlen).2.2.2.1]
  intro h
  by_cases hl : 16 ≤ l.length
  · rw [List.take_append_of_le_length hl] at h
    exact he h
  · have hm : 10 ∈ (l ++ 10 :: rest).take 16 := by
      rw [List.take_append_eq_append_take]
      apply List.mem_append_right
      obtain ⟨k, hk⟩ : ∃ k, 16 - l.length = k + 1 := ⟨16 - l.length - 1, by omega⟩
      rw [hk, List.take_succ_cons]
      exact List.mem_cons_self _ _
    rw [h] at hm
    revert hm
    decide

/-- One turn of the loop of `global_read` on a text line. -/
theorem global_loop_text_line (stale data : Bytes) (p fuel : Nat) (ng : global_s) (l rest : Bytes)
    (hd : data.drop p = l ++ 10 :: rest) (h16 : 15 ≤ l.length + rest.length)
    (hnl : 10 ∉ l) (hl : l.length < 4095) (he : l.take 16 ≠ ezn_end)
    (hp : p + (l.length + 1) < 2147483648) :
    global_loop stale (fuel + 1) ⟨data, p, false⟩ (p : Int) ng
      = global_loop stale fuel ⟨data, p + (l.length + 1), false⟩ ((p + (l.length + 1) : Nat) : Int)
          (global_line ng (l ++ [10])) := by
  have hlen : 16 ≤ (data.drop p).length := by rw [hd]; simp; omega
  have hw := window_not_end l rest h16 he
  conv_lhs => unfold global_loop
  simp only [read_marker_full stale data p false hlen]
  rw [hd, if_neg hw]
  simp only [fseek_set_nat, fgets_line data p l rest hd hnl hl, ftell]
  rw [wrap32_nat _ hp]

/-- The loop of `global_read` over text lines up to the END marker. -/
theorem global_loop_text_lines (stale data tail : Bytes) : ∀ (lines : List Bytes) (p : Nat)
    (ng : global_s) (fuel : Nat),
    data.drop p = join_lines lines ++ (ezn_end ++ tail) →
    (∀ l ∈ lines, text_line l) →
    p + (join_lines lines).length + 16 < 2147483648 →
    lines.length < fuel →
    global_loop stale fuel ⟨data, p, false⟩ (p : Int) ng
      = some (lines.foldl (fun g l => global_line g (l ++ [10])) ng,
              ⟨data, p + (join_lines lines).length + 16, false⟩) := by
  intro lines
  induction lines with
  | nil =>
    intro p ng fuel hd _ _ hf
    obtain ⟨k, rfl⟩ : ∃ k, fuel = k + 1 := ⟨fuel - 1, by simp at hf; omega⟩
    simp only [join_lines, List.nil_append] at hd
    have hlen : 16 ≤ (data.drop p).length := by
      rw [hd]; simp; have : ezn_end.length = 16 := by decide
      omega
    unfold global_loop
    simp only [read_marker_full stale data p false hlen]
    rw [hd, classify_take_end]
    simp [join_lines]
  | cons l ls ih =>
    intro p ng fuel hd hok hp hf
    obtain ⟨k, rfl⟩ : ∃ k, fuel = k + 1 := ⟨fuel - 1, by simp at hf; omega⟩
    have hl := hok l (List.mem_cons_self _ _)
    have hls : ∀ x ∈ ls, text_line x := fun x hx => hok x (List.mem_cons_of_mem _ hx)
    have hd1 : data.drop p = l ++ 10 :: (join_lines ls ++ (ezn_end ++ tail)) := by
      rw [hd]; simp [join_lines]
    have he : ezn_end.length = 16 := by decide
    have hjl : (join_lines (l :: ls)).length = l.length + 1 + (join_lines ls).length := by
      simp [join_lines]; omega
    rw [global_loop_text_line stale data p k ng l _ hd1 (by simp; omega)
      (fun h => (hl.1 10 h).2 rfl) hl.2.1 hl.2.2 (by omega)]
    have hd2 : data.drop (p + (l.length + 1)) = join_lines ls ++ (ezn_end ++ tail) := by
      have := drop_add_of_drop data p (l ++ [10]) (join_lines ls ++ (ezn_end ++ tail))
        (by rw [hd1]; simp)
      simpa using this
    rw [ih (p + (l.length + 1)) _ k hd2 hls (by omega) (by simp at hf; omega)]
    simp only [List.foldl_cons, hjl]
    have : p + (l.length + 1) + (join_lines ls).length + 16
        = p + (l.length + 1 + (join_lines ls).length) + 16 := by omega
    rw [this]

theorem exec_of_lines_cons (l : Bytes) (ls : List Bytes) :
    exec_of_lines (l :: ls)
      = (match exec_of_lines ls with
         | some e => some e
         | none => if starts_with l (bytes "exec ") then some (strip (l.drop 5)) else none) := by
  unfold exec_of_lines
  rw [List.filter_cons]
  cases hf : List.filter (fun l => starts_with l (bytes "exec ")) ls with
  | nil =>
    by_cases h : starts_with l (bytes "exec ") = true
    · simp [h]
    · simp [h]
  | cons x t =>
    by_cases h : starts_with l (bytes "exec ") = true
    · rw [if_pos h, List.getLast?_cons_cons]
      rw [List.getLast?_eq_getLast _ (by simp)]
      simp
    · rw [if_neg h]
      rw [List.getLast?_eq_getLast _ (by simp)]
      simp

theorem global_lines_fold_text : ∀ (lines : List Bytes) (ng : global_s),
    (∀ l ∈ lines, ∀ c ∈ l, c ≠ 0 ∧ c ≠ 10) →
    lines.foldl (fun g l => global_line g (l ++ [10])) ng
      = ⟨(match exec_of_lines lines with
          | some e => some e
          | none => ng.exec), ng.cleanup || cleanup_of_lines lines⟩ := by
  intro lines
  induction lines with
  | nil => intro ng _; simp [exec_of_lines, cleanup_of_lines]
  | cons l ls ih =>
    intro ng h
    have hl := h l (List.mem_cons_self _ _)
    have hls : ∀ x ∈ ls, ∀ c ∈ x, c ≠ 0 ∧ c ≠ 10 := fun x hx => h x (List.mem_cons_of_mem _ hx)
    rw [List.foldl_cons, ih _ hls, global_line_text ng l hl, exec_of_lines_cons]
    have hc : cleanup_of_lines (l :: ls)
        = (starts_with l (bytes "cleanup") || cleanup_of_lines ls) := by
      simp [cleanup_of_lines]
    rw [hc]
    have hx : starts_with l (bytes "exec ") = true → starts_with l (bytes "cleanup") = false := by
      intro hs
      have hs5 : l.take 5 = bytes "exec " := (starts_with_iff _ _).mp hs
      cases hk : starts_with l (bytes "cleanup") with
      | false => rfl
      | true =>
        have hk7 : l.take 7 = bytes "cleanup" := (starts_with_iff _ _).mp hk
        have h5 : (l.take 7).take 5 = l.take 5 := by rw [List.take_take]; rfl
        rw [hk7, hs5] at h5
        revert h5; decide
    cases he : exec_of_lines ls with
    | some e =>
      by_cases h1 : starts_with l (bytes "exec ") = true
      · simp [h1, hx h1]
      · by_cases h2 : starts_with l (bytes "cleanup") = true
        · simp [h1, h2]
        · simp [h1, h2]
    | none =>
      by_cases h1 : starts_with l (bytes "exec ") = true
      · simp [h1, hx h1]
      · by_cases h2 : starts_with l (bytes "cleanup") = true
        · simp [h1, h2]
        · simp [h1, h2]

/-- C26, amended: Global parsing.  Let the bytes after the GLOB token be text
lines, each ended by a line feed, followed by the END token, where each line has
no NUL byte, at most 4094 bytes and does not begin with the END token, and let
the END token end below offset 2 ^ 31.  Then `global_read` returns (one turn of
its loop per line, and one more) the Global whose exec string is the content
after `exec ` of the last line with that beginning, without trailing CR and LF
bytes (none when there is no such line), and whose cleanup flag is set exactly
when some line starts with `cleanup`; the stream is left right after the 16
bytes of the END token. -/
theorem global_read_text_lines (stale data tail : Bytes) (lines : List Bytes) (p fuel : Nat)
    (hd : data.drop p = join_lines lines ++ (ezn_end ++ tail))
    (hl : ∀ l ∈ lines, text_line l)
    (hp : p + (join_lines lines).length + 16 < 2147483648) (hf : lines.length < fuel) :
    global_read stale fuel ⟨data, p, false⟩
      = some (⟨exec_of_lines lines, cleanup_of_lines lines⟩,
              ⟨data, p + (join_lines lines).length + 16, false⟩) := by
  unfold global_read
  simp only [ftell]
  rw [wrap32_nat p (by omega), global_loop_text_lines stale data tail lines p _ fuel hd hl hp hf,
    global_lines_fold_text lines _ (fun l h => (hl l h).1)]
  cases exec_of_lines lines <;> simp

/-- C26 at an input: a block with two exec lines (CR LF line ends), a cleanup
line and a line that is not a key; the second exec string is returned. -/
theorem global_read_text_lines_witness :
    global_read [] 6
        ⟨bytes "*** EZN GLOB ***\nexec echo hi\r\ncleanup now\n*** no end\nexec  second \r\r\n*** EZN END  ***\n",
          16, false⟩
      = some (⟨some (bytes " second "), true⟩,
          ⟨bytes "*** EZN GLOB ***\nexec echo hi\r\ncleanup now\n*** no end\nexec  second \r\r\n*** EZN END  ***\n",
            86, false⟩) := by
  have h := global_read_text_lines []
    (bytes "*** EZN GLOB ***\nexec echo hi\r\ncleanup now\n*** no end\nexec  second \r\r\n*** EZN END  ***\n")
    [10] [[], bytes "exec echo hi\r", bytes "cleanup now", bytes "*** no end",
      bytes "exec  second \r\r"] 16 6 (by decide) (by decide) (by decide) (by decide)
  rw [h]
  decide

/-- C26, the claim as stated fails: a text line longer than the buffer of
`fgets` (here 4102 bytes: `exec `, 4090 letters and `cleanup`) is taken by
`global_read` in two pieces; the exec string returned is cut after the 4090
letters, and the rest of the line, `cleanup`, sets the cleanup flag although no
line starts with `cleanup`. -/
theorem global_read_long_line_counterexample :
    long_exec_block.drop 16 = join_lines [[], long_exec_line] ++ (ezn_end ++ [10]) ∧
    global_read [] 8 ⟨long_exec_block, 16, false⟩
      = some (⟨some (List.replicate 4090 97), true⟩, ⟨long_exec_block, 4136, false⟩) ∧
    exec_of_lines [[], long_exec_line] = some (List.replicate 4090 97 ++ bytes "cleanup") ∧
    cleanup_of_lines [[], long_exec_line] = false := by
  decide!

theorem entry_payload (e : file_s × Bytes) (h : entry_ok e) :
    emit_file (fun _ => e.2) (header_of_file e.1) = e.2 ∧ record_ok (fun _ => e.2) e.1 := by
  obtain ⟨hn, hm, h0, h1, hl, ht⟩ := h
  have he : emit_file (fun _ => e.2) (header_of_file e.1) = e.2 := by
    unfold emit_file header_of_file
    cases hty : e.1.type with
    | file_regular => rfl
    | file_none =>
      have hz := ht (by rw [hty]; decide)
      have : e.2.length = 0 := by omega
      simp only
      exact (List.length_eq_zero.mp this).symm
    | file_directory =>
      have hz := ht (by rw [hty]; decide)
      have : e.2.length = 0 := by omega
      simp only
      exact (List.length_eq_zero.mp this).symm
  exact ⟨he, hn, hm, by rw [he]; exact hl⟩

theorem emit_entries_length (es : List (file_s × Bytes)) :
    2 * es.length ≤ (emit_entries es).length := by
  induction es with
  | nil => simp
  | cons e es ih =>
    have := emit_header_length e.1
    simp [emit_entries]; omega

/-- The loop of `sections_list` over the blocks of the entries of an archive,
from the HEAD marker of the first one to the end of the file. -/
theorem scan_entries (stale data : Bytes) (hlen : data.length < 2147483648) :
    ∀ (es : List (file_s × Bytes)) (p fuel : Nat) (acc : List section_s),
    data.drop p = emit_entries es → p ≤ data.length → 16 ≤ p →
    (∀ e ∈ es, entry_ok e) → 2 * es.length + 7 ≤ fuel →
    ∃ hs : List header_s,
      sections_loop stale fuel ⟨data, 0, false⟩ (to_size_t data.length) p acc
        = some (acc ++ hs.map section_s.header) ∧
      hs.map (fun h => (h.name, h.type, h.mode, h.length))
        = es.map (fun e => (some e.1.name, e.1.type, e.1.mode, e.1.length)) := by
  intro es
  induction es with
  | nil =>
    intro p fuel acc hd hp h16 _ hf
    obtain ⟨k, rfl⟩ : ∃ k, fuel = k + 1 := ⟨fuel - 1, by omega⟩
    have hL := length_of_drop data p _ hd hp
    simp only [emit_entries, List.length_nil] at hL
    rw [sections_loop_stop stale data k p acc (by omega) (by omega) (by omega)]
    exact ⟨[], by simp, rfl⟩
  | cons e rs ih =>
    intro p fuel acc hd hp h16 hok hf
    simp only [List.length_cons] at hf
    obtain ⟨k, rfl⟩ : ∃ k, fuel = k + 2 := ⟨fuel - 2, by omega⟩
    have he := hok e (List.mem_cons_self _ _)
    obtain ⟨hpay, hr⟩ := entry_payload e he
    have hrs : ∀ x ∈ rs, entry_ok x := fun x hx => hok x (List.mem_cons_of_mem _ hx)
    have hd1 : data.drop p = emit_header (header_of_file e.1) ++ (e.2 ++ emit_entries rs) := by
      rw [hd]; simp [emit_entries]
    have hL := length_of_drop data p _ hd1 hp
    simp only [List.length_append] at hL
    have hH := emit_header_length e.1
    have hd2 : data.drop (p + (emit_header (header_of_file e.1)).length + e.2.length)
        = emit_entries rs := by
      have := drop_add_of_drop data p (emit_header (header_of_file e.1) ++ e.2)
        (emit_entries rs) (by rw [hd1]; simp)
      simpa [Nat.add_assoc] using this
    rw [show k + 2 = (k + 1) + 1 by omega,
      sections_loop_header stale data _ (fun _ => e.2) e.1 p (k + 1) acc hr hlen hd1 hp
        (by rw [hpay]; simp) (by omega), hpay]
    cases rs with
    | nil =>
      simp only [emit_entries, List.length_nil] at hL
      rw [sections_loop_stop stale data k _ _ (by omega) (by omega) (by omega)]
      exact ⟨[⟨some e.1.name, e.1.type, e.1.mode, e.1.length,
        ((p + (emit_header (header_of_file e.1)).length : Nat) : Int)⟩], by simp, rfl⟩
    | cons e2 rs2 =>
      have hH2 := emit_header_length e2.1
      have hd3 : data.drop (p + (emit_header (header_of_file e.1)).length + e.2.length)
          = ezn_head ++ (join_lines (header_lines e2.1) ++ (ezn_end ++ [10])
              ++ (e2.2 ++ emit_entries rs2)) := by
        rw [hd2]; simp [emit_entries, emit_header_eq]
      have hL2 : (emit_entries (e2 :: rs2)).length ≥ 33 := by
        simp [emit_entries]; omega
      have hc := classify_before_head data _ _ (by omega) (by omega) hd3
      rw [sections_loop_step stale data k _ _ (by omega) (by omega) (by rw [hc]; decide)
        (by rw [hc]; decide)]
      rw [show p + (emit_header (header_of_file e.1)).length + e.2.length - 1 + 1
          = p + (emit_header (header_of_file e.1)).length + e.2.length by omega]
      obtain ⟨hs, h1, h2⟩ := ih _ k (acc ++ [section_s.header ⟨some e.1.name, e.1.type, e.1.mode,
        e.1.length, ((p + (emit_header (header_of_file e.1)).length : Nat) : Int)⟩])
        hd2 (by omega) (by omega) hrs (by simp at hf ⊢; omega)
      refine ⟨⟨some e.1.name, e.1.type, e.1.mode, e.1.length,
        ((p + (emit_header (header_of_file e.1)).length : Nat) : Int)⟩ :: hs, ?_, ?_⟩
      · rw [h1]; simp
      · simp only [List.map_cons, h2]

/-- C27, amended: round trip under explicit conditions.  If no marker token
begins at an offset inside the host, the exec string (when present) and every
name are clean texts (no NUL, LF or CR byte, at most 4000 bytes), every mode is
a `mode_t`, every length is in [0, 2 ^ 31) and is the number of payload bytes
(none for an entry that is not regular), and the archive is shorter than 2 ^ 31
bytes, then the scan of the host, the DATA line, the Global block and, for each
entry, the Header block and the payload finishes (within as many turns as the
archive has bytes) and returns the Global followed by one Header per entry, in
order, with the same name, type, mode and length, whatever the payload bytes. -/
theorem archive_roundtrip (stale host : Bytes) (g : global_s) (es : List (file_s × Bytes))
    (hhost : host_clean host) (hg : global_ok g) (hes : ∀ e ∈ es, entry_ok e)
    (hsize : (archive_bytes host g es).length < 2147483648)
    (fuel : Nat) (hf : (archive_bytes host g es).length ≤ fuel) :
    ∃ hs : List header_s,
      sections_list stale fuel (archive_bytes host g es)
        = some (section_s.global g :: hs.map section_s.header) ∧
      hs.map (fun h => (h.name, h.type, h.mode, h.length))
        = es.map (fun e => (some e.1.name, e.1.type, e.1.mode, e.1.length)) := by
  have hG := emit_global_length g
  have hF := emit_entries_length es
  have hD : emit_data.length = 17 := by decide
  have hA : (archive_bytes host g es).length
      = host.length + 17 + (emit_global g).length + (emit_entries es).length := by
    simp [archive_bytes, hD]; omega
  generalize hdata : archive_bytes host g es = data at hf hsize hA
  have hsplit1 : data = (host ++ emit_data) ++ (emit_global g ++ emit_entries es) := by
    rw [← hdata]; simp [archive_bytes]
  have hsplit2 : data = host ++ ((emit_data ++ ezn_glob)
      ++ (join_lines (global_lines g) ++ (ezn_end ++ [10]) ++ emit_entries es)) := by
    rw [← hdata]; simp [archive_bytes, emit_global_eq]
  obtain ⟨k, rfl⟩ : ∃ k, fuel = (host.length + 17) + (k + 1) :=
    ⟨fuel - (host.length + 17) - 1, by omega⟩
  unfold sections_list fopen_r
  rw [sections_loop_skip stale data (by omega) (host.length + 17) 0 (k + 1) [] (by omega)]
  · have hd : data.drop (0 + (host.length + 17)) = emit_global g ++ emit_entries es := by
      have := drop_add_of_drop data 0 (host ++ emit_data) _ (by simpa using hsplit1)
      simpa [hD] using this
    rw [sections_loop_global stale data _ g _ k [] hg hsize hd (by omega) (by omega)]
    have hd2 : data.drop (0 + (host.length + 17) + (emit_global g).length)
        = emit_entries es := by
      have := drop_add_of_drop data 0 (host ++ emit_data ++ emit_global g)
        (emit_entries es) (by rw [hsplit1]; simp)
      simpa [hD, Nat.add_assoc] using this
    obtain ⟨hs, h1, h2⟩ := scan_entries stale data hsize es _ k ([] ++ [section_s.global g])
      hd2 (by omega) (by omega) hes (by omega)
    exact ⟨hs, by rw [h1]; simp, h2⟩
  · intro j _ hj
    by_cases hjh : j < host.length
    · have hw : (data.drop j).take 16 = (((host ++ emit_data).drop j).take 16) := by
        rw [hsplit1]
        exact window_of_prefix _ _ j (by simp [hD]; omega)
      rw [hw, hhost j hjh]
      decide
    · obtain ⟨i, rfl⟩ : ∃ i, j = host.length + i := ⟨j - host.length, by omega⟩
      have hw : (data.drop (host.length + i)).take 16
          = (((emit_data ++ ezn_glob).drop i).take 16) := by
        rw [hsplit2, List.drop_append]
        exact window_of_prefix _ _ i (by
          have : ezn_glob.length = 16 := by decide
          simp [hD, this]; omega)
      rw [hw]
      exact data_line_windows i (by omega)

/-- C27 at an input: the archive of Scenario A. -/
theorem archive_roundtrip_witness :
    ∃ hs : List header_s,
      sections_list [] 340 (archive_bytes scenario_host scenario_global scenario_entries)
        = some (section_s.global scenario_global :: hs.map section_s.header) ∧
      hs.map (fun h => (h.name, h.type, h.mode, h.length))
        = [(some (bytes "a.txt"), file_type.file_regular, 420, 12),
           (some (bytes "sub"), file_type.file_directory, 493, 0),
           (some (bytes "sub/b.txt"), file_type.file_regular, 420, 5)] :=
  archive_roundtrip [] scenario_host scenario_global scenario_entries (by decide) (by decide)
    (by decide) (by decide) 340 (by decide)

theorem large_host_length : large_host.length = 2147483648 := List.length_replicate _ _

theorem large_host_window (t : Bytes) (j : Nat) (hj : j < 2147483648) :
    classify (((large_host ++ t).drop j).take 16) = marker_type.marker_none := by
  obtain ⟨k, hk⟩ : ∃ k, 2147483648 - j = k + 1 := ⟨2147483648 - j - 1, by omega⟩
  have hd : large_host.drop j = 0 :: List.replicate k 0 := by
    unfold large_host
    rw [List.drop_replicate, hk, List.replicate_succ]
  have hle : j ≤ large_host.length := by rw [large_host_length]; omega
  rw [List.drop_append_of_le_length hle, hd, List.cons_append, List.take_succ_cons]
  exact classify_head_ne 0 _ (by decide)

theorem large_host_drop (t : Bytes) (q : Nat) (hq : 2147483648 ≤ q) :
    (large_host ++ t).drop q = t.drop (q - 2147483648) := by
  obtain ⟨k, rfl⟩ : ∃ k, q = 2147483648 + k := ⟨q - 2147483648, by omega⟩
  have h := @List.drop_append Nat large_host t k
  rw [large_host_length] at h
  rw [Nat.add_sub_cancel_left]
  exact h

/-- A turn of the loop of `global_read` when `loc` is negative: the `fseek`
fails, and `fgets` reads on after the 16 bytes that `read_marker` took. -/
theorem global_loop_stray_line (stale data : Bytes) (p fuel : Nat) (loc : Int) (ng : global_s)
    (l rest : Bytes) (hloc : loc < 0) (h16 : 16 ≤ (data.drop p).length)
    (hw : classify ((data.drop p).take 16) ≠ marker_type.marker_end)
    (hd : data.drop (p + 16) = l ++ 10 :: rest) (hnl : 10 ∉ l) (hl : l.length < 4095) :
    global_loop stale (fuel + 1) ⟨data, p, false⟩ loc ng
      = global_loop stale fuel ⟨data, p + 16 + (l.length + 1), false⟩
          (wrap32 ((p + 16 + (l.length + 1) : Nat) : Int)) (global_line ng (l ++ [10])) := by
  have hs : ∀ f : FILE, fseek_set f loc = f := by
    intro f; unfold fseek_set; rw [if_pos hloc]
  conv_lhs => unfold global_loop
  simp only [read_marker_full stale data p false h16]
  rw [if_neg hw]
  simp only [hs, fgets_line data (p + 16) l rest hd hnl hl, ftell]

theorem global_loop_end (stale data : Bytes) (p fuel : Nat) (loc : Int) (ng : global_s)
    (h16 : 16 ≤ (data.drop p).length)
    (hw : classify ((data.drop p).take 16) = marker_type.marker_end) :
    global_loop stale (fuel + 1) ⟨data, p, false⟩ loc ng = some (ng, ⟨data, p + 16, false⟩) := by
  unfold global_loop
  simp only [read_marker_full stale data p false h16]
  rw [if_pos hw]

/-- The scan of the archive of `scenario_global` and no entry behind the host of
2 ^ 31 zero bytes: the offsets of the Global block do not fit an `int`, and
`global_read` returns a Global without exec string and without cleanup flag. -/
theorem large_archive_scan (fuel : Nat) (hf : 2147483668 ≤ fuel) :
    sections_list [] fuel (archive_bytes large_host scenario_global [])
      = some [section_s.global ⟨none, false⟩] := by
  have hD : archive_bytes large_host scenario_global []
      = large_host ++ (emit_data ++ emit_global scenario_global) := by
    simp only [archive_bytes, emit_entries, List.append_nil, List.append_assoc]
  have hTl : (emit_data ++ emit_global scenario_global).length = 72 := by decide
  have hlen : (archive_bytes large_host scenario_global []).length = 2147483720 := by
    rw [hD, List.length_append, large_host_length, hTl]
  have hhead : ∀ j, j < 2147483648 →
      classify (((archive_bytes large_host scenario_global []).drop j).take 16)
        = marker_type.marker_none := by
    intro j hj; rw [hD]; exact large_host_window _ j hj
  have htail : ∀ q, 2147483648 ≤ q → (archive_bytes large_host scenario_global []).drop q
      = (emit_data ++ emit_global scenario_global).drop (q - 2147483648) := by
    intro q hq; rw [hD]; exact large_host_drop _ q hq
  generalize archive_bytes large_host scenario_global [] = data at hlen hhead htail
  have hwin : ∀ j, 0 ≤ j → j < 0 + (2147483648 + 17) →
      classify ((data.drop j).take 16) ≠ marker_type.marker_global ∧
      classify ((data.drop j).take 16) ≠ marker_type.marker_header := by
    intro j _ hj
    by_cases hjh : j < 2147483648
    · rw [hhead j hjh]; decide
    · rw [htail j (by omega)]
      have hall : ∀ i, i < 17 →
          classify (((emit_data ++ emit_global scenario_global).drop i).take 16)
            ≠ marker_type.marker_global ∧
          classify (((emit_data ++ emit_global scenario_global).drop i).take 16)
            ≠ marker_type.marker_header := by decide
      exact hall _ (by omega)
  have hb := loop_bound data.length (by omega) (by omega)
  have h16a : 16 ≤ (data.drop 2147483665).length := by rw [htail _ (by decide)]; decide
  have hwa : classify ((data.drop 2147483665).take 16) = marker_type.marker_global := by
    rw [htail _ (by decide)]; decide
  have h16b : 16 ≤ (data.drop 2147483681).length := by rw [htail _ (by decide)]; decide
  have hwb : classify ((data.drop 2147483681).take 16) ≠ marker_type.marker_end := by
    rw [htail _ (by decide)]; decide
  have hdb : data.drop (2147483681 + 16) = bytes "eanup" ++ 10 :: (ezn_end ++ [10]) := by
    rw [htail _ (by decide)]; decide
  have h16c : 16 ≤ (data.drop 2147483703).length := by rw [htail _ (by decide)]; decide
  have hwc : classify ((data.drop 2147483703).take 16) = marker_type.marker_end := by
    rw [htail _ (by decide)]; decide
  have hloc : wrap32 ((2147483681 : Nat) : Int) < 0 := by unfold wrap32; omega
  have hgl : global_line ⟨none, false⟩ (bytes "eanup" ++ [10]) = ⟨none, false⟩ := by decide
  have hgr : ∀ m, 2 ≤ m → global_read [] m ⟨data, 2147483665 + 16, false⟩
      = some (⟨none, false⟩, ⟨data, 2147483719, false⟩) := by
    intro m hm
    obtain ⟨k, rfl⟩ : ∃ k, m = k + 1 + 1 := ⟨m - 2, by omega⟩
    unfold global_read
    simp only [ftell]
    rw [show 2147483665 + 16 = 2147483681 by decide,
      global_loop_stray_line [] data 2147483681 (k + 1) _ _ (bytes "eanup") _ hloc h16b hwb hdb
        (by decide) (by decide),
      show 2147483681 + 16 + ((bytes "eanup").length + 1) = 2147483703 by decide,
      global_loop_end [] data 2147483703 k _ _ h16c hwc, hgl,
      show 2147483703 + 16 = 2147483719 by decide]
  obtain ⟨m, rfl⟩ : ∃ m, fuel = (2147483648 + 17) + (m + 1) :=
    ⟨fuel - 2147483666, by omega⟩
  have hm : 2 ≤ m := by omega
  unfold sections_list fopen_r
  rw [sections_loop_skip [] data (by omega) (2147483648 + 17) 0 (m + 1) [] (by omega) hwin,
    show 0 + (2147483648 + 17) = 2147483665 by decide]
  have hrm := read_marker_full [] data 2147483665 false h16a
  rw [sections_loop]
  simp only [hb, to_long_nat 2147483665 (by omega), fseek_set_nat, hrm, hwa]
  rw [if_pos (by omega)]
  simp only [hgr m hm, ftell]
  have hi : to_size_t (((2147483719 : Nat) : Int) + 1) = 2147483720 := by
    unfold to_size_t; omega
  rw [hi, sections_loop_norm _ _ _ _ _ _ (by omega)]
  obtain ⟨j, rfl⟩ : ∃ j, m = j + 1 := ⟨m - 1, by omega⟩
  rw [sections_loop_stop [] data j _ _ (by omega) (by omega) (by omega)]
  rfl

/-- C27, the claim as stated fails: behind a host of 2 ^ 31 zero bytes (in which
no marker token begins) the offsets of the Global block are beyond the range of
`int`; `global_read` keeps the position in an `int`, its `fseek` to the
negative value fails, and the scan of the archive of the Global `echo hi` with
cleanup and no entry returns a Global without exec string and without cleanup
flag. -/
theorem archive_roundtrip_counterexample :
    host_clean large_host ∧ global_ok scenario_global ∧
    (archive_bytes large_host scenario_global []).length = 2147483720 ∧
    sections_list [] 2147483748 (archive_bytes large_host scenario_global [])
      = some [section_s.global ⟨none, false⟩] ∧
    (⟨none, false⟩ : global_s) ≠ scenario_global := by
  refine ⟨fun j hj => large_host_window emit_data j (by rw [large_host_length] at hj; exact hj),
    by decide, ?_, large_archive_scan 2147483748 (by decide), by decide⟩
  have hTl : (emit_data ++ emit_global scenario_global).length = 72 := by decide
  simp only [archive_bytes, emit_entries, List.append_nil, List.append_assoc,
    List.length_append, large_host_length] at hTl ⊢
  rw [hTl]

theorem extract_loop_status (env : Env) : ∀ (ss : List section_s) (f : FILE) (hist : List Call),
    (extract_loop env ss f hist).1 = none ∨ (extract_loop env ss f hist).1 = some 0 := by
  intro ss
  induction ss with
  | nil => intro f hist; right; rfl
  | cons s ss ih =>
    intro f hist
    cases s with
    | global g => simpa [extract_loop] using ih f hist
    | header h =>
      unfold extract_loop
      cases ht : h.type with
      | file_none => exact ih f _
      | file_regular =>
        cases hm : h.name with
        | none => left; rfl
        | some n =>
          simp only []
          split
          · exact ih _ _
          · exact ih _ _
      | file_directory =>
        cases hm : h.name with
        | none => left; rfl
        | some n => exact ih f _

theorem exec_calls_cons (g : global_s) (gs : List global_s) :
    exec_calls (g :: gs)
      = (match g.exec with
         | some e => if e.length ≠ 0 then [Call.system e] else []
         | none => []) ++ exec_calls gs := by
  unfold exec_calls
  cases he : g.exec with
  | none => simp [List.filterMap_cons, he]
  | some e =>
    by_cases hl : e = []
    · simp [List.filterMap_cons, he, hl]
    · simp [List.filterMap_cons, he, hl]

theorem run_loop_calls (env : Env) : ∀ (ss : List section_s) (r : Int) (hist : List Call),
    (run_loop env ss r hist).2 = hist ++ exec_calls (globals_of ss) := by
  intro ss
  induction ss with
  | nil => intro r hist; simp [run_loop, globals_of, exec_calls]
  | cons s ss ih =>
    intro r hist
    cases s with
    | header hd => simpa [run_loop, globals_of] using ih r hist
    | global g =>
      rw [globals_of, exec_calls_cons]
      unfold run_loop
      cases he : g.exec with
      | none => simpa using ih 0 hist
      | some e =>
        simp only []
        split
        · rw [ih]; simp
        · rw [ih]; simp

theorem run_loop_append (env : Env) : ∀ (pre post : List section_s) (r : Int) (hist : List Call),
    run_loop env (pre ++ post) r hist
      = run_loop env post (run_loop env pre r hist).1 (run_loop env pre r hist).2 := by
  intro pre
  induction pre with
  | nil => intro post r hist; rfl
  | cons s pre ih =>
    intro post r hist
    cases s with
    | header hd => simpa [run_loop] using ih post r hist
    | global g =>
      simp only [List.cons_append]
      cases he : g.exec with
      | none =>
        simp only [run_loop, he]
        exact ih post 0 hist
      | some e =>
        simp only [run_loop, he]
        split
        · exact ih post _ _
        · exact ih post 0 hist

end Ezn
